import Mathlib

/-! The vault-admin reconciliation engine, substitution layer and KV path adapter.

A shallow embedding of `src/utils.go`, `src/auth_methods.go`,
`src/secrets-engines-gcp.go`, `src/src/secrets-engines-aws.go` and
`src/rotate-creds.go`.

Conventions of the embedding

* Go strings are Lean `String`s; the text algorithms work on the underlying
  `List Char`.  The placeholder pattern and all separators are ASCII, so
  working on code points or on bytes gives the same matches.
* A Go `map[string]V` is an association list `List (String × V)` listed in the
  order in which `range` visits it.  Go leaves that order unspecified, so
  theorems quantify over every list; uniqueness of keys is a hypothesis where a
  statement needs it.
* The coordinator's interaction with the backend, with the two task queues and
  with the completion counter `wg` is recorded as a list of `Event`s, oldest
  first.  `log.Fatal` ends the run: it is the `fatal` outcome.
-/

namespace VaultAdmin

/-! ## Go standard library: `strings`, `path`, `regexp` -/

/-- Go `strings.Split(s, "/")` on characters: the maximal `/`-free pieces, in order.
The empty text gives one empty piece. -/
def splitSlash : List Char → List (List Char)
  | [] => [[]]
  | c :: cs =>
    if c = '/' then [] :: splitSlash cs
    else match splitSlash cs with
      | [] => [[c]]
      | h :: t => (c :: h) :: t

/-- Go `strings.Join(parts, "/")` on characters. -/
def joinSlash : List (List Char) → List Char
  | [] => []
  | [a] => a
  | a :: b :: t => a ++ '/' :: joinSlash (b :: t)

/-- One step of `path.Clean` over the components written so far (`out`, in order):
empty and `.` components are dropped, `..` removes the last written component
when there is one that is not itself a kept `..`, is kept for a relative path
and dropped at the root; any other component is written. -/
def cleanStep (rooted : Bool) (out : List (List Char)) (comp : List Char) :
    List (List Char) :=
  if comp = [] ∨ comp = ['.'] then out
  else if comp = ['.', '.'] then
    match out.getLast? with
    | some top => if top = ['.', '.'] then out ++ [comp] else out.dropLast
    | none => if rooted then out else out ++ [comp]
  else out ++ [comp]

/-- Go `path.Clean` on characters. -/
def pathCleanChars (p : List Char) : List Char :=
  if p = [] then ['.']
  else
    let rooted : Bool := p.head? = some '/'
    let out := (splitSlash p).foldl (cleanStep rooted) []
    let body := joinSlash out
    if rooted then '/' :: body
    else if body = [] then ['.'] else body

/-- Go `path.Join`: the non-empty elements joined by `/`, then cleaned; the
empty text when every element is empty. -/
def pathJoin (elem : List String) : String :=
  let parts := (elem.filter (fun e => e ≠ "")).map String.data
  if parts = [] then "" else String.mk (pathCleanChars (joinSlash parts))

/-- Leftmost non-overlapping replacement of `old` (non-empty) by `new`;
`skip` counts the characters of a match just replaced that are still to be
passed over. -/
def replaceFrom (old new : List Char) : Nat → List Char → List Char
  | _, [] => []
  | skip + 1, _ :: t => replaceFrom old new skip t
  | 0, c :: t =>
    if old.isPrefixOf (c :: t) then new ++ replaceFrom old new (old.length - 1) t
    else c :: replaceFrom old new 0 t

/-- Go `strings.Replace(s, old, new, -1)`.  For an empty `old` Go inserts `new`
before every character and at the end. -/
def stringsReplace (s old new : String) : String :=
  if old.data = [] then String.mk (new.data ++ s.data.flatMap (fun c => c :: new.data))
  else String.mk (replaceFrom old.data new.data 0 s.data)

/-- The character class `[a-zA-Z0-9_]`. -/
def isWordChar (c : Char) : Bool :=
  ('a' ≤ c ∧ c ≤ 'z') ∨ ('A' ≤ c ∧ c ≤ 'Z') ∨ ('0' ≤ c ∧ c ≤ '9') ∨ c = '_'

/-- A match of `%\{[a-zA-Z0-9_]+\}%` anchored at the head of `s`: the matched
token.  The run of word characters is followed by `}`, which is not a word
character, so the greedy run is the only candidate. -/
def matchHere (s : List Char) : Option (List Char) :=
  match s with
  | '%' :: '{' :: t =>
    let w := t.takeWhile isWordChar
    match t.dropWhile isWordChar with
    | '}' :: '%' :: _ => if w = [] then none else some ('%' :: '{' :: (w ++ ['}', '%']))
    | _ => none
  | _ => none

/-- All leftmost non-overlapping matches, in order; `skip` counts the
characters of the last match still to be passed over. -/
def findAllFrom : Nat → List Char → List (List Char)
  | _, [] => []
  | skip + 1, _ :: t => findAllFrom skip t
  | 0, c :: t =>
    match matchHere (c :: t) with
    | some tok => tok :: findAllFrom (tok.length - 1) t
    | none => findAllFrom 0 t

/-- Go `re.FindAllStringSubmatch(s, -1)` for `(%\{[a-zA-Z0-9_]+\}%)`, keeping
`match[0]` of every match. -/
def findAllPlaceholders (s : String) : List String :=
  (findAllFrom 0 s.data).map String.mk


/-- Go `filepath.Ext` on characters: the suffix starting at the last dot of the
last `/`-separated element, empty when that element has no dot. -/
def extChars (s : List Char) : List Char :=
  let notSep : Char → Bool := fun c => c ≠ '.' ∧ c ≠ '/'
  match s.reverse.dropWhile notSep with
  | '.' :: _ => '.' :: (s.reverse.takeWhile notSep).reverse
  | _ => []

/-- Go `filepath.Ext`. -/
def filepathExt (name : String) : String := String.mk (extChars name.data)

/-! ## Data model -/

/-- A value decoded by `encoding/json` into `interface{}`.  The backend client
decodes numbers as `json.Number`, which is not the Go type `string`. -/
inductive Json where
  | null
  | bool (b : Bool)
  | num (n : String)
  | str (s : String)
  | arr (a : List Json)
  | obj (o : List (String × Json))

/-- The fields of the backend client's `Secret` that the code reads. -/
structure Secret where
  Warnings : List String
  Data : List (String × Json)

/-- The fields of the backend client's `MountOutput` that the code reads.
`Options = none` is the nil map. -/
structure MountOutput where
  type : String
  Options : Option (List (String × String))

/-- The field of the backend client's `AuthMount` that the code reads. -/
structure AuthMount where
  type : String
  deriving DecidableEq

/-- Go `error` values: the sentinel `ErrNotExist` or any other error. -/
inductive GoError where
  | ErrNotExist
  | other (msg : String)
  /-- the error `performSubstitutions` builds with `fmt.Errorf` from the full
  secret path and `strings.Join(matchArray, ", ")` -/
  | substitutionsNotFound (fullSecretPath : String) (matchArray : List String)
  deriving DecidableEq

/-- The tuning parameters of the backend client's `AuthConfigInput` that the code reads. -/
structure AuthConfigInput where
  DefaultLeaseTTL : String
  MaxLeaseTTL : String
  ListingVisibility : String
  deriving DecidableEq

/-- The fields of the backend client's `EnableAuthOptions` that the code reads. -/
structure EnableAuthOptions where
  type : String
  Description : String
  Config : AuthConfigInput
  deriving DecidableEq

/-- The backend client's `MountConfigInput`, as filled by `configureAuthMethods`. -/
structure MountConfigInput where
  DefaultLeaseTTL : String
  MaxLeaseTTL : String
  ListingVisibility : String
  Description : Option String
  deriving DecidableEq

/-- The struct `authMethod` of `auth_methods.go`.  `Config = none` is the nil map. -/
structure authMethod where
  Name : String
  Path : String
  AuthOptions : EnableAuthOptions
  Config : Option (List (String × Json))
  AdditionalConfig : Json

/-- The type `authMethodList` of `auth_methods.go`: a map from mount path to descriptor. -/
abbrev authMethodList := List (String × authMethod)

/-- The struct `GcpCredentials`. -/
structure GcpCredentials where
  type : String
  ProjectId : String
  PrivateKeyId : String
  PrivateKey : String
  ClientEmail : String
  ClientId : String
  AuthUri : String
  TokenUri : String
  AuthProviderX509CertUrl : String
  ClientX509CertUrl : String
  deriving DecidableEq

/-- The struct `GcpRootConfig`. -/
structure GcpRootConfig where
  Credentials : GcpCredentials
  deriving DecidableEq

/-- The struct `GcpConfigLease`. -/
structure GcpConfigLease where
  TTL : String
  MaxTTL : String
  deriving DecidableEq

/-- The struct `gcpBinding`. -/
structure gcpBinding where
  Resource : String
  Roles : List String
  deriving DecidableEq

/-- The struct `gcpRoleSetEntry`. -/
structure gcpRoleSetEntry where
  Project : String
  SecretType : String
  Bindings : List gcpBinding
  deriving DecidableEq

/-- The struct `SecretsEngineGCP`. -/
structure SecretsEngineGCP where
  RootConfig : GcpRootConfig
  OverwriteRootCredentials : Bool
  ConfigLease : GcpConfigLease
  RoleSets : List (String × gcpRoleSetEntry)
  deriving DecidableEq

/-- The struct `AwsRootConfig`. -/
structure AwsRootConfig where
  AccessKey : String
  SecretKey : String
  IAMEndpoint : String
  STSEndpoint : String
  Region : String
  MaxRetries : Int
  deriving DecidableEq

/-- The struct `AwsConfigLease`. -/
structure AwsConfigLease where
  Lease : String
  LeaseMax : String
  deriving DecidableEq

/-- The struct `AwsRole`. -/
structure AwsRole where
  Policy : String
  deriving DecidableEq

/-- The struct `SecretsEngineAWS`: a root config, a lease config and the roles.
It has no overwrite flag. -/
structure SecretsEngineAWS where
  RootConfig : AwsRootConfig
  ConfigLease : AwsConfigLease
  Roles : List (String × AwsRole)
  deriving DecidableEq

/-- The fields of the struct `SecretsEngine` that the engine reconcilers read
(its declaration is outside the files embedded here). -/
structure SecretsEngine where
  Name : String
  Path : String
  JustEnabled : Bool
  deriving DecidableEq

/-- The `Data` of a task or of a synchronous write: the map `structToMap`
yields for a struct, named by the struct it was made from, or a configuration
map passed as it is. -/
inductive TaskData where
  | mountConfigInput (mc : MountConfigInput)
  | authConfig (c : List (String × Json))
  | gcpRootConfig (r : GcpRootConfig)
  | gcpConfigLease (l : GcpConfigLease)
  | gcpRoleSet (r : gcpRoleSetEntry)
  | awsRootConfig (r : AwsRootConfig)
  | awsConfigLease (l : AwsConfigLease)
  | awsRole (r : AwsRole)
  | nil

/-- The struct `taskWrite` sent on `taskChan`. -/
structure taskWrite where
  Path : String
  Description : String
  Data : TaskData

/-- The struct `taskDelete` sent on `taskPromptChan`. -/
structure taskDelete where
  Description : String
  Path : String
  deriving DecidableEq

/-- What the coordinating control flow does to the backend, to the two queues
and to the completion counter. -/
inductive Event where
  | listMounts
  | listAuth
  | enableAuth (path : String) (opts : EnableAuthOptions)
  | read (path : String)
  | list (path : String)
  | write (path : String) (data : TaskData)
  | delete (path : String)
  | wgAdd
  | wgWait
  | taskChanSend (task : taskWrite)
  | taskPromptChanSend (task : taskDelete)
  | additionalConfig (type : String) (path : String)
  | askForConfirmation (msg : String)

/-- How a piece of the run ends: it returns, or `log.Fatal` ends the process. -/
inductive Outcome (α : Type) where
  | ok (a : α)
  | fatal (msg : String)

/-- The backend and the process-wide settings, as far as the code depends on them. -/
structure Env where
  /-- The setting `Spec.VaultSecretBasePath` -/
  VaultSecretBasePath : String
  /-- The setting `Spec.ConfigurationPath` -/
  ConfigurationPath : String
  /-- The result of `VaultSys.ListMounts()`; `none` is an error -/
  mounts : Option (List (String × MountOutput))
  /-- The result of `Vault.Read(path)`: an error, no secret (`nil, nil`), or a secret -/
  vaultRead : String → Except GoError (Option Secret)
  /-- The result of `Vault.List(path)` -/
  vaultList : String → Except GoError (Option Secret)
  /-- the error of `VaultSys.EnableAuthWithOptions(path, opts)`, if any -/
  enableAuthErr : String → Option String
  /-- the error of a synchronous `Vault.Write(path, data)`, if any -/
  vaultWriteErr : String → Option String
  /-- the secret that `Vault.Write(path, data)` returns when it returns no error;
  `none` is the nil secret -/
  vaultWriteSecret : String → Option Secret := fun _ => none
  /-- the error of `Vault.Delete(path)`, if any -/
  vaultDeleteErr : String → Option String
  /-- the order in which `for ... range` visits the entries of a map -/
  range : {V : Type} → List (String × V) → List (String × V)
  /-- A `range` visits every entry of the map once -/
  range_perm : ∀ {V : Type} (m : List (String × V)), (range m).Perm m
  /-- The result of `ioutil.ReadFile(path)`; `none` is an error -/
  readFile : String → Option String
  /-- The result of `ioutil.ReadDir(path)`: the file names; `none` is an error -/
  readDir : String → Option (List String)
  /-- The test `isJSON`: whether `encoding/json` decodes the text into a map -/
  isJSON : String → Bool
  /-- The result of `json.Unmarshal` of a text into an `authMethod` whose `Name` and `Path`
  are already set; `none` is an error -/
  unmarshalAuthMethod : String → authMethod → Option authMethod
  /-- The result of `json.Unmarshal` into a `SecretsEngineGCP` -/
  unmarshalGcp : String → Option SecretsEngineGCP
  /-- The result of `json.Unmarshal` into a `gcpRoleSetEntry` -/
  unmarshalGcpRoleSet : String → Option gcpRoleSetEntry
  /-- The result of `json.Unmarshal` into a `SecretsEngineAWS` -/
  unmarshalAws : String → Option SecretsEngineAWS
  /-- whether the kind-specific configuration of an auth method ends the run -/
  additionalConfigFatal : String → String → Bool
  /-- the operator's answer to a confirmation prompt -/
  confirm : String → Bool

/-- The state the coordinator changes: the live auth mounts and its own record
of events. -/
structure World where
  auth : List (String × AuthMount)
  trace : List Event

/-- A piece of the run: from a world to an outcome and the world it leaves. -/
def Run (α : Type) : Type := World → Outcome α × World

/-- Return a value, changing nothing. -/
def Run.pure {α : Type} (a : α) : Run α := fun w => (Outcome.ok a, w)

/-- Sequence two pieces; a fatal outcome ends the run there. -/
def Run.bind {α β : Type} (x : Run α) (f : α → Run β) : Run β := fun w =>
  match x w with
  | (Outcome.ok a, w1) => f a w1
  | (Outcome.fatal msg, w1) => (Outcome.fatal msg, w1)

instance : Monad Run where
  pure := Run.pure
  bind := Run.bind

/-- Record one event. -/
def emit (e : Event) : Run Unit := fun w =>
  (Outcome.ok (), { w with trace := w.trace ++ [e] })

/-- Go `log.Fatal`. -/
def logFatal {α : Type} (msg : String) : Run α := fun w => (Outcome.fatal msg, w)

/-- A `for ... range` loop over a list. -/
def forRange {α : Type} (f : α → Run Unit) : List α → Run Unit
  | [] => pure ()
  | a :: as => do f a; forRange f as

/-- Go map assignment `m[k] = v`. -/
def mapSet {V : Type} (m : List (String × V)) (k : String) (v : V) : List (String × V) :=
  if m.any (fun e => e.1 = k) then m.map (fun e => if e.1 = k then (k, v) else e)
  else m ++ [(k, v)]

/-- Go map lookup `m[k]` with the `ok` flag. -/
def mapGet {V : Type} (m : List (String × V)) (k : String) : Option V :=
  (m.find? (fun e => e.1 = k)).map Prod.snd

/-- Go `strings.Split(s, "/")`. -/
def stringsSplit (s : String) : List String := (splitSlash s.data).map String.mk

/-- Go `strings.Join(parts, "/")`. -/
def stringsJoin (parts : List String) : String :=
  String.mk (joinSlash (parts.map String.data))

/-- Go `strings.TrimSuffix(s, suffix)`. -/
def stringsTrimSuffix (s suffix : String) : String :=
  if suffix.data.isSuffixOf s.data then String.mk (s.data.take (s.data.length - suffix.data.length))
  else s

/-! ## `utils.go` -/

/-- The function `SliceInsert`: `append(a[:index+1], a[index:]...)` followed by
`a[index] = value`, or a plain `append` when `index` is the length. -/
def SliceInsert {V : Type} (a : List V) (index : Nat) (value : V) : List V :=
  if a.length = index then a ++ [value]
  else (a.take (index + 1) ++ a.drop index).set index value

/-- The function `checkExt`. -/
def checkExt (filename ext : String) : Bool := filepathExt filename = ext

/-- The call `VaultSys.ListAuth()`, its error dropped as the callers do. -/
def listAuth : Run (List (String × AuthMount)) := fun w =>
  (Outcome.ok w.auth, { w with trace := w.trace ++ [Event.listAuth] })

/-- The key `pathParts[0]+"/"` under which `kvVersionByPath` looks the mount up,
for `pathParts := strings.Split(path, "/")`. -/
def mountPoint (path : String) : String := (stringsSplit path).headD "" ++ "/"

/-- The function `kvVersionByPath`. -/
def kvVersionByPath (env : Env) (path : String) : Run (Except GoError Nat) := do
  emit Event.listMounts
  match env.mounts with
  | none => logFatal "Failed to list mounts"
  | some mounts =>
    let mountName := mountPoint path
    match mapGet mounts mountName with
    | some mount =>
      if mount.type ≠ "kv" then
        pure (Except.error (GoError.other
          ("cannot determine kv version; mountpoint '" ++ mountName ++
            "' is not a kv secret backend")))
      else match mount.Options with
        | none => pure (Except.ok 1)
        | some options =>
          if (mapGet options "version").getD "" = "2" then pure (Except.ok 2)
          else pure (Except.ok 1)
    | none =>
      pure (Except.error (GoError.other
        ("cannot determine kv version; mountpoint '" ++ mountName ++ "' not found")))

/-- The inner loop of `getSecretArray` over the entries of a `data` object:
string values are stored, any other value is passed over. -/
def secretDataEntries :
    List (String × Json) → List (String × String) → List (String × String)
  | [], secretArray => secretArray
  | (x, Json.str data) :: rest, secretArray => secretDataEntries rest (mapSet secretArray x data)
  | (_, _) :: rest, secretArray => secretDataEntries rest secretArray

/-- The loop of `getSecretArray` over `secret.Data`, given in visiting order. -/
def secretEntries (env : Env) (path : String) :
    List (String × Json) → List (String × String) → Run (List (String × String))
  | [], secretArray => pure secretArray
  | (k, Json.str value) :: rest, secretArray =>
    secretEntries env path rest (mapSet secretArray k value)
  | (k, Json.obj value) :: rest, secretArray =>
    if k = "data" then secretEntries env path rest (secretDataEntries (env.range value) secretArray)
    else secretEntries env path rest secretArray
  | (_, _) :: _, _ => logFatal ("Issue parsing Vault secret [" ++ path ++ "]")

/-- The function `getSecretArray`. -/
def getSecretArray (env : Env) (path : String) :
    Run (Except GoError (List (String × String))) := do
  let kv ← kvVersionByPath env path
  match kv with
  | Except.error err => pure (Except.error err)
  | Except.ok kvVersion =>
    let path := if kvVersion = 2 then stringsJoin (SliceInsert (stringsSplit path) 1 "data")
      else path
    emit (Event.read path)
    match env.vaultRead path with
    | Except.error err => pure (Except.error err)
    | Except.ok none => pure (Except.error GoError.ErrNotExist)
    | Except.ok (some secret) =>
      let secretArray ← secretEntries env path (env.range secret.Data) []
      pure (Except.ok secretArray)

/-- The inner loop of `getSecretList` over one listed value. -/
def secretListKeys (path : String) : List Json → List String → Run (List String)
  | [], secretList => pure secretList
  | Json.str key :: rest, secretList => secretListKeys path rest (secretList ++ [key])
  | _ :: _, _ => logFatal ("Issue parsing Vault secret list [" ++ path ++ "] [error 001]")

/-- The loop of `getSecretList` over `secret.Data`, given in visiting order. -/
def secretListEntries (path : String) : List (String × Json) → List String → Run (List String)
  | [], secretList => pure secretList
  | (_, Json.arr value) :: rest, secretList => do
    let secretList ← secretListKeys path value secretList
    secretListEntries path rest secretList
  | (_, _) :: _, _ => logFatal ("Issue parsing Vault secret list [" ++ path ++ "] [error 002]")

/-- The function `getSecretList`; the nil list and the empty list are both `[]`. -/
def getSecretList (env : Env) (path : String) : Run (List String) := do
  emit (Event.list path)
  match env.vaultList path with
  | Except.error _ => logFatal "secret list failed"
  | Except.ok none => pure []
  | Except.ok (some secret) => secretListEntries path (env.range secret.Data) []

/-- The substitution loop of `performSubstitutions` over the secrets in visiting order. -/
def substituteSecrets (content : String) (secrets : List (String × String)) : String :=
  secrets.foldl (fun c kv => stringsReplace c ("%\x7b" ++ kv.1 ++ "\x7d%") kv.2) content

/-- The completeness check of `performSubstitutions` on the substituted text. -/
def checkSubstitutions (fullSecretPath content : String) : Option GoError :=
  let matchArray := findAllPlaceholders content
  if matchArray.length > 0 then some (GoError.substitutionsNotFound fullSecretPath matchArray)
  else none

/-- The function `performSubstitutions`.  The text behind the pointer `content`
is returned together with the error (`none` is the nil error). -/
def performSubstitutions (env : Env) (content secretPath : String) :
    Run (String × Option GoError) := do
  let fullSecretPath := env.VaultSecretBasePath ++ secretPath
  let r ← getSecretArray env fullSecretPath
  match r with
  | Except.error err =>
    if err = GoError.ErrNotExist then
      let content := substituteSecrets content []
      pure (content, checkSubstitutions fullSecretPath content)
    else pure (content, some err)
  | Except.ok secrets =>
    let content := substituteSecrets content (env.range secrets)
    pure (content, checkSubstitutions fullSecretPath content)

/-- The loop of `processDirectoryRaw` over the file names of the directory. -/
def processDirectoryFiles (env : Env) (dirPath : String) :
    List String → List (String × String) → Run (List (String × String))
  | [], results => pure results
  | file :: rest, results =>
    let filePath := pathJoin [dirPath, file]
    let fileExtension := filepathExt file
    if fileExtension = ".json" ∨ fileExtension = ".yaml" then
      match env.readFile filePath with
      | none => logFatal ("Error reading file [" ++ filePath ++ "]")
      | some fileContent =>
        if fileExtension = ".json" ∧ env.isJSON fileContent = false then
          logFatal ("Configuration file [" ++ filePath ++ "] is not valid JSON")
        else if fileExtension = ".yaml" then
          logFatal ("Configuration file [" ++ filePath ++ "] is not valid: YAML is not yet supported")
        else
          let itemName := stringsTrimSuffix file (filepathExt file)
          processDirectoryFiles env dirPath rest (mapSet results itemName fileContent)
    else processDirectoryFiles env dirPath rest results

/-- The function `processDirectoryRaw`; a directory that cannot be read is
logged and gives no file. -/
def processDirectoryRaw (env : Env) (dirPath : String) : Run (List (String × String)) :=
  processDirectoryFiles env dirPath ((env.readDir dirPath).getD []) []

/-! ## `auth_methods.go` -/

/-- The zero value of `EnableAuthOptions`. -/
def zeroEnableAuthOptions : EnableAuthOptions :=
  { type := "", Description := "",
    Config := { DefaultLeaseTTL := "", MaxLeaseTTL := "", ListingVisibility := "" } }

/-- The descriptor `getAuthMethods` starts from for a file: the name is the file
name without its extension, the path is the name followed by `/`, the rest is
the zero value. -/
def newAuthMethod (filename : String) : authMethod :=
  let Name := String.mk (filename.data.take
    (filename.data.length - (filepathExt filename).data.length))
  { Name := Name
    Path := Name ++ "/"
    AuthOptions := zeroEnableAuthOptions
    Config := none
    AdditionalConfig := Json.null }

/-- What `getAuthMethods` does with the result of the substitution: a failed
substitution ends the run, otherwise the text is checked and decoded into the
descriptor `m`. -/
def parseAuthMethod (env : Env) (filename : String) (m : authMethod)
    (r : String × Option GoError) : Run authMethod :=
  match r.2 with
  | some _ => logFatal ("Secret substitution failed for: " ++ m.Path)
  | none =>
    if env.isJSON r.1 = false then
      logFatal ("Auth method [" ++ m.Path ++ "] is not a valid JSON after secret substitution")
    else
      match env.unmarshalAuthMethod r.1 m with
      | none => logFatal ("Error parsing auth method configuration: " ++ filename)
      | some m => pure m

/-- The part of the loop body of `getAuthMethods` for a file with the extension
`.json`: read, check, substitute, decode. -/
def loadAuthMethod (env : Env) (filename : String) (m : authMethod) : Run authMethod :=
  match env.readFile (env.ConfigurationPath ++ "/auth_methods/" ++ filename) with
  | none => logFatal "cannot read auth method configuration"
  | some content =>
    if env.isJSON content = false then
      logFatal ("Auth method configuration not valid JSON: " ++ filename)
    else do
      let r ← performSubstitutions env content ("auth_methods/" ++ m.Path)
      parseAuthMethod env filename m r

/-- The loop of `getAuthMethods` over the file names of the directory. -/
def getAuthMethodsFiles (env : Env) :
    List String → authMethodList → Run authMethodList
  | [], declared => pure declared
  | filename :: rest, declared =>
    if checkExt filename ".json" then do
      let m ← loadAuthMethod env filename (newAuthMethod filename)
      getAuthMethodsFiles env rest (mapSet declared m.Path m)
    else getAuthMethodsFiles env rest declared

/-- The function `getAuthMethods`; a directory that cannot be read gives no file. -/
def getAuthMethods (env : Env) (declared : authMethodList) : Run authMethodList :=
  getAuthMethodsFiles env ((env.readDir (env.ConfigurationPath ++ "/auth_methods/")).getD [])
    declared

/-- The call `VaultSys.EnableAuthWithOptions(path, opts)`: on success the mount is live
with the type of the options. -/
def enableAuthWithOptions (env : Env) (path : String) (opts : EnableAuthOptions) :
    Run (Option String) := fun w =>
  match env.enableAuthErr path with
  | some err => (Outcome.ok (some err), { w with trace := w.trace ++ [Event.enableAuth path opts] })
  | none =>
    (Outcome.ok none,
      { auth := mapSet w.auth path { type := opts.type },
        trace := w.trace ++ [Event.enableAuth path opts] })

/-- The kind-specific configuration run at the end of the loop body of
`configureAuthMethods` (`configureUserpassAuth`, `configureLDAPAuth`,
`AuthMethodJWT.Configure`, `AuthMethodKubernetes.Configure`).  Their code is
outside the files embedded here: a call is one event, and the environment says
whether it ends the run. -/
def additionalConfig (env : Env) (type path : String) : Run Unit := do
  emit (Event.additionalConfig type path)
  if env.additionalConfigFatal type path then logFatal "additional configuration failed"
  else pure ()

/-- The tune task `configureAuthMethods` builds for a declared auth method. -/
def tuneTask (mount : authMethod) : taskWrite :=
  let mc : MountConfigInput :=
    { DefaultLeaseTTL := mount.AuthOptions.Config.DefaultLeaseTTL,
      MaxLeaseTTL := mount.AuthOptions.Config.MaxLeaseTTL,
      ListingVisibility := mount.AuthOptions.Config.ListingVisibility,
      Description := some mount.AuthOptions.Description }
  let tunePath := pathJoin ["sys/auth", mount.Path, "tune"]
  { Path := tunePath,
    Description := "Auth mount tune for [" ++ tunePath ++ "]",
    Data := TaskData.mountConfigInput mc }

/-- The config task `configureAuthMethods` builds for a declared auth method
whose configuration is set. -/
def authConfigTask (mount : authMethod) (config : List (String × Json)) : taskWrite :=
  let configPath := pathJoin ["auth", mount.Path, "config"]
  { Path := configPath,
    Description := "Auth mount config for [" ++ configPath ++ "]",
    Data := TaskData.authConfig config }

/-- The delete task `cleanupAuthMethods` builds for a live mount path. -/
def authDeleteTask (mountPath : String) : taskDelete :=
  let authPath := pathJoin ["sys/auth", mountPath]
  { Description := "Auth method [" ++ authPath ++ "]", Path := authPath }

/-- The first part of the loop body of `configureAuthMethods`: the lookup of
the mount in the live listing, then the tune task or the enabling. -/
def enableOrTuneAuthMethod (env : Env) (mount : authMethod) : Run Unit := do
  let existing_mounts ← listAuth
  match mapGet existing_mounts mount.Path with
  | some existing =>
    if existing.type ≠ mount.AuthOptions.type then
      logFatal ("Auth mount path  " ++ mount.Path ++ " exists but doesn't match type: " ++
        existing.type ++ "!=" ++ mount.AuthOptions.type)
    else do
      let task := tuneTask mount
      emit Event.wgAdd
      emit (Event.taskChanSend task)
  | none => do
    let err ← enableAuthWithOptions env mount.Path mount.AuthOptions
    match err with
    | some _ => logFatal ("Error enabling mount: " ++ mount.Path ++ " " ++ mount.AuthOptions.type)
    | none => pure ()

/-- The second part of the loop body of `configureAuthMethods`: the write of
the auth configuration, if set. -/
def writeAuthConfig (mount : authMethod) : Run Unit :=
  match mount.Config with
  | some config => do
    let task := authConfigTask mount config
    emit Event.wgAdd
    emit (Event.taskChanSend task)
  | none => pure ()

/-- The last part of the loop body of `configureAuthMethods`: the dispatch on
the declared type. -/
def additionalAuthConfig (env : Env) (mount : authMethod) : Run Unit :=
  if mount.AuthOptions.type = "userpass" then additionalConfig env "userpass" mount.Path
  else if mount.AuthOptions.type = "ldap" then additionalConfig env "ldap" mount.Path
  else if mount.AuthOptions.type = "jwt" ∨ mount.AuthOptions.type = "oidc" then
    additionalConfig env "jwt" (pathJoin ["auth", mount.Path])
  else if mount.AuthOptions.type = "kubernetes" then
    additionalConfig env "kubernetes" (pathJoin ["auth", mount.Path])
  else pure ()

/-- The loop body of `configureAuthMethods` for one declared auth method. -/
def configureAuthMethod (env : Env) (mount : authMethod) : Run Unit := do
  enableOrTuneAuthMethod env mount
  writeAuthConfig mount
  additionalAuthConfig env mount

/-- The function `configureAuthMethods`. -/
def configureAuthMethods (env : Env) (declared : authMethodList) : Run Unit :=
  forRange (fun entry => configureAuthMethod env entry.2) (env.range declared)

/-- The loop body of `cleanupAuthMethods` for one live mount. -/
def cleanupAuthMethod (declared : authMethodList) (entry : String × AuthMount) :
    Run Unit :=
  let mountPath := entry.1
  let mount := entry.2
  if ¬ (mountPath = "token/" ∧ mount.type = "token") then
    match mapGet declared mountPath with
    | some _ => pure ()
    | none =>
      let task := authDeleteTask mountPath
      emit (Event.taskPromptChanSend task)
  else pure ()

/-- The function `cleanupAuthMethods`. -/
def cleanupAuthMethods (env : Env) (declared : authMethodList) : Run Unit := do
  let existing_mounts ← listAuth
  forRange (cleanupAuthMethod declared) (env.range existing_mounts)

/-- The function `SyncAuthMethods`. -/
def SyncAuthMethods (env : Env) : Run Unit := do
  let declared ← getAuthMethods env []
  configureAuthMethods env declared
  cleanupAuthMethods env declared

/-! ## `secrets-engines-gcp.go` -/

/-- The loop of `getGcpRoleSets` over the raw role-set files in visiting order. -/
def getGcpRoleSetsEntries (env : Env) (rolesetConfigDirPath : String) :
    List (String × String) → List (String × gcpRoleSetEntry) →
      Run (List (String × gcpRoleSetEntry))
  | [], RoleSets => pure RoleSets
  | (rolesetName, rawRoleset) :: rest, RoleSets =>
    match env.unmarshalGcpRoleSet rawRoleset with
    | none =>
      logFatal ("Error parsing GCP roleset [" ++ pathJoin [rolesetConfigDirPath, rolesetName] ++ "]")
    | some roleset =>
      getGcpRoleSetsEntries env rolesetConfigDirPath rest (mapSet RoleSets rolesetName roleset)

/-- The function `getGcpRoleSets`: the role sets of the descriptor are replaced
by those of the `rolesets` directory. -/
def getGcpRoleSets (env : Env) (secretsEngine : SecretsEngine)
    (secretsEngineGCP : SecretsEngineGCP) : Run SecretsEngineGCP := do
  let rolesetConfigDirPath :=
    pathJoin [env.ConfigurationPath, "secrets-engines", secretsEngine.Path, "rolesets"]
  let rawRoleSets ← processDirectoryRaw env rolesetConfigDirPath
  let RoleSets ← getGcpRoleSetsEntries env rolesetConfigDirPath (env.range rawRoleSets) []
  pure { secretsEngineGCP with RoleSets := RoleSets }

/-- The delete task `cleanupGcpRoleSets` builds for a live role set. -/
def gcpRoleSetDeleteTask (secretsEngine : SecretsEngine) (roleset : String) : taskDelete :=
  let rolePath := secretsEngine.Path ++ "roleset/" ++ roleset
  { Description := "GCP roleset [" ++ rolePath ++ "]", Path := rolePath }

/-- The root-config task of `ConfigureGcpSecretsEngine`. -/
def gcpRootConfigTask (secretsEngine : SecretsEngine) (secretsEngineGCP : SecretsEngineGCP) :
    taskWrite :=
  let rootConfigPath := pathJoin [secretsEngine.Path, "config"]
  { Path := rootConfigPath,
    Description := "GCP root config [" ++ rootConfigPath ++ "]",
    Data := TaskData.gcpRootConfig secretsEngineGCP.RootConfig }

/-- The config-lease task of `ConfigureGcpSecretsEngine`. -/
def gcpConfigLeaseTask (secretsEngine : SecretsEngine) (secretsEngineGCP : SecretsEngineGCP) :
    taskWrite :=
  let configLeasePath := pathJoin [secretsEngine.Path, "config"]
  { Path := configLeasePath,
    Description := "GCP config lease [" ++ configLeasePath ++ "]",
    Data := TaskData.gcpConfigLease secretsEngineGCP.ConfigLease }

/-- The role-set task of `ConfigureGcpSecretsEngine` for one declared role set. -/
def gcpRoleSetTask (secretsEngine : SecretsEngine) (entry : String × gcpRoleSetEntry) :
    taskWrite :=
  let rolesetPath := pathJoin [secretsEngine.Path, "roleset", entry.1]
  { Path := rolesetPath,
    Description := "GCP roleset [" ++ rolesetPath ++ "]",
    Data := TaskData.gcpRoleSet entry.2 }

/-- The loop body of `cleanupGcpRoleSets` for one live role set. -/
def cleanupGcpRoleSet (secretsEngine : SecretsEngine) (secretsEngineGCP : SecretsEngineGCP)
    (roleset : String) : Run Unit :=
  match mapGet secretsEngineGCP.RoleSets roleset with
  | some _ => pure ()
  | none =>
    let task := gcpRoleSetDeleteTask secretsEngine roleset
    emit (Event.taskPromptChanSend task)

/-- The function `cleanupGcpRoleSets`. -/
def cleanupGcpRoleSets (env : Env) (secretsEngine : SecretsEngine)
    (secretsEngineGCP : SecretsEngineGCP) : Run Unit := do
  let existing_rolesets ← getSecretList env (secretsEngine.Path ++ "roleset")
  forRange (cleanupGcpRoleSet secretsEngine secretsEngineGCP) existing_rolesets

/-- The root-config step of `ConfigureGcpSecretsEngine`. -/
def writeGcpRootConfig (secretsEngine : SecretsEngine) (secretsEngineGCP : SecretsEngineGCP) :
    Run Unit :=
  if secretsEngine.JustEnabled ∨ secretsEngineGCP.OverwriteRootCredentials then do
    let task := gcpRootConfigTask secretsEngine secretsEngineGCP
    emit Event.wgAdd
    emit (Event.taskChanSend task)
  else pure ()

/-- The config-lease step of `ConfigureGcpSecretsEngine`. -/
def writeGcpConfigLease (secretsEngine : SecretsEngine) (secretsEngineGCP : SecretsEngineGCP) :
    Run Unit := do
  let task := gcpConfigLeaseTask secretsEngine secretsEngineGCP
  emit Event.wgAdd
  emit (Event.taskChanSend task)

/-- The loop body of the role-set step of `ConfigureGcpSecretsEngine`. -/
def writeGcpRoleSet (secretsEngine : SecretsEngine) (entry : String × gcpRoleSetEntry) :
    Run Unit := do
  let task := gcpRoleSetTask secretsEngine entry
  emit Event.wgAdd
  emit (Event.taskChanSend task)

/-- The part of `ConfigureGcpSecretsEngine` after the descriptor is loaded:
root config, config lease, role sets, cleanup. -/
def applyGcpSecretsEngine (env : Env) (secretsEngine : SecretsEngine)
    (secretsEngineGCP : SecretsEngineGCP) : Run Unit := do
  writeGcpRootConfig secretsEngine secretsEngineGCP
  writeGcpConfigLease secretsEngine secretsEngineGCP
  forRange (writeGcpRoleSet secretsEngine) (env.range secretsEngineGCP.RoleSets)
  cleanupGcpRoleSets env secretsEngine secretsEngineGCP

/-- The parsing step of `ConfigureGcpSecretsEngine` on the substituted text:
the validity check, `json.Unmarshal`, and the role sets of the `rolesets`
directory. -/
def parseGcpSecretsEngine (env : Env) (secretsEngine : SecretsEngine) (contentstring : String) :
    Run SecretsEngineGCP :=
  if env.isJSON contentstring = false then
    logFatal ("GCP secrets engine gcp.json for [" ++ secretsEngine.Path ++
      "] is not a valid JSON file.")
  else
    match env.unmarshalGcp contentstring with
    | none => logFatal ("Error parsing secret engine config for [" ++ secretsEngine.Path ++ "]")
    | some secretsEngineGCP => getGcpRoleSets env secretsEngine secretsEngineGCP

/-- What `ConfigureGcpSecretsEngine` does with the result of the substitution:
a failed substitution makes the engine be skipped (`none`), otherwise the text
is parsed. -/
def afterGcpSubstitutions (env : Env) (secretsEngine : SecretsEngine)
    (r : String × Option GoError) : Run (Option SecretsEngineGCP) :=
  match r.2 with
  | some _ => pure none
  | none => do
    let secretsEngineGCP ← parseGcpSecretsEngine env secretsEngine r.1
    pure (some secretsEngineGCP)

/-- The first part of `ConfigureGcpSecretsEngine`: the descriptor read from
`gcp.json`, substituted and parsed, with the role sets of the `rolesets`
directory; `none` when a failed substitution makes the engine be skipped. -/
def loadGcpSecretsEngine (env : Env) (secretsEngine : SecretsEngine) :
    Run (Option SecretsEngineGCP) :=
  match env.readFile
      (env.ConfigurationPath ++ "/secrets-engines/" ++ secretsEngine.Path ++ "gcp.json") with
  | none =>
    logFatal ("GCP secrets engine config file for path [" ++ secretsEngine.Path ++
      "] not found. Cannot configure engine.")
  | some content => do
    let r ← performSubstitutions env content ("secrets-engines/" ++ secretsEngine.Name)
    afterGcpSubstitutions env secretsEngine r

/-- The function `ConfigureGcpSecretsEngine`. -/
def ConfigureGcpSecretsEngine (env : Env) (secretsEngine : SecretsEngine) : Run Unit := do
  let loaded ← loadGcpSecretsEngine env secretsEngine
  match loaded with
  | none => pure ()
  | some secretsEngineGCP => applyGcpSecretsEngine env secretsEngine secretsEngineGCP

/-! ## `secrets-engines-aws.go` -/

/-- The function `getJsonFile` of `utils.go`. -/
def getJsonFile (env : Env) (path : String) : Run (Bool × String) :=
  if checkExt path ".json" then
    match env.readFile path with
    | none => logFatal "cannot read file"
    | some content =>
      if env.isJSON content = false then logFatal ("File is not valid JSON: " ++ path)
      else pure (true, content)
  else pure (false, "")

/-- Modelled from the spec: `writeStructToVault(path, item)` is called by
`ConfigureAwsSecretsEngine` and its code is outside the files embedded here; it
is one synchronous backend `Write(path, data)` (section 2), whose error, if
any, is returned. -/
def writeStructToVault (env : Env) (path : String) (data : TaskData) : Run (Option String) := do
  emit (Event.write path data)
  pure (env.vaultWriteErr path)

/-- The loop of `getAwsRoles` over the file names of the `roles` directory. -/
def getAwsRolesFiles (env : Env) (secretsEngine : SecretsEngine) :
    List String → List (String × AwsRole) → Run (List (String × AwsRole))
  | [], Roles => pure Roles
  | filename :: rest, Roles => do
    let (success, content) ← getJsonFile env
      (env.ConfigurationPath ++ "/secrets-engines/" ++ secretsEngine.Path ++ "roles/" ++ filename)
    if success then
      let role_name := String.mk (filename.data.take
        (filename.data.length - (filepathExt filename).data.length))
      getAwsRolesFiles env secretsEngine rest (mapSet Roles role_name { Policy := content })
    else getAwsRolesFiles env secretsEngine rest Roles

/-- The function `getAwsRoles`: the roles of the descriptor are replaced by
those of the `roles` directory; a directory that cannot be read ends the run. -/
def getAwsRoles (env : Env) (secretsEngine : SecretsEngine)
    (secretsEngineAWS : SecretsEngineAWS) : Run SecretsEngineAWS :=
  match env.readDir
      (env.ConfigurationPath ++ "/secrets-engines/" ++ secretsEngine.Path ++ "roles") with
  | none => logFatal "cannot read roles directory"
  | some files => do
    let Roles ← getAwsRolesFiles env secretsEngine files []
    pure { secretsEngineAWS with Roles := Roles }

/-- The loop body of `cleanupAwsRoles` for one live role: a role absent from
the configuration is deleted at once when the operator confirms. -/
def cleanupAwsRole (env : Env) (secretsEngine : SecretsEngine)
    (secretsEngineAWS : SecretsEngineAWS) (role : String) : Run Unit :=
  let rolePath := secretsEngine.Path ++ "roles/" ++ role
  match mapGet secretsEngineAWS.Roles role with
  | some _ => pure ()
  | none => do
    let msg := "Role [" ++ rolePath ++ "] does not exist in configuration.  Delete [y/n]?: "
    emit (Event.askForConfirmation msg)
    if env.confirm msg then do
      emit (Event.delete rolePath)
      match env.vaultDeleteErr rolePath with
      | some _ => logFatal ("Error deleting role [" ++ rolePath ++ "]")
      | none => pure ()
    else pure ()

/-- The function `cleanupAwsRoles`. -/
def cleanupAwsRoles (env : Env) (secretsEngine : SecretsEngine)
    (secretsEngineAWS : SecretsEngineAWS) : Run Unit := do
  let existing_roles ← getSecretList env (secretsEngine.Path ++ "roles")
  forRange (cleanupAwsRole env secretsEngine secretsEngineAWS) existing_roles

/-- The loop body of the role step of `ConfigureAwsSecretsEngine`. -/
def writeAwsRole (env : Env) (secretsEngine : SecretsEngine) (entry : String × AwsRole) :
    Run Unit := do
  let err ← writeStructToVault env (secretsEngine.Path ++ "roles/" ++ entry.1)
    (TaskData.awsRole entry.2)
  match err with
  | some _ =>
    logFatal ("Error creating/updating role [" ++ entry.1 ++ "] at [" ++ secretsEngine.Path ++ "]")
  | none => pure ()

/-- The part of `ConfigureAwsSecretsEngine` after the descriptor is loaded:
root config, config lease, roles, cleanup. -/
def applyAwsSecretsEngine (env : Env) (secretsEngine : SecretsEngine)
    (secretsEngineAWS : SecretsEngineAWS) : Run Unit := do
  let err ← writeStructToVault env (secretsEngine.Path ++ "/config/root")
    (TaskData.awsRootConfig secretsEngineAWS.RootConfig)
  match err with
  | some _ => logFatal ("Error writing root config for [" ++ secretsEngine.Path ++ "]")
  | none => do
    let err ← writeStructToVault env (secretsEngine.Path ++ "/config/lease")
      (TaskData.awsConfigLease secretsEngineAWS.ConfigLease)
    match err with
    | some _ => logFatal ("Error writing config lease for [" ++ secretsEngine.Path ++ "]")
    | none => do
      forRange (writeAwsRole env secretsEngine) (env.range secretsEngineAWS.Roles)
      cleanupAwsRoles env secretsEngine secretsEngineAWS

/-- The parsing step of `ConfigureAwsSecretsEngine` on the substituted text:
the validity check, `json.Unmarshal`, and the roles of the `roles` directory. -/
def parseAwsSecretsEngine (env : Env) (secretsEngine : SecretsEngine) (contentstring : String) :
    Run SecretsEngineAWS :=
  if env.isJSON contentstring = false then
    logFatal ("AWS secrets engine aws.json for [" ++ secretsEngine.Path ++
      "] is not a valid JSON file.")
  else
    match env.unmarshalAws contentstring with
    | none => logFatal ("Error parsing secret engine config for [" ++ secretsEngine.Path ++ "]")
    | some secretsEngineAWS => getAwsRoles env secretsEngine secretsEngineAWS

/-- What `ConfigureAwsSecretsEngine` does with the result of the substitution:
a failed substitution makes the engine be skipped (`none`), otherwise the text
is parsed. -/
def afterAwsSubstitutions (env : Env) (secretsEngine : SecretsEngine)
    (r : String × Option GoError) : Run (Option SecretsEngineAWS) :=
  match r.2 with
  | some _ => pure none
  | none => do
    let secretsEngineAWS ← parseAwsSecretsEngine env secretsEngine r.1
    pure (some secretsEngineAWS)

/-- The first part of `ConfigureAwsSecretsEngine`: the descriptor read from
`aws.json`, substituted and parsed, with the roles of the `roles` directory;
`none` when a failed substitution makes the engine be skipped. -/
def loadAwsSecretsEngine (env : Env) (secretsEngine : SecretsEngine) :
    Run (Option SecretsEngineAWS) :=
  match env.readFile
      (env.ConfigurationPath ++ "/secrets-engines/" ++ secretsEngine.Path ++ "aws.json") with
  | none =>
    logFatal ("AWS secrets engine config file for path [" ++ secretsEngine.Path ++
      "] not found. Cannot configure engine.")
  | some content => do
    let r ← performSubstitutions env content ("secrets-engines/" ++ secretsEngine.Name)
    afterAwsSubstitutions env secretsEngine r

/-- The function `ConfigureAwsSecretsEngine`. -/
def ConfigureAwsSecretsEngine (env : Env) (secretsEngine : SecretsEngine) : Run Unit := do
  let loaded ← loadAwsSecretsEngine env secretsEngine
  match loaded with
  | none => pure ()
  | some secretsEngineAWS => applyAwsSecretsEngine env secretsEngine secretsEngineAWS

/-! ## Reading a run -/

/-- The value a piece of the run returned, if it returned. -/
def Outcome.value? {α : Type} : Outcome α → Option α
  | Outcome.ok a => some a
  | Outcome.fatal _ => none

/-- Whether `log.Fatal` ended the run. -/
def Outcome.isFatal {α : Type} : Outcome α → Bool
  | Outcome.ok _ => false
  | Outcome.fatal _ => true

/-- The world before any event. -/
def World.initial (auth : List (String × AuthMount)) : World := { auth := auth, trace := [] }

/-- The write tasks sent on `taskChan`, in order. -/
def sentTasks : List Event → List taskWrite
  | [] => []
  | Event.taskChanSend task :: rest => task :: sentTasks rest
  | _ :: rest => sentTasks rest

/-- The delete tasks sent on `taskPromptChan`, in order. -/
def promptedTasks : List Event → List taskDelete
  | [] => []
  | Event.taskPromptChanSend task :: rest => task :: promptedTasks rest
  | _ :: rest => promptedTasks rest

/-- The event is a wait on the completion counter. -/
def Event.isWait : Event → Bool
  | Event.wgWait => true
  | _ => false

/-- The event is an increment of the completion counter. -/
def Event.isAdd : Event → Bool
  | Event.wgAdd => true
  | _ => false

/-- The event is a send on `taskChan`. -/
def Event.isSend : Event → Bool
  | Event.taskChanSend _ => true
  | _ => false

/-- The event is a send on `taskPromptChan`. -/
def Event.isPrompt : Event → Bool
  | Event.taskPromptChanSend _ => true
  | _ => false

/-- The event is a listing of live state (`ListAuth` or `List`). -/
def Event.isListing : Event → Bool
  | Event.listAuth => true
  | Event.list _ => true
  | _ => false

/-- The event changes the backend directly: an enabling, a synchronous write or a deletion. -/
def Event.isBackendChange : Event → Bool
  | Event.enableAuth _ _ => true
  | Event.write _ _ => true
  | Event.delete _ => true
  | _ => false

/-- A path component that `path.Clean` keeps as it is: not empty, without `/`,
and neither `.` nor `..`. -/
def normalSegment (s : String) : Prop :=
  s.data ≠ [] ∧ '/' ∉ s.data ∧ s ≠ "." ∧ s ≠ ".."

instance (s : String) : Decidable (normalSegment s) := by
  unfold normalSegment; exact inferInstance

/-! ## Trace predicates, example environments and the execution model -/

/-- The piece `x` adds the events `es` to the record, returns `o` and leaves
the live auth mounts alone, whatever the world. -/
def Emits {α : Type} (x : Run α) (es : List Event) (o : Outcome α) : Prop :=
  ∀ w : World, x w = (o, { w with trace := w.trace ++ es })

/-- The piece `x` only adds events to the record, and what it adds satisfies `Q`. -/
def Adds {α : Type} (Q : List Event → Prop) (x : Run α) : Prop :=
  ∀ w : World, ∃ es, (x w).2.trace = w.trace ++ es ∧ Q es

/-- A component, as characters, that `path.Clean` keeps as it is. -/
def normalChars (c : List Char) : Prop :=
  c ≠ [] ∧ '/' ∉ c ∧ c ≠ ['.'] ∧ c ≠ ['.', '.']

instance (c : List Char) : Decidable (normalChars c) := by
  unfold normalChars; exact inferInstance

/-- The text `%{word}%`. -/
def placeholder (word : List Char) : List Char := '%' :: '{' :: (word ++ ['}', '%'])

/-- Whether the mount options ask for version 2 of the key-value store. -/
def versionTwo (mount : MountOutput) : Prop :=
  ∃ options, mount.Options = some options ∧ mapGet options "version" = some "2"

instance (mount : MountOutput) : Decidable (versionTwo mount) := by
  unfold versionTwo
  cases h : mount.Options with
  | none => exact isFalse (by simp)
  | some o =>
    by_cases h2 : mapGet o "version" = some "2"
    · exact isTrue ⟨o, rfl, h2⟩
    · exact isFalse (by simpa using h2)

/-- The outcome with its value changed by `f`. -/
def Outcome.map {α β : Type} (f : α → β) : Outcome α → Outcome β
  | Outcome.ok a => Outcome.ok (f a)
  | Outcome.fatal msg => Outcome.fatal msg

/-- The path `getSecretArray` reads for a key-value mount: with `data` inserted
after the first segment for version 2, unchanged for version 1. -/
def kvReadPath (mount : MountOutput) (path : String) : String :=
  if versionTwo mount then stringsJoin (SliceInsert (stringsSplit path) 1 "data") else path

/-- An environment with the given mounts and secrets; the secret base path is
`secret/`, the configuration tree is empty, `range` visits maps in listed
order, and no backend call fails. -/
def envWith (mounts : Option (List (String × MountOutput)))
    (vaultRead : String → Except GoError (Option Secret)) : Env :=
  { VaultSecretBasePath := "secret/"
    ConfigurationPath := "/etc/vault-admin"
    mounts := mounts
    vaultRead := vaultRead
    vaultList := fun _ => Except.ok none
    enableAuthErr := fun _ => none
    vaultWriteErr := fun _ => none
    vaultDeleteErr := fun _ => none
    range := fun m => m
    range_perm := fun _ => List.Perm.refl _
    readFile := fun _ => none
    readDir := fun _ => none
    isJSON := fun _ => true
    unmarshalAuthMethod := fun _ _ => none
    unmarshalGcp := fun _ => none
    unmarshalGcpRoleSet := fun _ => none
    unmarshalAws := fun _ => none
    additionalConfigFatal := fun _ _ => false
    confirm := fun _ => false }

/-- A version 1 key-value mount `secret/`. -/
def kvMountV1 : List (String × MountOutput) := [("secret/", { type := "kv", Options := none })]

/-- A version 2 key-value mount `secret/`. -/
def kvMountV2 : List (String × MountOutput) :=
  [("secret/", { type := "kv", Options := some [("version", "2")] })]

/-- A backend whose only secret, at `path`, has the given data. -/
def readAt (path : String) (data : List (String × Json)) (p : String) :
    Except GoError (Option Secret) :=
  if p = path then Except.ok (some { Warnings := [], Data := data }) else Except.ok none

/-- A declared auth method `name` of the given type, mounted at `name/`. -/
def exampleMethod (name type : String) (config : Option (List (String × Json))) : authMethod :=
  { Name := name
    Path := name ++ "/"
    AuthOptions := { zeroEnableAuthOptions with type := type }
    Config := config
    AdditionalConfig := Json.null }

/-- Whether `cleanupAuthMethods` proposes a live mount for deletion: it is not
the default mount `token/` of type `token`, and its path is no declared key. -/
def isOrphan (declared : authMethodList) (entry : String × AuthMount) : Bool :=
  decide (¬ (entry.1 = "token/" ∧ entry.2.type = "token")) &&
    decide (entry.1 ∉ declared.map Prod.fst)

/-- The events of the config step of `configureAuthMethods` for a declared auth
method: the counter increment and the send of the config task when the
configuration is set, nothing otherwise. -/
def authConfigEvents (mount : authMethod) : List Event :=
  match mount.Config with
  | some config => [Event.wgAdd, Event.taskChanSend (authConfigTask mount config)]
  | none => []

/-- The event is a call of a kind-specific configuration. -/
def Event.isAdditionalConfig : Event → Bool
  | Event.additionalConfig _ _ => true
  | _ => false

/-- The events of the root-config step of `ConfigureGcpSecretsEngine`. -/
def gcpRootConfigEvents (secretsEngine : SecretsEngine) (secretsEngineGCP : SecretsEngineGCP) :
    List Event :=
  if secretsEngine.JustEnabled ∨ secretsEngineGCP.OverwriteRootCredentials then
    [Event.wgAdd, Event.taskChanSend (gcpRootConfigTask secretsEngine secretsEngineGCP)]
  else []

/-- The events of the apply phase of `ConfigureGcpSecretsEngine`: root config,
config lease and one role-set task for each declared role set. -/
def gcpWriteEvents (env : Env) (secretsEngine : SecretsEngine)
    (secretsEngineGCP : SecretsEngineGCP) : List Event :=
  gcpRootConfigEvents secretsEngine secretsEngineGCP ++
    ([Event.wgAdd, Event.taskChanSend (gcpConfigLeaseTask secretsEngine secretsEngineGCP)] ++
      (env.range secretsEngineGCP.RoleSets).flatMap
        (fun entry => [Event.wgAdd, Event.taskChanSend (gcpRoleSetTask secretsEngine entry)]))

/-- The delete tasks of `cleanupGcpRoleSets` for the live role sets `existing`. -/
def gcpDeleteTasks (secretsEngine : SecretsEngine) (secretsEngineGCP : SecretsEngineGCP)
    (existing : List String) : List taskDelete :=
  (existing.filter (fun roleset => decide (roleset ∉ secretsEngineGCP.RoleSets.map Prod.fst))).map
    (gcpRoleSetDeleteTask secretsEngine)

/-- The event is a listing of the mounts or a read of a secret. -/
def Event.isLookup : Event → Bool
  | Event.listMounts => true
  | Event.read _ => true
  | _ => false

/-- The write task carries a GCP root config. -/
def taskWrite.isGcpRootConfig (task : taskWrite) : Bool :=
  match task.Data with
  | TaskData.gcpRootConfig _ => true
  | _ => false

/-- The write task carries a GCP role set. -/
def taskWrite.isGcpRoleSet (task : taskWrite) : Bool :=
  match task.Data with
  | TaskData.gcpRoleSet _ => true
  | _ => false

/-- A role set for the examples. -/
def exampleRoleSet : gcpRoleSetEntry := { Project := "p", SecretType := "access_token", Bindings := [] }

/-- Root credentials for the examples. -/
def exampleCredentials : GcpCredentials :=
  { type := "service_account"
    ProjectId := "p"
    PrivateKeyId := ""
    PrivateKey := ""
    ClientEmail := ""
    ClientId := ""
    AuthUri := ""
    TokenUri := ""
    AuthProviderX509CertUrl := ""
    ClientX509CertUrl := "" }

/-- A GCP descriptor for the examples, with the given flag and role sets. -/
def exampleGcp (overwrite : Bool) (roleSets : List (String × gcpRoleSetEntry)) :
    SecretsEngineGCP :=
  { RootConfig := { Credentials := exampleCredentials }
    OverwriteRootCredentials := overwrite
    ConfigLease := { TTL := "1h", MaxTTL := "2h" }
    RoleSets := roleSets }

/-- An environment for the GCP engine `gcp/`: a descriptor file, one role-set
file `viewer.json`, and the live role sets `viewer` and `old`. -/
def gcpEnv (overwrite : Bool) : Env :=
  { envWith (some kvMountV1) (fun _ => Except.ok none) with
    readFile := fun p =>
      if p = "/etc/vault-admin/secrets-engines/gcp/gcp.json" then some "\x7b\x7d"
      else if p = "/etc/vault-admin/secrets-engines/gcp/rolesets/viewer.json" then some "\x7b\x7d"
      else none
    readDir := fun p =>
      if p = "/etc/vault-admin/secrets-engines/gcp/rolesets" then some ["viewer.json"] else none
    unmarshalGcp := fun _ => some (exampleGcp overwrite [])
    unmarshalGcpRoleSet := fun _ => some exampleRoleSet
    vaultList := fun _ =>
      Except.ok (some ⟨[], [("keys", Json.arr [Json.str "viewer", Json.str "old"])]⟩) }

/-- The world after the load of the engine `gcp/` in `gcpEnv`. -/
def gcpLoadedWorld : World :=
  { auth := [], trace := [Event.listMounts, Event.read "secret/secrets-engines/gcp"] }

/-- The GCP engine `gcp/`, enabled before this run. -/
def gcpEngine : SecretsEngine := { Name := "gcp", Path := "gcp/", JustEnabled := false }

/-- Any list of events: the trivial property of what a piece adds. -/
def anyEvents (_ : List Event) : Prop := True

/-- An AWS descriptor for the examples. -/
def exampleAws : SecretsEngineAWS :=
  { RootConfig :=
      { AccessKey := "AKIA", SecretKey := "s", IAMEndpoint := "", STSEndpoint := "",
        Region := "us-east-1", MaxRetries := 0 }
    ConfigLease := { Lease := "1h", LeaseMax := "2h" }
    Roles := [] }

/-- An environment for the AWS engine `aws/`: a descriptor file, an empty `roles`
directory and no live role. -/
def awsEnv : Env :=
  { envWith (some kvMountV1) (fun _ => Except.ok none) with
    readFile := fun p =>
      if p = "/etc/vault-admin/secrets-engines/aws/aws.json" then some "\x7b\x7d" else none
    readDir := fun p =>
      if p = "/etc/vault-admin/secrets-engines/aws/roles" then some [] else none
    unmarshalAws := fun _ => some exampleAws }

/-- The AWS engine `aws/`, enabled before this run. -/
def awsEngine : SecretsEngine := { Name := "aws", Path := "aws/", JustEnabled := false }

/-- The world after the load of the engine `aws/` in `awsEnv`. -/
def awsLoadedWorld : World :=
  { auth := [], trace := [Event.listMounts, Event.read "secret/secrets-engines/aws"] }

/-- A step of a whole execution: the coordinator performs its next event, or a
worker completes a task it received (`wg.Done()`). -/
inductive Step where
  | coordinator (e : Event)
  | workerDone

/-- The effect of a step on the completion counter `wg` and on the number of
tasks sent and not yet completed; `none` when the step cannot happen there:
`wg.Wait()` returns only at zero, and a worker completes only a task that was
sent and counted. -/
def runStep (state : Nat × Nat) : Step → Option (Nat × Nat)
  | Step.coordinator Event.wgAdd => some (state.1 + 1, state.2)
  | Step.coordinator (Event.taskChanSend _) => some (state.1, state.2 + 1)
  | Step.coordinator Event.wgWait => if state.1 = 0 then some state else none
  | Step.coordinator _ => some state
  | Step.workerDone =>
    if state.1 = 0 ∨ state.2 = 0 then none else some (state.1 - 1, state.2 - 1)

/-- The counter and the tasks in progress after the steps, when they can all happen. -/
def runSteps : List Step → Nat × Nat → Option (Nat × Nat)
  | [], state => some state
  | step :: rest, state =>
    match runStep state step with
    | some next => runSteps rest next
    | none => none

/-- The events of the coordinator among the steps, in order. -/
def coordinatorEvents : List Step → List Event
  | [] => []
  | Step.coordinator e :: rest => e :: coordinatorEvents rest
  | Step.workerDone :: rest => coordinatorEvents rest

/-- The number of completed tasks among the steps. -/
def completions : List Step → Nat
  | [] => 0
  | Step.coordinator _ :: rest => completions rest
  | Step.workerDone :: rest => completions rest + 1

/-- Whether the events hold no wait on the counter and every send on `taskChan`
comes right after its own increment of the counter; `pending` says that an
increment is waiting for its send. -/
def countedFrom : Bool → List Event → Bool
  | pending, [] => !pending
  | true, e :: rest => e.isSend && countedFrom false rest
  | false, e :: rest =>
    if e.isAdd then countedFrom true rest
    else !e.isSend && !e.isWait && countedFrom false rest

/-- The events hold no wait on the counter, and the counter is incremented once
right before each send on `taskChan` and at no other time. -/
def countedWrites (es : List Event) : Prop := countedFrom false es = true

instance (es : List Event) : Decidable (countedWrites es) := by
  unfold countedWrites; exact inferInstance

/-- An environment for the auth method `ldap`: one file `ldap.json`, decoded as
a method of type `ldap` without configuration block. -/
def authEnv : Env :=
  { envWith (some kvMountV1) (fun _ => Except.ok none) with
    readDir := fun p => if p = "/etc/vault-admin/auth_methods/" then some ["ldap.json"] else none
    readFile := fun p => if p = "/etc/vault-admin/auth_methods/ldap.json" then some "\x7b\x7d" else none
    unmarshalAuthMethod := fun _ m =>
      some { m with AuthOptions := { m.AuthOptions with type := "ldap" } } }

/-! ## The confirmation prompt of `utils.go` -/

/-- Whether `strings.ToLower(string(response[0])) == "y"` holds for a response
with the first character `c`.  `response[0]` is the first byte; it is `y` or `Y`
exactly when the first character is, as every other character starts with
another byte. -/
def lowerIsY (c : Char) : Bool := c = 'y' ∨ c = 'Y'

/-- Whether `strings.ToLower(string(response[0])) == "n"` holds for a response
with the first character `c`. -/
def lowerIsN (c : Char) : Bool := c = 'n' ∨ c = 'N'

/-- The recursion of `askForConfirmation` for a positive budget `n`, on the
results of the successive `fmt.Scanln(&response)` calls: `none` is a failed read
and `some response` the token read.  After the last listed result the input is
at its end and every read fails.  The value is the answer and the number of
listed results consumed; the answer `none` stands for the run-time panic of
`response[0]` on an empty token. -/
def askForConfirmationLoop : Nat → List (Option String) → Option Bool × Nat
  | 0, _ => (some false, 0)
  | n + 1, [] => askForConfirmationLoop n []
  | n + 1, none :: rest =>
    let r := askForConfirmationLoop n rest
    (r.1, r.2 + 1)
  | n + 1, some response :: rest =>
    match response.data with
    | [] => (none, 1)
    | c :: _ =>
      if lowerIsY c then (some true, 1)
      else if lowerIsN c then (some false, 1)
      else
        let r := askForConfirmationLoop n rest
        (r.1, r.2 + 1)

/-- The function `askForConfirmation(msg, max)` of `utils.go` on the results
`responses` of the reads: for `max > 0` it reads and recurses with `max - 1`,
otherwise it answers `false`. -/
def askForConfirmation (responses : List (Option String)) (_msg : String) (max : Int) :
    Option Bool × Nat :=
  askForConfirmationLoop max.toNat responses

/-- The response is a token that starts with `y`, `Y`, `n` or `N`. -/
def isDecisive (response : Option String) : Bool :=
  match response with
  | some s =>
    match s.data with
    | c :: _ => lowerIsY c || lowerIsN c
    | [] => false
  | none => false

/-- The response is a token that starts with `y` or `Y`. -/
def saysYes (response : Option String) : Bool :=
  match response with
  | some s =>
    match s.data with
    | c :: _ => lowerIsY c
    | [] => false
  | none => false

/-- The first character of a response, if it is a token that has one. -/
def firstCharacter (response : Option String) : Option Char :=
  match response with
  | some s => s.data.head?
  | none => none

/-! ## `rotate-creds.go` -/

/-- The value of `secret.Data[key].(string)`; `none` stands for the run-time
panic on a nil secret, on a missing key and on a value that is no string. -/
def secretString (secret : Option Secret) (key : String) : Option String :=
  match secret with
  | none => none
  | some s =>
    match mapGet s.Data key with
    | some (Json.str v) => some v
    | _ => none

/-- One branch of the loop body of `RotateCreds`: the write to
`path + "config/rotate-root"`, the warning when it returned an error, and
otherwise the report of the new key read from the secret under `key`.  A panic
ends the run as `log.Fatal` does. -/
def rotateRoot (env : Env) (path key : String) : Run Unit := do
  emit (Event.write (path ++ "config/rotate-root") TaskData.nil)
  match env.vaultWriteErr (path ++ "config/rotate-root") with
  | some _ => pure ()
  | none =>
    match secretString (env.vaultWriteSecret (path ++ "config/rotate-root")) key with
    | some _ => pure ()
    | none => logFatal "panic: interface conversion or nil pointer dereference"

/-- The loop body of `RotateCreds` for one mount. -/
def rotateMount (env : Env) (entry : String × MountOutput) : Run Unit := do
  if entry.2.type = "aws" then rotateRoot env entry.1 "access_key" else pure ()
  if entry.2.type = "gcp" then rotateRoot env entry.1 "private_key_id" else pure ()

/-- The function `RotateCreds`: the error of the listing is dropped, so a failed
listing gives the nil map. -/
def RotateCreds (env : Env) : Run Unit := do
  emit Event.listMounts
  forRange (rotateMount env) (env.range (env.mounts.getD []))

/-- The key under which the response of a rotation holds the new key, for a
mount of a type that is rotated. -/
def rotatedKey (type : String) : Option String :=
  if type = "aws" then some "access_key"
  else if type = "gcp" then some "private_key_id"
  else none

/-- The rotation of the mount returns an error, or a secret with a string under
the key that `RotateCreds` reports. -/
def rotationReadable (env : Env) (entry : String × MountOutput) : Prop :=
  ∀ key, rotatedKey entry.2.type = some key →
    env.vaultWriteErr (entry.1 ++ "config/rotate-root") = none →
    secretString (env.vaultWriteSecret (entry.1 ++ "config/rotate-root")) key ≠ none

/-- The rotation events of a list of mounts in visiting order: one write for
each mount of type `aws` or `gcp`. -/
def rotationEvents (mounts : List (String × MountOutput)) : List Event :=
  (mounts.filter (fun entry => decide (entry.2.type = "aws" ∨ entry.2.type = "gcp"))).map
    (fun entry => Event.write (entry.1 ++ "config/rotate-root") TaskData.nil)

/-- Two mounts of type `aws`. -/
def awsMounts : List (String × MountOutput) :=
  [("aws1/", { type := "aws", Options := none }), ("aws2/", { type := "aws", Options := none })]

/-- An environment with the mounts `aws1/` and `aws2/` in which the rotation of
`aws1/` returns no error and a secret without data, and the rotation of `aws2/`
returns a secret with the new access key. -/
def rotateEnv : Env :=
  { envWith (some awsMounts) (fun _ => Except.ok none) with
    vaultWriteSecret := fun p =>
      if p = "aws1/config/rotate-root" then some { Warnings := [], Data := [] }
      else some { Warnings := [], Data := [("access_key", Json.str "AKIA")] } }

/-- The environment of the example of the specification: the rotation of `aws1/`
returns an error. -/
def rotateErrEnv : Env :=
  { rotateEnv with
    vaultWriteErr := fun p => if p = "aws1/config/rotate-root" then some "denied" else none }

/-- The write task carries no GCP root config. -/
def taskWrite.isNotGcpRootConfig (task : taskWrite) : Bool := !task.isGcpRootConfig

/-- The configuration directory of the example for the paths of auth methods:
the files `a.json` and `b.json`, both with a text that sets the key `path` to
`shared/`.  The field `Path` of `authMethod` carries the tag `json:"path"`, so decoding such
a text sets it. -/
def sharedPathEnv : Env :=
  { envWith (some kvMountV1) (fun _ => Except.ok none) with
    readDir := fun p =>
      if p = "/etc/vault-admin/auth_methods/" then some ["a.json", "b.json"] else none
    readFile := fun _ => some "\x7b\"path\": \"shared/\"\x7d"
    unmarshalAuthMethod := fun text m =>
      if text = "\x7b\"path\": \"shared/\"\x7d" then some { m with Path := "shared/" }
      else some m }

/-- The key, the name and the path of the entries of a declared set. -/
def declaredPaths (declared : authMethodList) : List (String × String × String) :=
  declared.map (fun entry => (entry.1, entry.2.Name, entry.2.Path))

/-- The decoding of the environment leaves the fields `Name` and `Path` of the
descriptor as they were: no file content sets them. -/
def keepsNameAndPath (env : Env) : Prop :=
  ∀ (text : String) (m decoded : authMethod),
    env.unmarshalAuthMethod text m = some decoded → decoded.Name = m.Name ∧ decoded.Path = m.Path

/-- The file names of the auth-method directory that `getAuthMethods` loads:
those with the extension `.json`. -/
def authMethodFiles (env : Env) : List String :=
  ((env.readDir (env.ConfigurationPath ++ "/auth_methods/")).getD []).filter
    (fun filename => checkExt filename ".json")

/-- A placeholder token stands at the head of `s`. -/
def startsToken (s : List Char) : Prop :=
  ∃ word rest, word ≠ [] ∧ (∀ c ∈ word, isWordChar c = true) ∧ s = placeholder word ++ rest

/-- No placeholder token starts at a position inside `gap`, when `gap` is
followed by `rest`. -/
def tokenFree (gap rest : List Char) : Prop :=
  ∀ pre post, gap = pre ++ post → post ≠ [] → ¬ startsToken (post ++ rest)

/-- The text made of the given gaps and the placeholder tokens of the given
words in turn, followed by `tail`. -/
def joinTokens : List (List Char × List Char) → List Char → List Char
  | [], tail => tail
  | (gap, word) :: more, tail => gap ++ placeholder word ++ joinTokens more tail

/-! # Theorems -/

/-! ## Lemmas on runs -/


theorem run_pure {α : Type} (a : α) (w : World) : (pure a : Run α) w = (Outcome.ok a, w) := rfl

theorem run_bind {α β : Type} (x : Run α) (f : α → Run β) (w : World) :
    (x >>= f) w = match x w with
      | (Outcome.ok a, w1) => f a w1
      | (Outcome.fatal msg, w1) => (Outcome.fatal msg, w1) := rfl

theorem run_bind_ok {α β : Type} {x : Run α} {f : α → Run β} {w w1 : World} {a : α}
    (h : x w = (Outcome.ok a, w1)) : (x >>= f) w = f a w1 := by
  rw [run_bind, h]

theorem run_bind_fatal {α β : Type} {x : Run α} {f : α → Run β} {w w1 : World} {msg : String}
    (h : x w = (Outcome.fatal msg, w1)) : (x >>= f) w = (Outcome.fatal msg, w1) := by
  rw [run_bind, h]

theorem Emits.pure {α : Type} (a : α) : Emits (pure a : Run α) [] (Outcome.ok a) := by
  intro w; simp [run_pure]

theorem Emits.logFatal {α : Type} (msg : String) :
    Emits (logFatal msg : Run α) [] (Outcome.fatal msg) := by
  intro w; simp [VaultAdmin.logFatal]

theorem Emits.emit (e : Event) : Emits (emit e) [e] (Outcome.ok ()) := by
  intro w; rfl

theorem Emits.bind {α β : Type} {x : Run α} {f : α → Run β} {es es2 : List Event} {a : α}
    {o : Outcome β} (hx : Emits x es (Outcome.ok a)) (hf : Emits (f a) es2 o) :
    Emits (x >>= f) (es ++ es2) o := by
  intro w
  rw [run_bind_ok (hx w), hf]
  simp

theorem Emits.bind_fatal {α β : Type} {x : Run α} {f : α → Run β} {es : List Event}
    {msg : String} (hx : Emits x es (Outcome.fatal msg)) :
    Emits (x >>= f) es (Outcome.fatal msg) := by
  intro w
  rw [run_bind_fatal (hx w)]

/-- Whatever the outcome of `x`, the bind adds the events of `x` first. -/
theorem Emits.bind_any {α β : Type} {x : Run α} {f : α → Run β} {es : List Event}
    {o : Outcome α} (hx : Emits x es o)
    (hf : ∀ a, o = Outcome.ok a → ∃ es2 o2, Emits (f a) es2 o2) :
    ∃ es2 o2, Emits (x >>= f) (es ++ es2) o2 := by
  cases o with
  | ok a =>
    obtain ⟨es2, o2, h2⟩ := hf a rfl
    exact ⟨es2, o2, Emits.bind hx h2⟩
  | fatal msg =>
    exact ⟨[], Outcome.fatal msg, by simpa using Emits.bind_fatal hx⟩

theorem Emits.forRange {α : Type} {f : α → Run Unit} {g : α → List Event}
    (h : ∀ a, Emits (f a) (g a) (Outcome.ok ())) (l : List α) :
    Emits (forRange f l) (l.flatMap g) (Outcome.ok ()) := by
  induction l with
  | nil => simpa [VaultAdmin.forRange] using Emits.pure ()
  | cons a as ih =>
    have := Emits.bind (f := fun _ => VaultAdmin.forRange f as) (h a) ih
    simpa [VaultAdmin.forRange, List.flatMap_cons] using this

theorem Adds.of_emits {α : Type} {Q : List Event → Prop} {x : Run α} {es : List Event}
    {o : Outcome α} (h : Emits x es o) (hq : Q es) : Adds Q x := by
  intro w; exact ⟨es, by rw [h w], hq⟩

theorem Adds.bind_adds {α β : Type} {Q : List Event → Prop} {x : Run α} {f : α → Run β}
    (happ : ∀ a b, Q a → Q b → Q (a ++ b)) (hx : Adds Q x) (hf : ∀ a, Adds Q (f a)) :
    Adds Q (x >>= f) := by
  intro w
  obtain ⟨es, h1, q1⟩ := hx w
  rw [run_bind]
  rcases hxw : x w with ⟨o, w1⟩
  rw [hxw] at h1
  cases o with
  | ok a =>
    obtain ⟨es2, h2, q2⟩ := hf a w1
    refine ⟨es ++ es2, ?_, happ _ _ q1 q2⟩
    simp only [h2]
    simp at h1
    rw [h1, List.append_assoc]
  | fatal msg => exact ⟨es, h1, q1⟩

theorem Adds.forRange_adds {α : Type} {Q : List Event → Prop} {f : α → Run Unit}
    (hnil : Q []) (happ : ∀ a b, Q a → Q b → Q (a ++ b)) (h : ∀ a, Adds Q (f a))
    (l : List α) : Adds Q (forRange f l) := by
  induction l with
  | nil => exact Adds.of_emits (by simpa [VaultAdmin.forRange] using Emits.pure ()) hnil
  | cons a as ih =>
    have := Adds.bind_adds (f := fun _ => VaultAdmin.forRange f as) happ (h a) (fun _ => ih)
    simpa [VaultAdmin.forRange] using this

/-! ## Lemmas on `strings.Split`, `strings.Join` and `path.Clean` -/


theorem splitSlash_ne_nil (s : List Char) : splitSlash s ≠ [] := by
  cases s with
  | nil => simp [splitSlash]
  | cons c cs =>
    unfold splitSlash
    split
    · simp
    · split <;> simp

theorem splitSlash_noSlash (s : List Char) (h : '/' ∉ s) : splitSlash s = [s] := by
  induction s with
  | nil => rfl
  | cons c cs ih =>
    have hc : c ≠ '/' := fun e => h (by simp [e])
    have hcs : '/' ∉ cs := fun e => h (by simp [e])
    unfold splitSlash
    rw [if_neg hc, ih hcs]

theorem splitSlash_append_slash (a b : List Char) (h : '/' ∉ a) :
    splitSlash (a ++ '/' :: b) = a :: splitSlash b := by
  induction a with
  | nil => simp [splitSlash]
  | cons c cs ih =>
    have hc : c ≠ '/' := fun e => h (by simp [e])
    have hcs : '/' ∉ cs := fun e => h (by simp [e])
    rw [List.cons_append, splitSlash, if_neg hc, ih hcs]

theorem joinSlash_cons (a : List Char) (l : List (List Char)) (h : l ≠ []) :
    joinSlash (a :: l) = a ++ '/' :: joinSlash l := by
  cases l with
  | nil => exact absurd rfl h
  | cons b t => rfl

theorem joinSlash_splitSlash (s : List Char) : joinSlash (splitSlash s) = s := by
  induction s with
  | nil => rfl
  | cons c cs ih =>
    unfold splitSlash
    split
    · next hc => rw [joinSlash_cons _ _ (splitSlash_ne_nil cs), ih, hc]; rfl
    · split
      · next hnil => exact absurd hnil (splitSlash_ne_nil cs)
      · next h t heq =>
        rw [heq] at ih
        cases t with
        | nil => simp [joinSlash] at ih ⊢; exact ih
        | cons b t2 =>
          simp only [joinSlash] at ih ⊢
          rw [← ih]; rfl

theorem splitSlash_joinSlash (comps : List (List Char)) (hne : comps ≠ [])
    (h : ∀ c ∈ comps, '/' ∉ c) : splitSlash (joinSlash comps) = comps := by
  induction comps with
  | nil => exact absurd rfl hne
  | cons a l ih =>
    cases l with
    | nil => simpa [joinSlash] using splitSlash_noSlash a (h a (by simp))
    | cons b t =>
      rw [joinSlash_cons _ _ (by simp), splitSlash_append_slash _ _ (h a (by simp)),
        ih (by simp) (fun c hc => h c (List.mem_cons_of_mem _ hc))]

theorem joinSlash_append (a b : List (List Char)) (ha : a ≠ []) (hb : b ≠ []) :
    joinSlash (a ++ b) = joinSlash a ++ '/' :: joinSlash b := by
  induction a with
  | nil => exact absurd rfl ha
  | cons x l ih =>
    cases l with
    | nil => simp [joinSlash, joinSlash_cons _ _ hb]
    | cons y t =>
      have h1 : joinSlash (x :: (y :: t ++ b)) = x ++ '/' :: joinSlash (y :: t ++ b) :=
        joinSlash_cons _ _ (by simp)
      have h2 : joinSlash (x :: y :: t) = x ++ '/' :: joinSlash (y :: t) := rfl
      show joinSlash (x :: (y :: t ++ b)) = _
      rw [h1, h2, ih (by simp)]
      simp

theorem normalChars_of_normalSegment {s : String} (h : normalSegment s) : normalChars s.data := by
  obtain ⟨h1, h2, h3, h4⟩ := h
  refine ⟨h1, h2, ?_, ?_⟩
  · intro e; apply h3; exact String.ext e
  · intro e; apply h4; exact String.ext e

theorem cleanStep_normal (rooted : Bool) (out : List (List Char)) (c : List Char)
    (h : normalChars c) : cleanStep rooted out c = out ++ [c] := by
  obtain ⟨h1, _, h3, h4⟩ := h
  simp [cleanStep, h1, h3, h4]

theorem cleanStep_empty (rooted : Bool) (out : List (List Char)) :
    cleanStep rooted out [] = out := by
  simp [cleanStep]

theorem foldl_cleanStep (rooted : Bool) (comps out : List (List Char))
    (h : ∀ c ∈ comps, c = [] ∨ normalChars c) :
    comps.foldl (cleanStep rooted) out = out ++ comps.filter (fun c => c ≠ []) := by
  induction comps generalizing out with
  | nil => simp
  | cons c l ih =>
    rw [List.foldl_cons, ih _ (fun x hx => h x (List.mem_cons_of_mem _ hx))]
    rcases h c (by simp) with hc | hc
    · subst hc; simp [cleanStep_empty]
    · rw [cleanStep_normal _ _ _ hc]
      have : c ≠ [] := hc.1
      simp [List.filter_cons, this]

theorem joinSlash_head (a : List Char) (l : List (List Char)) (ha : a ≠ []) :
    (joinSlash (a :: l)).head? = a.head? := by
  cases l with
  | nil => rfl
  | cons b t =>
    rw [joinSlash_cons _ _ (by simp)]
    cases a with
    | nil => exact absurd rfl ha
    | cons x xs => rfl

/-- The result of `path.Clean` on a relative path whose components are kept or empty: the
empty components (doubled or trailing slashes) go, the rest stays. -/
theorem pathCleanChars_joinSlash (a : List Char) (l : List (List Char)) (ha : normalChars a)
    (h : ∀ c ∈ l, c = [] ∨ normalChars c) :
    pathCleanChars (joinSlash (a :: l)) = joinSlash (a :: l.filter (fun c => c ≠ [])) := by
  have hne : joinSlash (a :: l) ≠ [] := by
    intro e
    have := joinSlash_head a l ha.1
    rw [e] at this
    cases a with
    | nil => exact ha.1 rfl
    | cons x xs => simp at this
  have hhead : (joinSlash (a :: l)).head? ≠ some '/' := by
    rw [joinSlash_head a l ha.1]
    cases a with
    | nil => exact absurd rfl ha.1
    | cons x xs =>
      intro e
      simp at e
      exact ha.2.1 (by simp [e])
  have hall : ∀ c ∈ a :: l, c = [] ∨ normalChars c := by
    intro c hc
    rcases List.mem_cons.mp hc with e | e
    · exact Or.inr (e ▸ ha)
    · exact h c e
  have hslash : ∀ c ∈ a :: l, '/' ∉ c := by
    intro c hc
    rcases hall c hc with e | e
    · simp [e]
    · exact e.2.1
  have hsplit := splitSlash_joinSlash (a :: l) (by simp) hslash
  have hfold := foldl_cleanStep false (a :: l) [] hall
  have ha1 : a ≠ [] := ha.1
  have hbody : joinSlash (a :: l.filter (fun c => c ≠ [])) ≠ [] := by
    intro e
    have := joinSlash_head a (l.filter (fun c => c ≠ [])) ha.1
    rw [e] at this
    cases a with
    | nil => exact ha.1 rfl
    | cons x xs => simp at this
  unfold pathCleanChars
  rw [if_neg hne]
  simp only [hsplit]
  have hr : (decide ((joinSlash (a :: l)).head? = some '/')) = false := by simp [hhead]
  rw [hr, hfold]
  simp only [List.nil_append, List.filter_cons, ha1, ne_eq, not_false_eq_true, decide_True,
    ite_true]
  simp at hbody
  simp [hbody]

theorem stringsJoin_data (segs : List String) :
    (stringsJoin segs).data = joinSlash (segs.map String.data) := rfl

theorem normalChars_segs {segs : List String} (h : ∀ s ∈ segs, normalSegment s) :
    ∀ c ∈ segs.map String.data, normalChars c := by
  intro c hc
  obtain ⟨s, hs, rfl⟩ := List.mem_map.mp hc
  exact normalChars_of_normalSegment (h s hs)

theorem filter_normal (l : List (List Char)) (h : ∀ c ∈ l, normalChars c) :
    l.filter (fun c => c ≠ []) = l := by
  apply List.filter_eq_self.mpr
  intro c hc
  simpa using (h c hc).1

theorem string_ne_empty_of_data {s : String} (h : s.data ≠ []) : s ≠ "" := by
  intro e; apply h; rw [e]

theorem joinSlash_snoc_empty (l : List (List Char)) (hl : l ≠ []) :
    joinSlash (l ++ [[]]) = joinSlash l ++ ['/'] := by
  rw [joinSlash_append l [[]] hl (by simp)]
  simp [joinSlash]

/-- The mount path `name/`, for a name given by its components. -/
theorem mountPath_data (segs : List String) (hne : segs ≠ []) :
    (stringsJoin segs ++ "/").data = joinSlash (segs.map String.data ++ [[]]) := by
  rw [String.data_append, stringsJoin_data, joinSlash_snoc_empty _ (by simpa using hne)]

theorem joinSlash_flatten (ls : List (List (List Char))) (hne : ∀ l ∈ ls, l ≠ []) :
    joinSlash (ls.map joinSlash) = joinSlash ls.flatten := by
  induction ls with
  | nil => rfl
  | cons l t ih =>
    have hl : l ≠ [] := hne l (by simp)
    have ht : ∀ x ∈ t, x ≠ [] := fun x hx => hne x (List.mem_cons_of_mem _ hx)
    cases t with
    | nil => simp [joinSlash]
    | cons l2 t2 =>
      have hflat : (l2 :: t2).flatten ≠ [] := by
        have : l2 ≠ [] := ht l2 (by simp)
        simp [this]
      have e1 : (l :: l2 :: t2).flatten = l ++ (l2 :: t2).flatten := rfl
      rw [List.map_cons, joinSlash_cons _ _ (by simp), ih ht, e1,
        joinSlash_append _ _ hl hflat]

/-- The result of `path.Join` of non-empty elements, each given by its `/`-separated
components, when the first component is kept and every other one is kept or
empty: the kept components joined by `/`. -/
theorem pathJoin_components (elem : List String) (comps : List (List (List Char)))
    (a : List Char) (rest : List (List Char))
    (helem : ∀ e ∈ elem, e ≠ "") (hne : elem ≠ [])
    (hcomps : elem.map String.data = comps.map joinSlash)
    (hcne : ∀ l ∈ comps, l ≠ [])
    (hflat : comps.flatten = a :: rest)
    (ha : normalChars a) (hrest : ∀ c ∈ rest, c = [] ∨ normalChars c) :
    pathJoin elem = String.mk (joinSlash (a :: rest.filter (fun c => c ≠ []))) := by
  have hfilter : elem.filter (fun e => e ≠ "") = elem := by
    apply List.filter_eq_self.mpr
    intro e he
    simpa using helem e he
  unfold pathJoin
  simp only [hfilter]
  have : List.map String.data elem ≠ [] := by simpa using hne
  rw [if_neg this, hcomps, joinSlash_flatten comps hcne, hflat,
    pathCleanChars_joinSlash a rest ha hrest]

theorem mountPath_ne_empty (segs : List String) : stringsJoin segs ++ "/" ≠ "" :=
  string_ne_empty_of_data (by rw [String.data_append]; simp)

/-- The path `path.Join("sys/auth", "name/")` is `sys/auth/name`. -/
theorem pathJoin_sysAuth (segs : List String) (hne : segs ≠ [])
    (h : ∀ s ∈ segs, normalSegment s) :
    pathJoin ["sys/auth", stringsJoin segs ++ "/"] = "sys/auth/" ++ stringsJoin segs := by
  have hc := normalChars_segs h
  have hsne : segs.map String.data ≠ [] := by simpa using hne
  rw [pathJoin_components ["sys/auth", stringsJoin segs ++ "/"]
    [[['s', 'y', 's'], ['a', 'u', 't', 'h']], segs.map String.data ++ [[]]]
    ['s', 'y', 's'] (['a', 'u', 't', 'h'] :: (segs.map String.data ++ [[]]))]
  · apply String.ext
    rw [String.data_append, stringsJoin_data]
    have : (['a', 'u', 't', 'h'] :: (segs.map String.data ++ [[]])).filter (fun c => c ≠ [])
        = ['a', 'u', 't', 'h'] :: segs.map String.data := by
      rw [List.filter_cons, List.filter_append, filter_normal _ hc]
      simp
    rw [this, joinSlash_cons _ _ (by simp), joinSlash_cons _ _ hsne]
    rfl
  · intro e he
    simp at he
    rcases he with rfl | rfl
    · decide
    · exact mountPath_ne_empty segs
  · simp
  · simp only [List.map_cons, List.map_nil, mountPath_data segs hne]
    rfl
  · intro l hl
    simp at hl
    rcases hl with rfl | rfl <;> simp
  · simp
  · decide
  · intro c hc2
    rcases List.mem_cons.mp hc2 with e | e
    · right; rw [e]; decide
    · rcases List.mem_append.mp e with e | e
      · exact Or.inr (hc c e)
      · left; simpa using e

theorem rest_kept (pre : List (List Char)) (segsC : List (List Char)) (post : List (List Char))
    (hpre : ∀ c ∈ pre, c = [] ∨ normalChars c) (hsegs : ∀ c ∈ segsC, normalChars c)
    (hpost : ∀ c ∈ post, c = [] ∨ normalChars c) :
    ∀ c ∈ pre ++ (segsC ++ post), c = [] ∨ normalChars c := by
  intro c hc
  rcases List.mem_append.mp hc with e | e
  · exact hpre c e
  · rcases List.mem_append.mp e with e | e
    · exact Or.inr (hsegs c e)
    · exact hpost c e

theorem filter_kept (pre : List (List Char)) (segsC : List (List Char)) (post : List (List Char))
    (hsegs : ∀ c ∈ segsC, normalChars c) :
    (pre ++ (segsC ++ post)).filter (fun c => c ≠ []) =
      pre.filter (fun c => c ≠ []) ++ (segsC ++ post.filter (fun c => c ≠ [])) := by
  rw [List.filter_append, List.filter_append, filter_normal _ hsegs]

/-- The path `path.Join("sys/auth", "name/", "tune")` is `sys/auth/name/tune`. -/
theorem pathJoin_tune (segs : List String) (hne : segs ≠ [])
    (h : ∀ s ∈ segs, normalSegment s) :
    pathJoin ["sys/auth", stringsJoin segs ++ "/", "tune"] =
      "sys/auth/" ++ stringsJoin segs ++ "/tune" := by
  have hc := normalChars_segs h
  have hsne : segs.map String.data ≠ [] := by simpa using hne
  rw [pathJoin_components ["sys/auth", stringsJoin segs ++ "/", "tune"]
    [[['s', 'y', 's'], ['a', 'u', 't', 'h']], segs.map String.data ++ [[]], [['t', 'u', 'n', 'e']]]
    ['s', 'y', 's'] ([['a', 'u', 't', 'h']] ++ (segs.map String.data ++ [[], ['t', 'u', 'n', 'e']]))]
  · apply String.ext
    rw [String.data_append, String.data_append, stringsJoin_data, filter_kept _ _ _ hc]
    have e1 : ([['a', 'u', 't', 'h']] : List (List Char)).filter (fun c => c ≠ []) =
        [['a', 'u', 't', 'h']] := by decide
    have e2 : ([[], ['t', 'u', 'n', 'e']] : List (List Char)).filter (fun c => c ≠ []) =
        [['t', 'u', 'n', 'e']] := by decide
    rw [e1, e2]
    show joinSlash (['s', 'y', 's'] :: ['a', 'u', 't', 'h'] ::
      (segs.map String.data ++ [['t', 'u', 'n', 'e']])) = _
    rw [joinSlash_cons _ _ (by simp), joinSlash_cons _ _ (by simp),
      joinSlash_append _ _ hsne (by simp)]
    simp [joinSlash]
  · intro e he
    simp at he
    rcases he with rfl | rfl | rfl
    · decide
    · exact mountPath_ne_empty segs
    · decide
  · simp
  · simp only [List.map_cons, List.map_nil, mountPath_data segs hne]
    rfl
  · intro l hl
    simp at hl
    rcases hl with rfl | rfl | rfl <;> simp
  · simp
  · decide
  · refine rest_kept _ _ _ ?_ hc ?_
    · intro c hc2; simp at hc2; right; rw [hc2]; decide
    · intro c hc2; simp at hc2; rcases hc2 with rfl | rfl
      · left; rfl
      · right; decide

/-- The path `path.Join("auth", "name/", "config")` is `auth/name/config`. -/
theorem pathJoin_authConfig (segs : List String) (hne : segs ≠ [])
    (h : ∀ s ∈ segs, normalSegment s) :
    pathJoin ["auth", stringsJoin segs ++ "/", "config"] =
      "auth/" ++ stringsJoin segs ++ "/config" := by
  have hc := normalChars_segs h
  have hsne : segs.map String.data ≠ [] := by simpa using hne
  rw [pathJoin_components ["auth", stringsJoin segs ++ "/", "config"]
    [[['a', 'u', 't', 'h']], segs.map String.data ++ [[]], [['c', 'o', 'n', 'f', 'i', 'g']]]
    ['a', 'u', 't', 'h'] ([] ++ (segs.map String.data ++ [[], ['c', 'o', 'n', 'f', 'i', 'g']]))]
  · apply String.ext
    rw [String.data_append, String.data_append, stringsJoin_data, filter_kept _ _ _ hc]
    have e2 : ([[], ['c', 'o', 'n', 'f', 'i', 'g']] : List (List Char)).filter (fun c => c ≠ []) =
        [['c', 'o', 'n', 'f', 'i', 'g']] := by decide
    rw [e2]
    show joinSlash (['a', 'u', 't', 'h'] ::
      (segs.map String.data ++ [['c', 'o', 'n', 'f', 'i', 'g']])) = _
    rw [joinSlash_cons _ _ (by simp), joinSlash_append _ _ hsne (by simp)]
    simp [joinSlash]
  · intro e he
    simp at he
    rcases he with rfl | rfl | rfl
    · decide
    · exact mountPath_ne_empty segs
    · decide
  · simp
  · simp only [List.map_cons, List.map_nil, mountPath_data segs hne]
    rfl
  · intro l hl
    simp at hl
    rcases hl with rfl | rfl | rfl <;> simp
  · simp
  · decide
  · refine rest_kept _ _ _ ?_ hc ?_
    · intro c hc2; simp at hc2
    · intro c hc2; simp at hc2; rcases hc2 with rfl | rfl
      · left; rfl
      · right; decide

/-- The path `path.Join("name/", "roleset", r)` is `name/roleset/r`. -/
theorem pathJoin_roleset (seg : String) (segs : List String) (name : String)
    (h : ∀ s ∈ seg :: segs, normalSegment s) (hname : normalSegment name) :
    pathJoin [stringsJoin (seg :: segs) ++ "/", "roleset", name] =
      stringsJoin (seg :: segs) ++ "/" ++ "roleset/" ++ name := by
  have hc := normalChars_segs h
  have hn := normalChars_of_normalSegment hname
  have hseg : normalChars seg.data := hc _ (by simp)
  have hsegs : ∀ c ∈ segs.map String.data, normalChars c :=
    fun c hc2 => hc c (by simp at hc2 ⊢; exact Or.inr hc2)
  rw [pathJoin_components [stringsJoin (seg :: segs) ++ "/", "roleset", name]
    [(seg :: segs).map String.data ++ [[]], [['r', 'o', 'l', 'e', 's', 'e', 't']], [name.data]]
    seg.data ([] ++ (segs.map String.data ++ [[], ['r', 'o', 'l', 'e', 's', 'e', 't'], name.data]))]
  · apply String.ext
    rw [String.data_append, String.data_append, String.data_append, stringsJoin_data,
      filter_kept _ _ _ hsegs]
    have e2 : ([[], ['r', 'o', 'l', 'e', 's', 'e', 't'], name.data] :
        List (List Char)).filter (fun c => c ≠ []) =
        [['r', 'o', 'l', 'e', 's', 'e', 't'], name.data] := by
      simp [List.filter_cons, hn.1]
    rw [e2]
    show joinSlash (seg.data :: segs.map String.data ++
      [['r', 'o', 'l', 'e', 's', 'e', 't'], name.data]) = _
    have e3 : seg.data :: segs.map String.data = (seg :: segs).map String.data := rfl
    rw [e3, joinSlash_append _ _ (by simp) (by simp)]
    simp [joinSlash]
  · intro e he
    simp at he
    rcases he with rfl | rfl | rfl
    · exact mountPath_ne_empty _
    · decide
    · exact string_ne_empty_of_data hn.1
  · simp
  · simp only [List.map_cons, List.map_nil, mountPath_data (seg :: segs) (by simp)]
    rfl
  · intro l hl
    simp at hl
    rcases hl with rfl | rfl | rfl <;> simp
  · simp
  · exact hseg
  · refine rest_kept _ _ _ ?_ hsegs ?_
    · intro c hc2; simp at hc2
    · intro c hc2; simp at hc2; rcases hc2 with rfl | rfl | rfl
      · left; rfl
      · right; decide
      · right; exact hn

/-! ## Lemmas on the placeholder pattern -/


theorem isWordChar_brace : isWordChar '}' = false := by decide

theorem takeWhile_word (w rest : List Char) (hw : ∀ c ∈ w, isWordChar c = true) :
    (w ++ '}' :: rest).takeWhile isWordChar = w := by
  induction w with
  | nil => simp [List.takeWhile_cons, isWordChar_brace]
  | cons c cs ih =>
    have hc : isWordChar c = true := hw c (by simp)
    rw [List.cons_append, List.takeWhile_cons, if_pos hc,
      ih (fun x hx => hw x (List.mem_cons_of_mem _ hx))]

theorem dropWhile_word (w rest : List Char) (hw : ∀ c ∈ w, isWordChar c = true) :
    (w ++ '}' :: rest).dropWhile isWordChar = '}' :: rest := by
  induction w with
  | nil => simp [List.dropWhile_cons, isWordChar_brace]
  | cons c cs ih =>
    have hc : isWordChar c = true := hw c (by simp)
    rw [List.cons_append, List.dropWhile_cons, if_pos hc,
      ih (fun x hx => hw x (List.mem_cons_of_mem _ hx))]

theorem matchHere_placeholder (w rest : List Char) (hne : w ≠ [])
    (hw : ∀ c ∈ w, isWordChar c = true) :
    matchHere ('%' :: '{' :: (w ++ '}' :: '%' :: rest)) = some (placeholder w) := by
  simp only [matchHere, takeWhile_word w _ hw, dropWhile_word w _ hw, hne, if_false]
  rfl

theorem matchHere_some {s tok : List Char} (h : matchHere s = some tok) :
    ∃ w rest, w ≠ [] ∧ (∀ c ∈ w, isWordChar c = true) ∧
      s = '%' :: '{' :: (w ++ '}' :: '%' :: rest) ∧ tok = placeholder w := by
  unfold matchHere at h
  split at h
  · next t =>
    simp only at h
    split at h
    · next rest hd =>
      split at h
      · simp at h
      · next hne =>
        simp at h
        refine ⟨t.takeWhile isWordChar, rest, hne, ?_, ?_, h.symm⟩
        · intro c hc
          exact (List.mem_takeWhile_imp hc)
        · have := List.takeWhile_append_dropWhile isWordChar t
          rw [hd] at this
          rw [this]
    · simp at h
  · simp at h

theorem findAllFrom_nil (k : Nat) : findAllFrom k [] = [] := by
  cases k <;> rfl

/-- A reported match starts somewhere in the text. -/
theorem findAllFrom_mem {k : Nat} {s tok : List Char} (h : tok ∈ findAllFrom k s) :
    ∃ pre post, s = pre ++ post ∧ matchHere post = some tok := by
  induction s generalizing k with
  | nil => simp [findAllFrom_nil] at h
  | cons c t ih =>
    cases k with
    | succ n =>
      simp only [findAllFrom] at h
      obtain ⟨pre, post, e, hm⟩ := ih h
      exact ⟨c :: pre, post, by simp [e], hm⟩
    | zero =>
      simp only [findAllFrom] at h
      split at h
      · next tok2 hm =>
        rcases List.mem_cons.mp h with e | e
        · exact ⟨[], c :: t, rfl, e ▸ hm⟩
        · obtain ⟨pre, post, e2, hm2⟩ := ih e
          exact ⟨c :: pre, post, by simp [e2], hm2⟩
      · obtain ⟨pre, post, e2, hm2⟩ := ih h
        exact ⟨c :: pre, post, by simp [e2], hm2⟩

/-- A match anywhere in the text makes the scan report at least one match. -/
theorem findAllFrom_ne_nil (pre post : List Char) {tok : List Char}
    (h : matchHere post = some tok) : findAllFrom 0 (pre ++ post) ≠ [] := by
  induction pre with
  | nil =>
    cases post with
    | nil => simp [matchHere] at h
    | cons c t => simp [findAllFrom, h]
  | cons c p ih =>
    simp only [List.cons_append, findAllFrom]
    split
    · simp
    · exact ih

/-- The scan reports a match exactly when the text holds a placeholder token. -/
theorem findAllPlaceholders_ne_nil_iff (text : String) :
    findAllPlaceholders text ≠ [] ↔
      ∃ pre word post, text.data = pre ++ placeholder word ++ post ∧ word ≠ [] ∧
        ∀ c ∈ word, isWordChar c = true := by
  unfold findAllPlaceholders
  rw [Ne, List.map_eq_nil_iff]
  constructor
  · intro h
    obtain ⟨tok, htok⟩ := List.exists_mem_of_ne_nil _ h
    obtain ⟨pre, post, e, hm⟩ := findAllFrom_mem htok
    obtain ⟨w, rest, hne, hw, e2, _⟩ := matchHere_some hm
    exact ⟨pre, w, rest, by rw [e, e2]; simp [placeholder], hne, hw⟩
  · rintro ⟨pre, w, post, e, hne, hw⟩
    have hm := matchHere_placeholder w post hne hw
    have : text.data = pre ++ ('%' :: '{' :: (w ++ '}' :: '%' :: post)) := by
      rw [e]; simp [placeholder]
    rw [this]
    exact findAllFrom_ne_nil pre _ hm

/-! ## Lemmas on `utils.go` -/


theorem secretEntries_emits (env : Env) (path : String) (l : List (String × Json))
    (acc : List (String × String)) : ∃ o, Emits (secretEntries env path l acc) [] o := by
  induction l generalizing acc with
  | nil => exact ⟨_, by simpa [secretEntries] using Emits.pure acc⟩
  | cons e rest ih =>
    obtain ⟨k, v⟩ := e
    cases v with
    | str value => simpa [secretEntries] using ih _
    | obj value =>
      by_cases hk : k = "data"
      · simpa [secretEntries, hk] using ih _
      · simpa [secretEntries, hk] using ih _
    | null => exact ⟨_, by simpa [secretEntries] using Emits.logFatal _⟩
    | bool b => exact ⟨_, by simpa [secretEntries] using Emits.logFatal _⟩
    | num n => exact ⟨_, by simpa [secretEntries] using Emits.logFatal _⟩
    | arr a => exact ⟨_, by simpa [secretEntries] using Emits.logFatal _⟩

theorem kvVersionByPath_notFound (env : Env) (path : String)
    (mounts : List (String × MountOutput)) (hmounts : env.mounts = some mounts)
    (hmount : mapGet mounts (mountPoint path) = none) :
    Emits (kvVersionByPath env path) [Event.listMounts]
      (Outcome.ok (Except.error (GoError.other
        ("cannot determine kv version; mountpoint '" ++ (mountPoint path) ++
          "' not found")))) := by
  intro w
  simp [kvVersionByPath, run_bind, emit, hmounts, hmount, run_pure]

theorem kvVersionByPath_notKv (env : Env) (path : String)
    (mounts : List (String × MountOutput)) (mount : MountOutput)
    (hmounts : env.mounts = some mounts)
    (hmount : mapGet mounts (mountPoint path) = some mount)
    (hkv : mount.type ≠ "kv") :
    Emits (kvVersionByPath env path) [Event.listMounts]
      (Outcome.ok (Except.error (GoError.other
        ("cannot determine kv version; mountpoint '" ++ (mountPoint path) ++
          "' is not a kv secret backend")))) := by
  intro w
  simp [kvVersionByPath, run_bind, emit, hmounts, hmount, run_pure, hkv]

theorem kvVersionByPath_kv (env : Env) (path : String)
    (mounts : List (String × MountOutput)) (mount : MountOutput)
    (hmounts : env.mounts = some mounts)
    (hmount : mapGet mounts (mountPoint path) = some mount)
    (hkv : mount.type = "kv") :
    Emits (kvVersionByPath env path) [Event.listMounts]
      (Outcome.ok (Except.ok (if versionTwo mount then 2 else 1))) := by
  intro w
  by_cases h2 : versionTwo mount
  · obtain ⟨o, ho, hv⟩ := h2
    have : versionTwo mount := ⟨o, ho, hv⟩
    simp [kvVersionByPath, run_bind, emit, hmounts, hmount, run_pure, hkv, ho, hv, this]
  · cases ho : mount.Options with
    | none => simp [kvVersionByPath, run_bind, emit, hmounts, hmount, run_pure, hkv, ho, h2]
    | some o =>
      have hv : ¬ (mapGet o "version").getD "" = "2" := by
        intro e
        apply h2
        refine ⟨o, ho, ?_⟩
        cases hg : mapGet o "version" with
        | none => rw [hg] at e; simp at e
        | some x => rw [hg] at e; simp at e; rw [e]
      simp [kvVersionByPath, run_bind, emit, hmounts, hmount, run_pure, hkv, ho, h2, hv]

theorem getSecretArray_kv (env : Env) (path : String)
    (mounts : List (String × MountOutput)) (mount : MountOutput)
    (hmounts : env.mounts = some mounts)
    (hmount : mapGet mounts (mountPoint path) = some mount)
    (hkv : mount.type = "kv") :
    ∃ o, Emits (getSecretArray env path) [Event.listMounts, Event.read (kvReadPath mount path)] o ∧
      (∀ err, env.vaultRead (kvReadPath mount path) = Except.error err →
        o = Outcome.ok (Except.error err)) ∧
      (env.vaultRead (kvReadPath mount path) = Except.ok none →
        o = Outcome.ok (Except.error GoError.ErrNotExist)) ∧
      (∀ secret, env.vaultRead (kvReadPath mount path) = Except.ok (some secret) →
        o = (secretEntries env (kvReadPath mount path) (env.range secret.Data) []
            (World.initial [])).1.map Except.ok) := by
  have hk := kvVersionByPath_kv env path mounts mount hmounts hmount hkv
  have hp : (if (if versionTwo mount then 2 else 1) = 2 then
      stringsJoin (SliceInsert (stringsSplit path) 1 "data") else path) = kvReadPath mount path := by
    unfold kvReadPath
    by_cases h2 : versionTwo mount <;> simp [h2]
  have hb : ∀ w : World, getSecretArray env path w =
      (match env.vaultRead (kvReadPath mount path) with
        | Except.error err => pure (Except.error err)
        | Except.ok none => pure (Except.error GoError.ErrNotExist)
        | Except.ok (some secret) => do
          let secretArray ←
            secretEntries env (kvReadPath mount path) (env.range secret.Data) []
          pure (Except.ok secretArray) : Run (Except GoError (List (String × String))))
        { w with trace := w.trace ++ [Event.listMounts, Event.read (kvReadPath mount path)] } := by
    intro w
    simp only [getSecretArray, run_bind, hk w, hp, emit]
    simp
  cases hr : env.vaultRead (kvReadPath mount path) with
  | error err =>
    refine ⟨Outcome.ok (Except.error err), ?_, by simp, by simp, by simp⟩
    intro w
    rw [hb w, hr]; rfl
  | ok r =>
    cases r with
    | none =>
      refine ⟨Outcome.ok (Except.error GoError.ErrNotExist), ?_, by simp, by simp, by simp⟩
      intro w
      rw [hb w, hr]; rfl
    | some secret =>
      obtain ⟨o, ho⟩ := secretEntries_emits env (kvReadPath mount path) (env.range secret.Data) []
      refine ⟨o.map Except.ok, ?_, by simp, by simp, ?_⟩
      · intro w
        rw [hb w, hr]
        simp only [run_bind]
        rw [ho]
        cases o <;> simp [run_pure, Outcome.map]
      · intro secret2 h2
        simp at h2
        subst h2
        rw [ho]

theorem getSecretArray_notKv (env : Env) (path : String)
    (mounts : List (String × MountOutput)) (mount : MountOutput)
    (hmounts : env.mounts = some mounts)
    (hmount : mapGet mounts (mountPoint path) = some mount)
    (hkv : mount.type ≠ "kv") :
    Emits (getSecretArray env path) [Event.listMounts]
      (Outcome.ok (Except.error (GoError.other
        ("cannot determine kv version; mountpoint '" ++ (mountPoint path) ++
          "' is not a kv secret backend")))) := by
  have hk := kvVersionByPath_notKv env path mounts mount hmounts hmount hkv
  intro w
  simp [getSecretArray, run_bind, hk w, run_pure]

theorem getSecretArray_notFound (env : Env) (path : String)
    (mounts : List (String × MountOutput)) (hmounts : env.mounts = some mounts)
    (hmount : mapGet mounts (mountPoint path) = none) :
    Emits (getSecretArray env path) [Event.listMounts]
      (Outcome.ok (Except.error (GoError.other
        ("cannot determine kv version; mountpoint '" ++ (mountPoint path) ++ "' not found")))) := by
  have hk := kvVersionByPath_notFound env path mounts hmounts hmount
  intro w
  simp [getSecretArray, run_bind, hk w, run_pure]

/-- The function `getSecretArray` only lists the mounts and reads. -/
theorem getSecretArray_emits (env : Env) (path : String) :
    ∃ es o, Emits (getSecretArray env path) es o ∧
      ∀ e ∈ es, e = Event.listMounts ∨ ∃ p, e = Event.read p := by
  cases hmounts : env.mounts with
  | none =>
    refine ⟨[Event.listMounts], Outcome.fatal "Failed to list mounts", ?_, by simp⟩
    intro w
    simp [getSecretArray, kvVersionByPath, run_bind, emit, hmounts, logFatal]
  | some mounts =>
    cases hmount : mapGet mounts (mountPoint path) with
    | none => exact ⟨_, _, getSecretArray_notFound env path mounts hmounts hmount, by simp⟩
    | some mount =>
      by_cases hkv : mount.type = "kv"
      · obtain ⟨o, ho, _⟩ := getSecretArray_kv env path mounts mount hmounts hmount hkv
        exact ⟨_, o, ho, by simp⟩
      · exact ⟨_, _, getSecretArray_notKv env path mounts mount hmounts hmount hkv, by simp⟩

theorem performSubstitutions_fetched (env : Env) (content secretPath : String) (w w1 : World)
    (secrets : List (String × String))
    (hfetch : getSecretArray env (env.VaultSecretBasePath ++ secretPath) w =
      (Outcome.ok (Except.ok secrets), w1)) :
    performSubstitutions env content secretPath w =
      (Outcome.ok (substituteSecrets content (env.range secrets),
        checkSubstitutions (env.VaultSecretBasePath ++ secretPath)
          (substituteSecrets content (env.range secrets))), w1) := by
  simp [performSubstitutions, run_bind, hfetch, run_pure]

theorem performSubstitutions_notExist (env : Env) (content secretPath : String) (w w1 : World)
    (hfetch : getSecretArray env (env.VaultSecretBasePath ++ secretPath) w =
      (Outcome.ok (Except.error GoError.ErrNotExist), w1)) :
    performSubstitutions env content secretPath w =
      (Outcome.ok (content,
        checkSubstitutions (env.VaultSecretBasePath ++ secretPath) content), w1) := by
  simp [performSubstitutions, run_bind, hfetch, run_pure, substituteSecrets]

theorem performSubstitutions_error (env : Env) (content secretPath : String) (w w1 : World)
    (err : GoError) (herr : err ≠ GoError.ErrNotExist)
    (hfetch : getSecretArray env (env.VaultSecretBasePath ++ secretPath) w =
      (Outcome.ok (Except.error err), w1)) :
    performSubstitutions env content secretPath w = (Outcome.ok (content, some err), w1) := by
  simp [performSubstitutions, run_bind, hfetch, run_pure, herr]

theorem performSubstitutions_fatal (env : Env) (content secretPath : String) (w w1 : World)
    (msg : String)
    (hfetch : getSecretArray env (env.VaultSecretBasePath ++ secretPath) w =
      (Outcome.fatal msg, w1)) :
    performSubstitutions env content secretPath w = (Outcome.fatal msg, w1) := by
  simp [performSubstitutions, run_bind, hfetch]

/-- The function `performSubstitutions` only lists the mounts and reads. -/
theorem performSubstitutions_emits (env : Env) (content secretPath : String) :
    ∃ es o, Emits (performSubstitutions env content secretPath) es o ∧
      ∀ e ∈ es, e = Event.listMounts ∨ ∃ p, e = Event.read p := by
  obtain ⟨es, o, ho, hes⟩ := getSecretArray_emits env (env.VaultSecretBasePath ++ secretPath)
  cases o with
  | fatal msg =>
    exact ⟨es, Outcome.fatal msg,
      fun w => performSubstitutions_fatal env content secretPath w _ msg (ho w), hes⟩
  | ok r =>
    cases r with
    | ok secrets =>
      exact ⟨es, _, fun w => performSubstitutions_fetched env content secretPath w _ secrets (ho w),
        hes⟩
    | error err =>
      by_cases herr : err = GoError.ErrNotExist
      · subst herr
        exact ⟨es, _, fun w => performSubstitutions_notExist env content secretPath w _ (ho w), hes⟩
      · exact ⟨es, _, fun w => performSubstitutions_error env content secretPath w _ err herr (ho w),
          hes⟩

theorem checkSubstitutions_eq (fullSecretPath content : String) :
    checkSubstitutions fullSecretPath content =
      if findAllPlaceholders content = [] then none
      else some (GoError.substitutionsNotFound fullSecretPath (findAllPlaceholders content)) := by
  unfold checkSubstitutions
  cases h : findAllPlaceholders content with
  | nil => simp
  | cons a l => simp

/-- Every match the scan reports is a placeholder token standing in the text. -/
theorem findAllPlaceholders_mem (text tok : String) (h : tok ∈ findAllPlaceholders text) :
    ∃ pre word post, text.data = pre ++ tok.data ++ post ∧ tok.data = placeholder word ∧
      word ≠ [] ∧ ∀ c ∈ word, isWordChar c = true := by
  unfold findAllPlaceholders at h
  obtain ⟨t, ht, rfl⟩ := List.mem_map.mp h
  obtain ⟨pre, post, e, hm⟩ := findAllFrom_mem ht
  obtain ⟨w, rest, hne, hw, e2, e3⟩ := matchHere_some hm
  refine ⟨pre, w, rest, ?_, e3, hne, hw⟩
  rw [e, e2]
  show _ = pre ++ t ++ rest
  rw [e3]
  simp [placeholder]

/-! ## Lemmas on `strings.Replace` and the scan, for texts with few `%` -/


theorem replaceFrom_nil (old new : List Char) (k : Nat) : replaceFrom old new k [] = [] := by
  cases k <;> rfl

theorem replaceFrom_skip (old new : List Char) (l rest : List Char) :
    replaceFrom old new l.length (l ++ rest) = replaceFrom old new 0 rest := by
  induction l with
  | nil => rfl
  | cons c t ih => simpa [replaceFrom] using ih

theorem findAllFrom_skip (l rest : List Char) :
    findAllFrom l.length (l ++ rest) = findAllFrom 0 rest := by
  induction l with
  | nil => rfl
  | cons c t ih => simpa [findAllFrom] using ih

theorem isPrefixOf_count (old s : List Char) (c : Char) (h : old.isPrefixOf s = true) :
    old.count c ≤ s.count c := by
  have := List.isPrefixOf_iff_prefix.mp h
  exact this.sublist.count_le c

/-- A text with fewer `%` than the token is left as it is. -/
theorem replaceFrom_fewPercent (old new : List Char) (s : List Char)
    (h : s.count '%' < old.count '%') : replaceFrom old new 0 s = s := by
  induction s with
  | nil => rfl
  | cons c t ih =>
    have hp : old.isPrefixOf (c :: t) = false := by
      cases hb : old.isPrefixOf (c :: t) with
      | false => rfl
      | true => have := isPrefixOf_count old (c :: t) '%' hb; omega
    have ht : t.count '%' < old.count '%' := by
      have : t.count '%' ≤ (c :: t).count '%' := by
        rw [List.count_cons]; omega
      omega
    simp [replaceFrom, hp, ih ht]

/-- A stretch without `%` before the rest of the text is copied. -/
theorem replaceFrom_noPercent (old new : List Char) (x rest : List Char)
    (hold : old.head? = some '%') (hx : '%' ∉ x) :
    replaceFrom old new 0 (x ++ rest) = x ++ replaceFrom old new 0 rest := by
  induction x with
  | nil => rfl
  | cons c t ih =>
    have hc : c ≠ '%' := fun e => hx (by simp [e])
    have ht : '%' ∉ t := fun e => hx (by simp [e])
    have hp : old.isPrefixOf (c :: (t ++ rest)) = false := by
      cases old with
      | nil => simp at hold
      | cons o os =>
        simp at hold
        subst hold
        simp [List.isPrefixOf]
        intro e
        exact absurd e.symm hc
    simp [replaceFrom, hp, ih ht]

theorem replaceFrom_match (c : Char) (os new rest : List Char) :
    replaceFrom (c :: os) new 0 (c :: os ++ rest) = new ++ replaceFrom (c :: os) new 0 rest := by
  have hp : (c :: os).isPrefixOf (c :: (os ++ rest)) = true := by
    rw [List.isPrefixOf_iff_prefix]
    exact ⟨rest, by simp⟩
  have hlen : (c :: os).length - 1 = os.length := by simp
  show replaceFrom (c :: os) new 0 (c :: (os ++ rest)) = _
  rw [replaceFrom, if_pos hp, hlen, replaceFrom_skip]

theorem matchHere_noPercent (c : Char) (t : List Char) (hc : c ≠ '%') :
    matchHere (c :: t) = none := by
  unfold matchHere
  split
  · next heq => simp at heq; exact absurd heq.1 hc
  · rfl

theorem findAllFrom_noPercent (x rest : List Char) (hx : '%' ∉ x) :
    findAllFrom 0 (x ++ rest) = findAllFrom 0 rest := by
  induction x with
  | nil => rfl
  | cons c t ih =>
    have hc : c ≠ '%' := fun e => hx (by simp [e])
    have ht : '%' ∉ t := fun e => hx (by simp [e])
    simp [findAllFrom, matchHere_noPercent c _ hc, ih ht]

theorem findAllFrom_noPercent_nil (x : List Char) (hx : '%' ∉ x) : findAllFrom 0 x = [] := by
  have := findAllFrom_noPercent x [] hx
  simpa [findAllFrom] using this

theorem count_noPercent (x : List Char) (hx : '%' ∉ x) : x.count '%' = 0 :=
  List.count_eq_zero.mpr hx

/-- The text `p%{a}%m%{b}%q` with `%` nowhere else, after replacing `%{a}%` by a
value `v` without `%`, is `p v m%{b}%q`. -/
theorem replace_a_keeps_b (p m q v : List Char) (hp : '%' ∉ p) (hm : '%' ∉ m) (hq : '%' ∉ q) :
    replaceFrom ['%', '{', 'a', '}', '%'] v 0
        (p ++ (['%', '{', 'a', '}', '%'] ++ (m ++ (['%', '{', 'b', '}', '%'] ++ q)))) =
      p ++ (v ++ (m ++ (['%', '{', 'b', '}', '%'] ++ q))) := by
  rw [replaceFrom_noPercent ['%', '{', 'a', '}', '%'] v p _ rfl hp]
  have e1 : (['%', '{', 'a', '}', '%'] ++ (m ++ (['%', '{', 'b', '}', '%'] ++ q))) =
      '%' :: ['{', 'a', '}', '%'] ++ (m ++ (['%', '{', 'b', '}', '%'] ++ q)) := rfl
  rw [e1, replaceFrom_match, replaceFrom_noPercent ['%', '{', 'a', '}', '%'] v m _ rfl hm]
  have e2 : replaceFrom ['%', '{', 'a', '}', '%'] v 0 (['%', '{', 'b', '}', '%'] ++ q) =
      '%' :: replaceFrom ['%', '{', 'a', '}', '%'] v 0 (['{', 'b', '}', '%'] ++ q) := by
    simp [replaceFrom, List.isPrefixOf]
  have e3 : replaceFrom ['%', '{', 'a', '}', '%'] v 0 (['{', 'b', '}', '%'] ++ q) =
      ['{', 'b', '}', '%'] ++ q := by
    apply replaceFrom_fewPercent
    have := count_noPercent q hq
    simp [List.count_cons, this]
  rw [e2, e3]
  rfl

/-- The scan of `x%{b}%q`, with `%` nowhere else, reports `%{b}%` alone. -/
theorem findAll_only_b (x q : List Char) (hx : '%' ∉ x) (hq : '%' ∉ q) :
    findAllFrom 0 (x ++ (['%', '{', 'b', '}', '%'] ++ q)) = [['%', '{', 'b', '}', '%']] := by
  rw [findAllFrom_noPercent x _ hx]
  have hm : matchHere (['%', '{', 'b', '}', '%'] ++ q) = some ['%', '{', 'b', '}', '%'] :=
    matchHere_placeholder ['b'] q (by simp) (by decide)
  have e : findAllFrom 0 (['%', '{', 'b', '}', '%'] ++ q) =
      ['%', '{', 'b', '}', '%'] :: findAllFrom 4 (['{', 'b', '}', '%'] ++ q) := by
    show findAllFrom 0 ('%' :: (['{', 'b', '}', '%'] ++ q)) = _
    rw [findAllFrom]
    have hm2 : matchHere ('%' :: (['{', 'b', '}', '%'] ++ q)) = some ['%', '{', 'b', '}', '%'] := hm
    rw [hm2]
    rfl
  rw [e]
  have := findAllFrom_skip ['{', 'b', '}', '%'] q
  simp only [List.length_cons, List.length_nil] at this
  rw [this, findAllFrom_noPercent_nil q hq]


/-! ## The scan names every match -/

theorem matchHere_none_of_not_startsToken (s : List Char) (h : ¬ startsToken s) :
    matchHere s = none := by
  cases hm : matchHere s with
  | none => rfl
  | some tok =>
    obtain ⟨w, rest, hne, hw, e, _⟩ := matchHere_some hm
    exact absurd ⟨w, rest, hne, hw, by rw [e]; simp [placeholder]⟩ h

/-- The scan law: the leftmost placeholder token of a text is reported first,
and after it the matches of the scan of the text that follows the token. -/
theorem findAllFrom_leftmost (gap word rest : List Char) (hne : word ≠ [])
    (hw : ∀ c ∈ word, isWordChar c = true) (hfree : tokenFree gap (placeholder word ++ rest)) :
    findAllFrom 0 (gap ++ placeholder word ++ rest) = placeholder word :: findAllFrom 0 rest := by
  induction gap with
  | nil =>
    have hm : matchHere ('%' :: '{' :: (word ++ '}' :: '%' :: rest)) = some (placeholder word) :=
      matchHere_placeholder word rest hne hw
    have e : ([] : List Char) ++ placeholder word ++ rest =
        '%' :: ('{' :: (word ++ ['}', '%']) ++ rest) := by simp [placeholder]
    have e2 : '%' :: ('{' :: (word ++ ['}', '%']) ++ rest) =
        '%' :: '{' :: (word ++ '}' :: '%' :: rest) := by simp
    rw [e, findAllFrom, e2, hm]
    simp only
    have hlen : (placeholder word).length - 1 = ('{' :: (word ++ ['}', '%'])).length := by
      simp [placeholder]
    rw [hlen, findAllFrom_skip]
  | cons c g ih =>
    have hnone : matchHere (c :: g ++ placeholder word ++ rest) = none := by
      apply matchHere_none_of_not_startsToken
      have := hfree [] (c :: g) rfl (by simp)
      simpa [List.append_assoc] using this
    have hg : tokenFree g (placeholder word ++ rest) := by
      intro pre post e hp
      exact hfree (c :: pre) post (by rw [e]; rfl) hp
    show findAllFrom 0 (c :: (g ++ placeholder word ++ rest)) = _
    rw [findAllFrom]
    have hnone2 : matchHere (c :: (g ++ placeholder word ++ rest)) = none := by
      simpa using hnone
    rw [hnone2]
    exact ih hg

theorem tokenFree_of_noPercent (gap rest : List Char) (h : '%' ∉ gap) : tokenFree gap rest := by
  intro pre post e hp hs
  obtain ⟨word, r, _, _, e2⟩ := hs
  cases post with
  | nil => exact hp rfl
  | cons c t =>
    have hc : c = '%' := by
      have := congrArg List.head? e2
      simpa [placeholder] using this
    apply h
    rw [e, hc]
    simp

/-- Every token of a text in which the tokens are separated by text without
`%` is reported, in order. -/
theorem findAllFrom_joinTokens (segs : List (List Char × List Char)) (tail : List Char)
    (hsegs : ∀ seg ∈ segs, '%' ∉ seg.1 ∧ seg.2 ≠ [] ∧ ∀ c ∈ seg.2, isWordChar c = true)
    (htail : '%' ∉ tail) :
    findAllFrom 0 (joinTokens segs tail) = segs.map (fun seg => placeholder seg.2) := by
  induction segs with
  | nil => simpa [joinTokens] using findAllFrom_noPercent_nil tail htail
  | cons seg more ih =>
    obtain ⟨hgap, hne, hw⟩ := hsegs seg (by simp)
    have hmore := ih (fun x hx => hsegs x (List.mem_cons_of_mem _ hx))
    show findAllFrom 0 (seg.1 ++ placeholder seg.2 ++ joinTokens more tail) = _
    rw [findAllFrom_leftmost seg.1 seg.2 _ hne hw (tokenFree_of_noPercent _ _ hgap), hmore]
    rfl

/-! ## C1 -/


/-- C1 (as amended): when the secrets of the path are fetched, `performSubstitutions`
replaces the tokens of the fetched keys one key after the other and returns an
error exactly when the resulting text still holds a match of the placeholder
pattern; the error lists all the matches of the scan of that text, each of
which is a placeholder token standing in it; for a text `p%{a}%m%{b}%q` and a
value of `a`, all without other `%`, where only `a` is fetched, the call
fails and names `%{b}%` alone.  The scan names all the matches and not only the
first: the leftmost token of a text is named first and then the matches of the
scan of the text after that token; so when the substituted text is made of
tokens separated by text without `%`, the error names every one of them, in
order. -/
theorem performSubstitutions_completeness (env : Env) (content secretPath : String)
    (w w1 : World) (secrets : List (String × String))
    (hfetch : getSecretArray env (env.VaultSecretBasePath ++ secretPath) w =
      (Outcome.ok (Except.ok secrets), w1)) :
    performSubstitutions env content secretPath w =
        (Outcome.ok (substituteSecrets content (env.range secrets),
          if findAllPlaceholders (substituteSecrets content (env.range secrets)) = [] then none
          else some (GoError.substitutionsNotFound (env.VaultSecretBasePath ++ secretPath)
            (findAllPlaceholders (substituteSecrets content (env.range secrets))))), w1) ∧
      (findAllPlaceholders (substituteSecrets content (env.range secrets)) ≠ [] ↔
        ∃ pre word post,
          (substituteSecrets content (env.range secrets)).data = pre ++ placeholder word ++ post ∧
          word ≠ [] ∧ ∀ c ∈ word, isWordChar c = true) ∧
      (∀ tok ∈ findAllPlaceholders (substituteSecrets content (env.range secrets)),
        ∃ pre word post,
          (substituteSecrets content (env.range secrets)).data = pre ++ tok.data ++ post ∧
          tok.data = placeholder word ∧ word ≠ [] ∧ ∀ c ∈ word, isWordChar c = true) ∧
      (∀ p m q v : String, '%' ∉ p.data → '%' ∉ m.data → '%' ∉ q.data → '%' ∉ v.data →
        env.range secrets = [("a", v)] → content = p ++ "%\x7ba\x7d%" ++ m ++ "%\x7bb\x7d%" ++ q →
        substituteSecrets content (env.range secrets) = p ++ v ++ m ++ "%\x7bb\x7d%" ++ q ∧
        findAllPlaceholders (substituteSecrets content (env.range secrets)) = ["%\x7bb\x7d%"]) ∧
      (∀ (text : String) (gap word rest : List Char),
        text.data = gap ++ placeholder word ++ rest → word ≠ [] →
        (∀ c ∈ word, isWordChar c = true) → tokenFree gap (placeholder word ++ rest) →
        findAllPlaceholders text =
          String.mk (placeholder word) :: findAllPlaceholders (String.mk rest)) ∧
      (∀ (segs : List (List Char × List Char)) (tail : List Char),
        (substituteSecrets content (env.range secrets)).data = joinTokens segs tail →
        (∀ seg ∈ segs, '%' ∉ seg.1 ∧ seg.2 ≠ [] ∧ ∀ c ∈ seg.2, isWordChar c = true) →
        '%' ∉ tail →
        findAllPlaceholders (substituteSecrets content (env.range secrets)) =
          segs.map (fun seg => String.mk (placeholder seg.2))) := by
  refine ⟨?_, findAllPlaceholders_ne_nil_iff _, fun tok h => findAllPlaceholders_mem _ tok h,
    ?_, ?_, ?_⟩
  · rw [performSubstitutions_fetched env content secretPath w w1 secrets hfetch,
      checkSubstitutions_eq]
  rotate_left
  · intro text gap word rest htext hne hw hfree
    unfold findAllPlaceholders
    rw [htext, findAllFrom_leftmost gap word rest hne hw hfree]
    rfl
  · intro segs tail htext hsegs htail
    unfold findAllPlaceholders
    rw [htext, findAllFrom_joinTokens segs tail hsegs htail, List.map_map]
    rfl
  · intro p m q v hp hm hq hv hrange hcontent
    have htext : substituteSecrets content (env.range secrets) = p ++ v ++ m ++ "%\x7bb\x7d%" ++ q := by
      rw [hrange, hcontent]
      apply String.ext
      simp only [substituteSecrets, List.foldl, stringsReplace, String.data_append]
      have hold : ("%\x7b".data ++ "a".data ++ "\x7d%".data) = ['%', '{', 'a', '}', '%'] := by decide
      rw [hold]
      simp only [List.cons_ne_nil, if_false, List.append_assoc]
      exact replace_a_keeps_b p.data m.data q.data v.data hp hm hq
    refine ⟨htext, ?_⟩
    rw [htext]
    unfold findAllPlaceholders
    have hx : '%' ∉ (p ++ v ++ m).data := by
      simp only [String.data_append, List.mem_append, not_or]
      exact ⟨⟨hp, hv⟩, hm⟩
    have hd : (p ++ v ++ m ++ "%\x7bb\x7d%" ++ q).data =
        (p ++ v ++ m).data ++ (['%', '{', 'b', '}', '%'] ++ q.data) := by
      simp only [String.data_append, List.append_assoc]
    rw [hd, findAll_only_b _ _ hx hq]
    rfl

/-- A witness of `performSubstitutions_completeness`: the text
`x=%{a}% y=%{b}% z=%{c}%` with the secret `a = 1` under a version 1 mount; the
error names both `%{b}%` and `%{c}%`. -/
theorem performSubstitutions_completeness_witness :
    (performSubstitutions (envWith (some kvMountV1) (readAt "secret/app" [("a", Json.str "1")]))
        "x=%\x7ba\x7d% y=%\x7bb\x7d% z=%\x7bc\x7d%" "app" (World.initial [])).1.value? =
      some ("x=1 y=%\x7bb\x7d% z=%\x7bc\x7d%",
        some (GoError.substitutionsNotFound "secret/app" ["%\x7bb\x7d%", "%\x7bc\x7d%"])) := by
  have h := (performSubstitutions_completeness
    (envWith (some kvMountV1) (readAt "secret/app" [("a", Json.str "1")]))
    "x=%\x7ba\x7d% y=%\x7bb\x7d% z=%\x7bc\x7d%" "app" (World.initial [])
    { auth := [], trace := [Event.listMounts, Event.read "secret/app"] } [("a", "1")] rfl).1
  rw [h]
  decide

/-- C1 (as stated) fails: a fetched secret `a` whose value is the text `%{a}%`
leaves the token `%{a}%` in the text `x=%{a}%`, and the error names it; and the
fetched secret `a = a` turns the text `%{%{a}%}%` into `%{a}%`, which the error
names as well. -/
theorem performSubstitutions_names_fetched_key :
    ((getSecretArray (envWith (some kvMountV1) (readAt "secret/app" [("a", Json.str "%\x7ba\x7d%")]))
        "secret/app" (World.initial [])).1.value? = some (Except.ok [("a", "%\x7ba\x7d%")]) ∧
      (performSubstitutions (envWith (some kvMountV1) (readAt "secret/app" [("a", Json.str "%\x7ba\x7d%")]))
        "x=%\x7ba\x7d%" "app" (World.initial [])).1.value? =
        some ("x=%\x7ba\x7d%", some (GoError.substitutionsNotFound "secret/app" ["%\x7ba\x7d%"]))) ∧
    ((getSecretArray (envWith (some kvMountV1) (readAt "secret/app" [("a", Json.str "a")]))
        "secret/app" (World.initial [])).1.value? = some (Except.ok [("a", "a")]) ∧
      (performSubstitutions (envWith (some kvMountV1) (readAt "secret/app" [("a", Json.str "a")]))
        "%\x7b%\x7ba\x7d%\x7d%" "app" (World.initial [])).1.value? =
        some ("%\x7ba\x7d%", some (GoError.substitutionsNotFound "secret/app" ["%\x7ba\x7d%"]))) := by
  refine ⟨⟨rfl, ?_⟩, ⟨rfl, ?_⟩⟩ <;> decide

/-! ## C2 -/


theorem sliceInsert_data (m : String) (rest : List String) (hrest : rest ≠ []) :
    SliceInsert (m :: rest) 1 "data" = m :: "data" :: rest := by
  cases rest with
  | nil => exact absurd rfl hrest
  | cons r rs => simp [SliceInsert, List.set]

theorem stringsSplit_ne_nil (s : String) : stringsSplit s ≠ [] := by
  unfold stringsSplit
  simpa using splitSlash_ne_nil s.data

theorem stringsJoin_stringsSplit (s : String) : stringsJoin (stringsSplit s) = s := by
  unfold stringsJoin stringsSplit
  apply String.ext
  simp only [List.map_map]
  have : (String.data ∘ String.mk) = id := by funext x; rfl
  rw [this, List.map_id, joinSlash_splitSlash]

/-- The version 2 path of `mount/tail` is `mount/data/tail`. -/
theorem insert_data_segment (m tail : String) (hm : '/' ∉ m.data) :
    stringsJoin (SliceInsert (stringsSplit (m ++ "/" ++ tail)) 1 "data") =
      m ++ "/data/" ++ tail := by
  have hsplit : stringsSplit (m ++ "/" ++ tail) = m :: stringsSplit tail := by
    unfold stringsSplit
    have : (m ++ "/" ++ tail).data = m.data ++ '/' :: tail.data := by
      simp only [String.data_append]; simp
    rw [this, splitSlash_append_slash _ _ hm]
    rfl
  rw [hsplit, sliceInsert_data _ _ (stringsSplit_ne_nil tail)]
  apply String.ext
  have hj : (stringsJoin (m :: "data" :: stringsSplit tail)).data =
      m.data ++ '/' :: ("data".data ++ '/' :: (stringsJoin (stringsSplit tail)).data) := by
    unfold stringsJoin
    simp only [List.map_cons]
    rw [joinSlash_cons _ _ (by simp), joinSlash_cons _ _ (by simpa using stringsSplit_ne_nil tail)]
  rw [hj, stringsJoin_stringsSplit]
  simp only [String.data_append]
  simp

/-- The version 2 path of a path without `/` is the path followed by `/data`. -/
theorem insert_data_last (m : String) (hm : '/' ∉ m.data) :
    stringsJoin (SliceInsert (stringsSplit m) 1 "data") = m ++ "/data" := by
  have hsplit : stringsSplit m = [m] := by
    unfold stringsSplit
    rw [splitSlash_noSlash _ hm]
    rfl
  rw [hsplit]
  apply String.ext
  simp [SliceInsert, stringsJoin, joinSlash, String.data_append]

/-- C2: for a path whose first segment names a live mount, `getSecretArray`
fails without reading when the mount is not of type `kv`; for a `kv` mount with
option version `2` it reads the path with `data` inserted after the mount name
(`mount/tail` becomes `mount/data/tail`, the other segments in place); in every
other `kv` case it reads the unchanged path. -/
theorem getSecretArray_routing (env : Env) (path : String) (w : World)
    (mounts : List (String × MountOutput)) (mount : MountOutput)
    (hmounts : env.mounts = some mounts)
    (hmount : mapGet mounts (mountPoint path) = some mount) :
    (mount.type ≠ "kv" →
      ∃ msg, getSecretArray env path w =
        (Outcome.ok (Except.error (GoError.other msg)),
          { w with trace := w.trace ++ [Event.listMounts] })) ∧
    (mount.type = "kv" → versionTwo mount →
      (getSecretArray env path w).2.trace = w.trace ++
        [Event.listMounts, Event.read (stringsJoin (SliceInsert (stringsSplit path) 1 "data"))] ∧
      (∀ m tail : String, '/' ∉ m.data → path = m ++ "/" ++ tail →
        stringsJoin (SliceInsert (stringsSplit path) 1 "data") = m ++ "/data/" ++ tail) ∧
      ('/' ∉ path.data →
        stringsJoin (SliceInsert (stringsSplit path) 1 "data") = path ++ "/data")) ∧
    (mount.type = "kv" → ¬ versionTwo mount →
      (getSecretArray env path w).2.trace = w.trace ++ [Event.listMounts, Event.read path]) := by
  refine ⟨?_, ?_, ?_⟩
  · intro hkv
    exact ⟨_, getSecretArray_notKv env path mounts mount hmounts hmount hkv w⟩
  · intro hkv h2
    obtain ⟨o, ho, _⟩ := getSecretArray_kv env path mounts mount hmounts hmount hkv
    refine ⟨?_, ?_, ?_⟩
    · rw [ho w]; simp [kvReadPath, h2]
    · intro m tail hm hp
      rw [hp]; exact insert_data_segment m tail hm
    · intro hp
      exact insert_data_last path hp
  · intro hkv h2
    obtain ⟨o, ho, _⟩ := getSecretArray_kv env path mounts mount hmounts hmount hkv
    rw [ho w]; simp [kvReadPath, h2]

/-- A witness of `getSecretArray_routing`: under the version 2 mount `secret/`
the path `secret/foo` is read at `secret/data/foo`. -/
theorem getSecretArray_routing_witness :
    (getSecretArray (envWith (some kvMountV2) (fun _ => Except.ok none)) "secret/foo"
        (World.initial [])).2.trace =
      [Event.listMounts, Event.read "secret/data/foo"] := by
  have h := (getSecretArray_routing (envWith (some kvMountV2) (fun _ => Except.ok none))
    "secret/foo" (World.initial []) kvMountV2 { type := "kv", Options := some [("version", "2")] }
    rfl rfl).2.1 rfl (by decide)
  rw [h.1, h.2.1 "secret" "foo" (by decide) (by decide)]
  rfl

/-! ## C7 -/


/-- C7 (as amended): when the first segment of the full secret path names a
live `kv` mount and the backend read of the routed path finds no secret,
`performSubstitutions` takes the secret set as empty: the text is unchanged and
the call fails only through the completeness check, naming the matches of the
text.  When the first segment names no live mount, or a mount that is not `kv`,
the call returns the lookup error and leaves the text unchanged. -/
theorem performSubstitutions_missing_secret (env : Env) (content secretPath : String)
    (w : World) (mounts : List (String × MountOutput)) (hmounts : env.mounts = some mounts) :
    (∀ mount, mapGet mounts (mountPoint (env.VaultSecretBasePath ++ secretPath)) = some mount →
      mount.type = "kv" →
      env.vaultRead (kvReadPath mount (env.VaultSecretBasePath ++ secretPath)) = Except.ok none →
      performSubstitutions env content secretPath w =
        (Outcome.ok (content,
          if findAllPlaceholders content = [] then none
          else some (GoError.substitutionsNotFound (env.VaultSecretBasePath ++ secretPath)
            (findAllPlaceholders content))),
          { w with trace := w.trace ++ [Event.listMounts,
            Event.read (kvReadPath mount (env.VaultSecretBasePath ++ secretPath))] })) ∧
    (mapGet mounts (mountPoint (env.VaultSecretBasePath ++ secretPath)) = none →
      ∃ msg, performSubstitutions env content secretPath w =
        (Outcome.ok (content, some (GoError.other msg)),
          { w with trace := w.trace ++ [Event.listMounts] })) ∧
    (∀ mount, mapGet mounts (mountPoint (env.VaultSecretBasePath ++ secretPath)) = some mount →
      mount.type ≠ "kv" →
      ∃ msg, performSubstitutions env content secretPath w =
        (Outcome.ok (content, some (GoError.other msg)),
          { w with trace := w.trace ++ [Event.listMounts] })) := by
  refine ⟨?_, ?_, ?_⟩
  · intro mount hmount hkv hread
    obtain ⟨o, ho, _, hnone, _⟩ := getSecretArray_kv env _ mounts mount hmounts hmount hkv
    have h := ho w
    rw [hnone hread] at h
    rw [performSubstitutions_notExist env content secretPath w _ h, checkSubstitutions_eq]
  · intro hmount
    have h := getSecretArray_notFound env _ mounts hmounts hmount w
    exact ⟨_, performSubstitutions_error env content secretPath w _ _ (by simp) h⟩
  · intro mount hmount hkv
    have h := getSecretArray_notKv env _ mounts mount hmounts hmount hkv w
    exact ⟨_, performSubstitutions_error env content secretPath w _ _ (by simp) h⟩

/-- A witness of `performSubstitutions_missing_secret`: under the version 1 mount
`secret/` with no secret at all, a text without placeholder passes unchanged. -/
theorem performSubstitutions_missing_secret_witness :
    performSubstitutions (envWith (some kvMountV1) (fun _ => Except.ok none))
        "plain text" "app" (World.initial []) =
      (Outcome.ok ("plain text", none),
        { auth := [], trace := [Event.listMounts, Event.read "secret/app"] }) :=
  (performSubstitutions_missing_secret (envWith (some kvMountV1) (fun _ => Except.ok none))
    "plain text" "app" (World.initial []) kvMountV1 rfl).1
    { type := "kv", Options := none } rfl rfl rfl

/-- C7 (as stated) fails: with no mount `secret/` in the backend, the secret
path `secret/app` does not exist at all, and `performSubstitutions` fails on the
lookup for a text without any placeholder. -/
theorem performSubstitutions_fails_without_mount :
    (performSubstitutions (envWith (some []) (fun _ => Except.ok none))
        "plain text" "app" (World.initial [])).1.value? =
      some ("plain text", some (GoError.other
        "cannot determine kv version; mountpoint 'secret/' not found")) ∧
    findAllPlaceholders "plain text" = [] := by
  constructor <;> decide

/-! ## C8 -/


/-- C8, the code at the failing inputs: under a version 2 mount the number stored
under `a` inside `data` is passed over and the call succeeds with `b` alone;
under a version 1 mount the nested object stored under `nested` is passed over
and the call succeeds with `k` alone; a number at the top level ends the run. -/
theorem getSecretArray_skips_values :
    (getSecretArray (envWith (some kvMountV2) (readAt "secret/data/app"
        [("data", Json.obj [("a", Json.num "5"), ("b", Json.str "x")]),
          ("metadata", Json.obj [])]))
      "secret/app" (World.initial [])).1.value? = some (Except.ok [("b", "x")]) ∧
    (getSecretArray (envWith (some kvMountV1) (readAt "secret/app"
        [("nested", Json.obj [("x", Json.str "y")]), ("k", Json.str "v")]))
      "secret/app" (World.initial [])).1.value? = some (Except.ok [("k", "v")]) ∧
    (getSecretArray (envWith (some kvMountV1) (readAt "secret/app"
        [("a", Json.num "5"), ("k", Json.str "v")]))
      "secret/app" (World.initial [])).1.isFatal = true := by
  refine ⟨rfl, rfl, rfl⟩

/-! ## C3 -/


theorem mapGet_eq_none_iff {V : Type} (m : List (String × V)) (k : String) :
    mapGet m k = none ↔ k ∉ m.map Prod.fst := by
  unfold mapGet
  simp only [Option.map_eq_none', List.find?_eq_none, List.mem_map, not_exists, not_and]
  constructor
  · intro h e he hk
    have := h e he
    simp [hk] at this
  · intro h e he
    simpa using h e he

theorem cleanupAuthMethod_emits (declared : authMethodList) (entry : String × AuthMount) :
    Emits (cleanupAuthMethod declared entry)
      (if isOrphan declared entry then [Event.taskPromptChanSend (authDeleteTask entry.1)] else [])
      (Outcome.ok ()) := by
  by_cases htoken : entry.1 = "token/" ∧ entry.2.type = "token"
  · have ho : isOrphan declared entry = false := by
      unfold isOrphan
      simp [htoken]
    have hf : cleanupAuthMethod declared entry = pure () := by
      unfold cleanupAuthMethod
      simp [htoken]
    rw [ho, hf]
    exact Emits.pure ()
  · cases hget : mapGet declared entry.1 with
    | none =>
      have hn := (mapGet_eq_none_iff declared entry.1).mp hget
      have ho : isOrphan declared entry = true := by
        unfold isOrphan
        simp only [htoken, hn, not_false_eq_true, decide_True, Bool.and_self]
      have hf : cleanupAuthMethod declared entry =
          emit (Event.taskPromptChanSend (authDeleteTask entry.1)) := by
        unfold cleanupAuthMethod
        simp only [htoken, not_false_eq_true, if_true, hget]
      rw [ho, hf]
      exact Emits.emit _
    | some v =>
      have hy : ¬ entry.1 ∉ declared.map Prod.fst := by
        intro h
        rw [(mapGet_eq_none_iff declared entry.1).mpr h] at hget
        simp at hget
      have ho : isOrphan declared entry = false := by
        unfold isOrphan
        simp only [hy, decide_False, Bool.and_false]
      have hf : cleanupAuthMethod declared entry = pure () := by
        unfold cleanupAuthMethod
        simp only [htoken, not_false_eq_true, if_true, hget]
      rw [ho, hf]
      exact Emits.pure ()

theorem flatMap_ite_singleton {α β : Type} (p : α → Bool) (f : α → β) (l : List α) :
    l.flatMap (fun a => if p a then [f a] else []) = (l.filter p).map f := by
  induction l with
  | nil => rfl
  | cons a t ih =>
    rw [List.flatMap_cons, ih]
    by_cases h : p a <;> simp [List.filter_cons, h]

theorem cleanupAuthMethods_eq (env : Env) (declared : authMethodList) (w : World) :
    cleanupAuthMethods env declared w =
      (Outcome.ok (), { w with trace := w.trace ++ Event.listAuth ::
        (((env.range w.auth).filter (isOrphan declared)).map
          (fun e => Event.taskPromptChanSend (authDeleteTask e.1))) }) := by
  have h := Emits.forRange (cleanupAuthMethod_emits declared) (env.range w.auth)
    { w with trace := w.trace ++ [Event.listAuth] }
  rw [flatMap_ite_singleton] at h
  simp only [cleanupAuthMethods, run_bind, listAuth]
  rw [h]
  simp

/-- C3: `cleanupAuthMethods` lists the live auth mounts and then sends to the
confirmation-gated queue one delete task for each live mount whose path is no
declared key, the default mount `token/` of type `token` apart, and nothing
else: no event of the run is a send on the write queue or a change of the
backend.  The task of a mount `name/` has the path `sys/auth/name`. -/
theorem cleanupAuthMethods_orphans (env : Env) (declared : authMethodList) (w : World) :
    ∃ tasks : List taskDelete,
      cleanupAuthMethods env declared w =
        (Outcome.ok (),
          { w with trace := w.trace ++ Event.listAuth :: tasks.map Event.taskPromptChanSend }) ∧
      tasks.Perm ((w.auth.filter (fun e =>
          decide (¬ (e.1 = "token/" ∧ e.2.type = "token")) &&
            decide (e.1 ∉ declared.map Prod.fst))).map (fun e => authDeleteTask e.1)) ∧
      (∀ e ∈ Event.listAuth :: tasks.map Event.taskPromptChanSend,
        e.isSend = false ∧ e.isBackendChange = false) ∧
      (∀ segs : List String, segs ≠ [] → (∀ s ∈ segs, normalSegment s) →
        (authDeleteTask (stringsJoin segs ++ "/")).Path = "sys/auth/" ++ stringsJoin segs) := by
  refine ⟨((env.range w.auth).filter (isOrphan declared)).map (fun e => authDeleteTask e.1),
    ?_, ?_, ?_, ?_⟩
  · rw [cleanupAuthMethods_eq]
    simp [List.map_map, Function.comp_def]
  · exact ((env.range_perm w.auth).filter _).map _
  · intro e he
    rcases List.mem_cons.mp he with rfl | h
    · exact ⟨rfl, rfl⟩
    · obtain ⟨t, _, rfl⟩ := List.mem_map.mp h
      exact ⟨rfl, rfl⟩
  · intro segs hne hs
    exact pathJoin_sysAuth segs hne hs

/-- A witness of `cleanupAuthMethods_orphans`: for the live mounts `token/`,
`a/`, `b/`, `c/` and the declared `a/`, `c/`, the one task proposes `b/`, at
`sys/auth/b`. -/
theorem cleanupAuthMethods_orphans_witness :
    promptedTasks (cleanupAuthMethods (envWith none (fun _ => Except.ok none))
        [("a/", exampleMethod "a" "ldap" none), ("c/", exampleMethod "c" "jwt" none)]
        (World.initial [("token/", { type := "token" }), ("a/", { type := "ldap" }),
          ("b/", { type := "ldap" }), ("c/", { type := "jwt" })])).2.trace =
      [{ Description := "Auth method [sys/auth/b]", Path := "sys/auth/b" }] ∧
    (authDeleteTask (stringsJoin ["b"] ++ "/")).Path = "sys/auth/" ++ stringsJoin ["b"] := by
  obtain ⟨tasks, h1, _, _, h4⟩ := cleanupAuthMethods_orphans (envWith none (fun _ => Except.ok none))
    [("a/", exampleMethod "a" "ldap" none), ("c/", exampleMethod "c" "jwt" none)]
    (World.initial [("token/", { type := "token" }), ("a/", { type := "ldap" }),
      ("b/", { type := "ldap" }), ("c/", { type := "jwt" })])
  exact ⟨by decide, h4 ["b"] (by simp) (by decide)⟩

/-! ## C5 -/


theorem writeAuthConfig_emits (mount : authMethod) :
    Emits (writeAuthConfig mount) (authConfigEvents mount) (Outcome.ok ()) := by
  unfold writeAuthConfig authConfigEvents
  cases mount.Config with
  | none => exact Emits.pure ()
  | some config =>
    exact Emits.bind (f := fun _ => emit (Event.taskChanSend (authConfigTask mount config)))
      (Emits.emit Event.wgAdd) (Emits.emit _)

theorem additionalConfig_emits (env : Env) (type path : String) :
    ∃ o, Emits (additionalConfig env type path) [Event.additionalConfig type path] o := by
  unfold additionalConfig
  by_cases h : env.additionalConfigFatal type path = true
  · refine ⟨Outcome.fatal "additional configuration failed", ?_⟩
    have := Emits.bind (f := fun _ => (logFatal "additional configuration failed" : Run Unit))
      (Emits.emit (Event.additionalConfig type path)) (Emits.logFatal _)
    simpa [h] using this
  · refine ⟨Outcome.ok (), ?_⟩
    have := Emits.bind (f := fun _ => (pure () : Run Unit))
      (Emits.emit (Event.additionalConfig type path)) (Emits.pure ())
    simpa [h] using this

theorem additionalAuthConfig_emits (env : Env) (mount : authMethod) :
    ∃ es o, Emits (additionalAuthConfig env mount) es o ∧
      ∀ e ∈ es, e.isAdditionalConfig = true := by
  unfold additionalAuthConfig
  split
  · obtain ⟨o, ho⟩ := additionalConfig_emits env "userpass" mount.Path
    exact ⟨_, o, ho, by simp [Event.isAdditionalConfig]⟩
  · split
    · obtain ⟨o, ho⟩ := additionalConfig_emits env "ldap" mount.Path
      exact ⟨_, o, ho, by simp [Event.isAdditionalConfig]⟩
    · split
      · obtain ⟨o, ho⟩ := additionalConfig_emits env "jwt" (pathJoin ["auth", mount.Path])
        exact ⟨_, o, ho, by simp [Event.isAdditionalConfig]⟩
      · split
        · obtain ⟨o, ho⟩ :=
            additionalConfig_emits env "kubernetes" (pathJoin ["auth", mount.Path])
          exact ⟨_, o, ho, by simp [Event.isAdditionalConfig]⟩
        · exact ⟨[], _, Emits.pure (), by simp⟩

theorem enableOrTune_mismatch (env : Env) (mount : authMethod) (w : World)
    (existing : AuthMount) (hget : mapGet w.auth mount.Path = some existing)
    (htype : existing.type ≠ mount.AuthOptions.type) :
    ∃ msg, enableOrTuneAuthMethod env mount w =
      (Outcome.fatal msg, { w with trace := w.trace ++ [Event.listAuth] }) := by
  refine ⟨"Auth mount path  " ++ mount.Path ++ " exists but doesn't match type: " ++
        existing.type ++ "!=" ++ mount.AuthOptions.type, ?_⟩
  simp only [enableOrTuneAuthMethod, run_bind, listAuth, hget]
  simp [htype, logFatal]

theorem enableOrTune_match (env : Env) (mount : authMethod) (w : World)
    (existing : AuthMount) (hget : mapGet w.auth mount.Path = some existing)
    (htype : existing.type = mount.AuthOptions.type) :
    enableOrTuneAuthMethod env mount w =
      (Outcome.ok (), { w with trace := w.trace ++
        [Event.listAuth, Event.wgAdd, Event.taskChanSend (tuneTask mount)] }) := by
  simp only [enableOrTuneAuthMethod, run_bind, listAuth, hget]
  simp [htype, emit, run_bind]

theorem enableOrTune_absent_ok (env : Env) (mount : authMethod) (w : World)
    (hget : mapGet w.auth mount.Path = none) (herr : env.enableAuthErr mount.Path = none) :
    enableOrTuneAuthMethod env mount w =
      (Outcome.ok (),
        { auth := mapSet w.auth mount.Path { type := mount.AuthOptions.type }
          trace := w.trace ++ [Event.listAuth, Event.enableAuth mount.Path mount.AuthOptions] }) := by
  simp only [enableOrTuneAuthMethod, run_bind, listAuth, hget]
  simp [enableAuthWithOptions, herr, run_pure]

theorem enableOrTune_absent_err (env : Env) (mount : authMethod) (w : World)
    (hget : mapGet w.auth mount.Path = none) (err : String)
    (herr : env.enableAuthErr mount.Path = some err) :
    ∃ msg, enableOrTuneAuthMethod env mount w =
      (Outcome.fatal msg, { w with trace := w.trace ++
        [Event.listAuth, Event.enableAuth mount.Path mount.AuthOptions] }) := by
  refine ⟨"Error enabling mount: " ++ mount.Path ++ " " ++ mount.AuthOptions.type, ?_⟩
  simp only [enableOrTuneAuthMethod, run_bind, listAuth, hget]
  simp [enableAuthWithOptions, herr, logFatal]

/-- After an enable-or-tune step that returned, the rest of the loop body adds
the config events and then only calls of the kind-specific configuration. -/
theorem configureAuthMethod_rest (env : Env) (mount : authMethod) (w w1 : World)
    (h : enableOrTuneAuthMethod env mount w = (Outcome.ok (), w1)) :
    ∃ hook, (configureAuthMethod env mount w).2 =
        { w1 with trace := w1.trace ++ (authConfigEvents mount ++ hook) } ∧
      ∀ e ∈ hook, e.isAdditionalConfig = true := by
  obtain ⟨hook, o, ho, hhook⟩ := additionalAuthConfig_emits env mount
  refine ⟨hook, ?_, hhook⟩
  have hc := Emits.bind (f := fun _ => additionalAuthConfig env mount)
    (writeAuthConfig_emits mount) ho
  simp only [configureAuthMethod]
  rw [run_bind_ok h]
  exact congrArg Prod.snd (hc w1)

/-- The loop body of `configureAuthMethods` for a declared auth method.  When
its path is absent from the live listing it calls Enable once and sends no tune
task; a failed Enable ends the run there.  When its path is present with the
declared type it calls no Enable and sends one tune task.  When its path is
present with another type the run ends after the listing, with no Enable and no
task.  In both cases that go on, the config task follows when the configuration
is set, and after it only the kind-specific configuration is called.  For a
mount `name/` the tune task has the path `sys/auth/name/tune` and the config
task the path `auth/name/config`. -/
theorem configureAuthMethod_state_machine (env : Env) (mount : authMethod) (w : World) :
    (mapGet w.auth mount.Path = none →
      (∀ err, env.enableAuthErr mount.Path = some err →
        ∃ msg, configureAuthMethod env mount w = (Outcome.fatal msg, { w with trace :=
          w.trace ++ [Event.listAuth, Event.enableAuth mount.Path mount.AuthOptions] })) ∧
      (env.enableAuthErr mount.Path = none →
        ∃ hook, (configureAuthMethod env mount w).2.trace = w.trace ++
            ([Event.listAuth, Event.enableAuth mount.Path mount.AuthOptions] ++
              authConfigEvents mount ++ hook) ∧
          ∀ e ∈ hook, e.isAdditionalConfig = true)) ∧
    (∀ existing, mapGet w.auth mount.Path = some existing →
      existing.type = mount.AuthOptions.type →
      ∃ hook, (configureAuthMethod env mount w).2.trace = w.trace ++
          ([Event.listAuth, Event.wgAdd, Event.taskChanSend (tuneTask mount)] ++
            authConfigEvents mount ++ hook) ∧
        ∀ e ∈ hook, e.isAdditionalConfig = true) ∧
    (∀ existing, mapGet w.auth mount.Path = some existing →
      existing.type ≠ mount.AuthOptions.type →
      ∃ msg, configureAuthMethod env mount w =
        (Outcome.fatal msg, { w with trace := w.trace ++ [Event.listAuth] })) ∧
    (∀ config, mount.Config = some config →
      authConfigEvents mount = [Event.wgAdd, Event.taskChanSend (authConfigTask mount config)]) ∧
    (mount.Config = none → authConfigEvents mount = []) ∧
    (∀ segs : List String, segs ≠ [] → (∀ s ∈ segs, normalSegment s) →
      mount.Path = stringsJoin segs ++ "/" →
      (tuneTask mount).Path = "sys/auth/" ++ stringsJoin segs ++ "/tune" ∧
      ∀ config, (authConfigTask mount config).Path = "auth/" ++ stringsJoin segs ++ "/config") := by
  refine ⟨?_, ?_, ?_, ?_, ?_, ?_⟩
  · intro hget
    constructor
    · intro err herr
      obtain ⟨msg, h⟩ := enableOrTune_absent_err env mount w hget err herr
      refine ⟨msg, ?_⟩
      simp only [configureAuthMethod]
      rw [run_bind_fatal h]
    · intro herr
      have h := enableOrTune_absent_ok env mount w hget herr
      obtain ⟨hook, h2, hhook⟩ := configureAuthMethod_rest env mount w _ h
      refine ⟨hook, ?_, hhook⟩
      rw [h2]
      simp
  · intro existing hget htype
    have h := enableOrTune_match env mount w existing hget htype
    obtain ⟨hook, h2, hhook⟩ := configureAuthMethod_rest env mount w _ h
    refine ⟨hook, ?_, hhook⟩
    rw [h2]
    simp
  · intro existing hget htype
    obtain ⟨msg, h⟩ := enableOrTune_mismatch env mount w existing hget htype
    refine ⟨msg, ?_⟩
    simp only [configureAuthMethod]
    rw [run_bind_fatal h]
  · intro config hc
    simp [authConfigEvents, hc]
  · intro hc
    simp [authConfigEvents, hc]
  · intro segs hne hs hp
    constructor
    · show pathJoin ["sys/auth", mount.Path, "tune"] = _
      rw [hp, pathJoin_tune segs hne hs]
    · intro config
      show pathJoin ["auth", mount.Path, "config"] = _
      rw [hp, pathJoin_authConfig segs hne hs]

/-- A witness of `configureAuthMethod_state_machine`: the declared method `ldap`
with a configuration, live with the same type, gets the tune task at
`sys/auth/ldap/tune` and then the config task at `auth/ldap/config`. -/
theorem configureAuthMethod_state_machine_witness :
    (∃ hook, (configureAuthMethod (envWith none (fun _ => Except.ok none))
        (exampleMethod "ldap" "ldap" (some []))
        (World.initial [("ldap/", { type := "ldap" })])).2.trace =
      (World.initial [("ldap/", { type := "ldap" })]).trace ++
        ([Event.listAuth, Event.wgAdd,
            Event.taskChanSend (tuneTask (exampleMethod "ldap" "ldap" (some [])))] ++
          authConfigEvents (exampleMethod "ldap" "ldap" (some [])) ++ hook) ∧
      ∀ e ∈ hook, e.isAdditionalConfig = true) ∧
    ((tuneTask (exampleMethod "ldap" "ldap" (some []))).Path =
        "sys/auth/" ++ stringsJoin ["ldap"] ++ "/tune" ∧
      ∀ config, (authConfigTask (exampleMethod "ldap" "ldap" (some [])) config).Path =
        "auth/" ++ stringsJoin ["ldap"] ++ "/config") :=
  ⟨(configureAuthMethod_state_machine (envWith none (fun _ => Except.ok none))
      (exampleMethod "ldap" "ldap" (some []))
      (World.initial [("ldap/", { type := "ldap" })])).2.1 { type := "ldap" } rfl rfl,
    (configureAuthMethod_state_machine (envWith none (fun _ => Except.ok none))
      (exampleMethod "ldap" "ldap" (some []))
      (World.initial [("ldap/", { type := "ldap" })])).2.2.2.2.2 ["ldap"] (by simp)
      (by decide) (by decide)⟩

/-! ## Lemmas on `secrets-engines-gcp.go` -/


theorem Emits.bind_nil {α β : Type} {x : Run α} {f : α → Run β} {o : Outcome α}
    (hx : Emits x [] o) (hf : ∀ a, ∃ o2, Emits (f a) [] o2) :
    ∃ o2, Emits (x >>= f) [] o2 := by
  cases o with
  | ok a =>
    obtain ⟨o2, h2⟩ := hf a
    exact ⟨o2, by simpa using Emits.bind hx h2⟩
  | fatal msg => exact ⟨Outcome.fatal msg, Emits.bind_fatal hx⟩

theorem secretListKeys_emits (path : String) (l : List Json) (acc : List String) :
    ∃ o, Emits (secretListKeys path l acc) [] o := by
  induction l generalizing acc with
  | nil => exact ⟨_, by simpa [secretListKeys] using Emits.pure acc⟩
  | cons v rest ih =>
    cases v with
    | str key => simpa [secretListKeys] using ih _
    | null => exact ⟨_, by simpa [secretListKeys] using Emits.logFatal _⟩
    | bool b => exact ⟨_, by simpa [secretListKeys] using Emits.logFatal _⟩
    | num n => exact ⟨_, by simpa [secretListKeys] using Emits.logFatal _⟩
    | arr a => exact ⟨_, by simpa [secretListKeys] using Emits.logFatal _⟩
    | obj a => exact ⟨_, by simpa [secretListKeys] using Emits.logFatal _⟩

theorem secretListEntries_emits (path : String) (l : List (String × Json)) (acc : List String) :
    ∃ o, Emits (secretListEntries path l acc) [] o := by
  induction l generalizing acc with
  | nil => exact ⟨_, by simpa [secretListEntries] using Emits.pure acc⟩
  | cons e rest ih =>
    obtain ⟨k, v⟩ := e
    cases v with
    | arr value =>
      obtain ⟨o, ho⟩ := secretListKeys_emits path value acc
      have := Emits.bind_nil (f := fun secretList => secretListEntries path rest secretList) ho
        (fun a => ih a)
      simpa [secretListEntries] using this
    | null => exact ⟨_, by simpa [secretListEntries] using Emits.logFatal _⟩
    | bool b => exact ⟨_, by simpa [secretListEntries] using Emits.logFatal _⟩
    | num n => exact ⟨_, by simpa [secretListEntries] using Emits.logFatal _⟩
    | str a => exact ⟨_, by simpa [secretListEntries] using Emits.logFatal _⟩
    | obj a => exact ⟨_, by simpa [secretListEntries] using Emits.logFatal _⟩

theorem getSecretList_emits (env : Env) (path : String) :
    ∃ o, Emits (getSecretList env path) [Event.list path] o := by
  unfold getSecretList
  cases h : env.vaultList path with
  | error err =>
    have := Emits.bind (f := fun _ => (logFatal "secret list failed" : Run (List String)))
      (Emits.emit (Event.list path)) (Emits.logFatal _)
    exact ⟨_, by simpa using this⟩
  | ok r =>
    cases r with
    | none =>
      have := Emits.bind (f := fun _ => (pure [] : Run (List String)))
        (Emits.emit (Event.list path)) (Emits.pure _)
      exact ⟨_, by simpa using this⟩
    | some secret =>
      obtain ⟨o, ho⟩ := secretListEntries_emits path (env.range secret.Data) []
      have := Emits.bind (f := fun _ => secretListEntries path (env.range secret.Data) [])
        (Emits.emit (Event.list path)) ho
      exact ⟨o, by simpa using this⟩

theorem writeGcpRootConfig_emits (secretsEngine : SecretsEngine)
    (secretsEngineGCP : SecretsEngineGCP) :
    Emits (writeGcpRootConfig secretsEngine secretsEngineGCP)
      (gcpRootConfigEvents secretsEngine secretsEngineGCP) (Outcome.ok ()) := by
  unfold writeGcpRootConfig gcpRootConfigEvents
  split
  · exact Emits.bind (f := fun _ => emit (Event.taskChanSend
      (gcpRootConfigTask secretsEngine secretsEngineGCP))) (Emits.emit Event.wgAdd) (Emits.emit _)
  · exact Emits.pure ()

theorem writeGcpConfigLease_emits (secretsEngine : SecretsEngine)
    (secretsEngineGCP : SecretsEngineGCP) :
    Emits (writeGcpConfigLease secretsEngine secretsEngineGCP)
      [Event.wgAdd, Event.taskChanSend (gcpConfigLeaseTask secretsEngine secretsEngineGCP)]
      (Outcome.ok ()) :=
  Emits.bind (f := fun _ => emit (Event.taskChanSend
    (gcpConfigLeaseTask secretsEngine secretsEngineGCP))) (Emits.emit Event.wgAdd) (Emits.emit _)

theorem writeGcpRoleSet_emits (secretsEngine : SecretsEngine) (entry : String × gcpRoleSetEntry) :
    Emits (writeGcpRoleSet secretsEngine entry)
      [Event.wgAdd, Event.taskChanSend (gcpRoleSetTask secretsEngine entry)] (Outcome.ok ()) :=
  Emits.bind (f := fun _ => emit (Event.taskChanSend (gcpRoleSetTask secretsEngine entry)))
    (Emits.emit Event.wgAdd) (Emits.emit _)

theorem cleanupGcpRoleSet_emits (secretsEngine : SecretsEngine)
    (secretsEngineGCP : SecretsEngineGCP) (roleset : String) :
    Emits (cleanupGcpRoleSet secretsEngine secretsEngineGCP roleset)
      (if decide (roleset ∉ secretsEngineGCP.RoleSets.map Prod.fst) then
        [Event.taskPromptChanSend (gcpRoleSetDeleteTask secretsEngine roleset)] else [])
      (Outcome.ok ()) := by
  cases hget : mapGet secretsEngineGCP.RoleSets roleset with
  | none =>
    have hn := (mapGet_eq_none_iff secretsEngineGCP.RoleSets roleset).mp hget
    have hf : cleanupGcpRoleSet secretsEngine secretsEngineGCP roleset =
        emit (Event.taskPromptChanSend (gcpRoleSetDeleteTask secretsEngine roleset)) := by
      unfold cleanupGcpRoleSet
      simp only [hget]
    rw [hf, decide_eq_true hn, if_pos rfl]
    exact Emits.emit _
  | some v =>
    have hy : ¬ roleset ∉ secretsEngineGCP.RoleSets.map Prod.fst := by
      intro h
      rw [(mapGet_eq_none_iff secretsEngineGCP.RoleSets roleset).mpr h] at hget
      simp at hget
    have hf : cleanupGcpRoleSet secretsEngine secretsEngineGCP roleset = pure () := by
      unfold cleanupGcpRoleSet
      simp only [hget]
    rw [hf, decide_eq_false hy]
    exact Emits.pure ()

/-- The cleanup of the role sets lists the live role sets and, when the listing
returns, sends one delete task for each listed name that is not declared. -/
theorem cleanupGcpRoleSets_emits (env : Env) (secretsEngine : SecretsEngine)
    (secretsEngineGCP : SecretsEngineGCP) :
    ∃ tail o, Emits (cleanupGcpRoleSets env secretsEngine secretsEngineGCP)
        (Event.list (secretsEngine.Path ++ "roleset") :: tail) o ∧
      (∀ existing,
        (getSecretList env (secretsEngine.Path ++ "roleset") (World.initial [])).1 =
          Outcome.ok existing →
        tail = (gcpDeleteTasks secretsEngine secretsEngineGCP existing).map
          Event.taskPromptChanSend ∧ o = Outcome.ok ()) ∧
      (∀ msg,
        (getSecretList env (secretsEngine.Path ++ "roleset") (World.initial [])).1 =
          Outcome.fatal msg → tail = [] ∧ o = Outcome.fatal msg) := by
  obtain ⟨ol, hl⟩ := getSecretList_emits env (secretsEngine.Path ++ "roleset")
  have hl0 : (getSecretList env (secretsEngine.Path ++ "roleset") (World.initial [])).1 = ol := by
    rw [hl]
  rw [hl0]
  cases ol with
  | fatal msg =>
    refine ⟨[], Outcome.fatal msg, ?_, by simp, by simp⟩
    unfold cleanupGcpRoleSets
    exact Emits.bind_fatal hl
  | ok existing =>
    have hloop := Emits.forRange (cleanupGcpRoleSet_emits secretsEngine secretsEngineGCP) existing
    rw [flatMap_ite_singleton] at hloop
    refine ⟨(gcpDeleteTasks secretsEngine secretsEngineGCP existing).map
      Event.taskPromptChanSend, Outcome.ok (), ?_, ?_, by simp⟩
    · unfold cleanupGcpRoleSets
      have := Emits.bind hl hloop
      simpa [gcpDeleteTasks, List.map_map, Function.comp_def] using this
    · intro ex hex
      simp at hex
      subst hex
      exact ⟨rfl, rfl⟩

/-- The part of `ConfigureGcpSecretsEngine` after the load adds the write events,
then the listing of the live role sets, then the delete tasks. -/
theorem applyGcpSecretsEngine_emits (env : Env) (secretsEngine : SecretsEngine)
    (secretsEngineGCP : SecretsEngineGCP) :
    ∃ tail o, Emits (applyGcpSecretsEngine env secretsEngine secretsEngineGCP)
        (gcpWriteEvents env secretsEngine secretsEngineGCP ++
          Event.list (secretsEngine.Path ++ "roleset") :: tail) o ∧
      (∀ existing,
        (getSecretList env (secretsEngine.Path ++ "roleset") (World.initial [])).1 =
          Outcome.ok existing →
        tail = (gcpDeleteTasks secretsEngine secretsEngineGCP existing).map
          Event.taskPromptChanSend ∧ o = Outcome.ok ()) ∧
      (∀ msg,
        (getSecretList env (secretsEngine.Path ++ "roleset") (World.initial [])).1 =
          Outcome.fatal msg → tail = [] ∧ o = Outcome.fatal msg) := by
  obtain ⟨tail, o, hc, h1, h2⟩ := cleanupGcpRoleSets_emits env secretsEngine secretsEngineGCP
  refine ⟨tail, o, ?_, h1, h2⟩
  have hloop := Emits.forRange (writeGcpRoleSet_emits secretsEngine)
    (env.range secretsEngineGCP.RoleSets)
  have h3 := Emits.bind (f := fun _ => cleanupGcpRoleSets env secretsEngine secretsEngineGCP)
    hloop hc
  have h4 := Emits.bind (f := fun _ => (forRange (writeGcpRoleSet secretsEngine)
    (env.range secretsEngineGCP.RoleSets) >>= fun _ =>
      cleanupGcpRoleSets env secretsEngine secretsEngineGCP))
    (writeGcpConfigLease_emits secretsEngine secretsEngineGCP) h3
  have h5 := Emits.bind (f := fun _ => (writeGcpConfigLease secretsEngine secretsEngineGCP >>=
    fun _ => (forRange (writeGcpRoleSet secretsEngine)
      (env.range secretsEngineGCP.RoleSets) >>= fun _ =>
        cleanupGcpRoleSets env secretsEngine secretsEngineGCP)))
    (writeGcpRootConfig_emits secretsEngine secretsEngineGCP) h4
  unfold applyGcpSecretsEngine gcpWriteEvents
  simpa [List.append_assoc] using h5

theorem processDirectoryFiles_emits (env : Env) (dirPath : String) (files : List String)
    (results : List (String × String)) :
    ∃ o, Emits (processDirectoryFiles env dirPath files results) [] o := by
  induction files generalizing results with
  | nil => exact ⟨_, by simpa [processDirectoryFiles] using Emits.pure results⟩
  | cons file rest ih =>
    unfold processDirectoryFiles
    simp only
    split
    · split
      · exact ⟨_, Emits.logFatal _⟩
      · split
        · exact ⟨_, Emits.logFatal _⟩
        · split
          · exact ⟨_, Emits.logFatal _⟩
          · exact ih _
    · exact ih _

theorem getGcpRoleSetsEntries_emits (env : Env) (dir : String) (l : List (String × String))
    (acc : List (String × gcpRoleSetEntry)) :
    ∃ o, Emits (getGcpRoleSetsEntries env dir l acc) [] o := by
  induction l generalizing acc with
  | nil => exact ⟨_, by simpa [getGcpRoleSetsEntries] using Emits.pure acc⟩
  | cons e rest ih =>
    obtain ⟨name, raw⟩ := e
    unfold getGcpRoleSetsEntries
    split
    · exact ⟨_, Emits.logFatal _⟩
    · exact ih _

theorem getGcpRoleSets_emits (env : Env) (secretsEngine : SecretsEngine)
    (secretsEngineGCP : SecretsEngineGCP) :
    ∃ o, Emits (getGcpRoleSets env secretsEngine secretsEngineGCP) [] o := by
  unfold getGcpRoleSets processDirectoryRaw
  simp only
  obtain ⟨o1, h1⟩ := processDirectoryFiles_emits env
    (pathJoin [env.ConfigurationPath, "secrets-engines", secretsEngine.Path, "rolesets"])
    ((env.readDir (pathJoin [env.ConfigurationPath, "secrets-engines", secretsEngine.Path,
      "rolesets"])).getD []) []
  refine Emits.bind_nil h1 ?_
  intro raw
  obtain ⟨o2, h2⟩ := getGcpRoleSetsEntries_emits env
    (pathJoin [env.ConfigurationPath, "secrets-engines", secretsEngine.Path, "rolesets"])
    (env.range raw) []
  refine Emits.bind_nil h2 ?_
  intro rs
  exact ⟨_, Emits.pure _⟩

theorem performSubstitutions_lookups (env : Env) (content secretPath : String) :
    ∃ es o, Emits (performSubstitutions env content secretPath) es o ∧
      ∀ e ∈ es, e.isLookup = true := by
  obtain ⟨es, o, h, hes⟩ := performSubstitutions_emits env content secretPath
  refine ⟨es, o, h, ?_⟩
  intro e he
  rcases hes e he with rfl | ⟨p, rfl⟩ <;> rfl

theorem parseGcpSecretsEngine_emits (env : Env) (secretsEngine : SecretsEngine)
    (contentstring : String) :
    ∃ o, Emits (parseGcpSecretsEngine env secretsEngine contentstring) [] o := by
  unfold parseGcpSecretsEngine
  split
  · exact ⟨_, Emits.logFatal _⟩
  · split
    · exact ⟨_, Emits.logFatal _⟩
    · exact getGcpRoleSets_emits env secretsEngine _

theorem afterGcpSubstitutions_emits (env : Env) (secretsEngine : SecretsEngine)
    (r : String × Option GoError) :
    ∃ o, Emits (afterGcpSubstitutions env secretsEngine r) [] o := by
  unfold afterGcpSubstitutions
  split
  · exact ⟨_, Emits.pure _⟩
  · obtain ⟨o, ho⟩ := parseGcpSecretsEngine_emits env secretsEngine r.1
    exact Emits.bind_nil ho (fun a => ⟨_, Emits.pure _⟩)

/-- The load of a GCP engine only lists the mounts and reads. -/
theorem loadGcpSecretsEngine_emits (env : Env) (secretsEngine : SecretsEngine) :
    ∃ es o, Emits (loadGcpSecretsEngine env secretsEngine) es o ∧
      ∀ e ∈ es, e.isLookup = true := by
  unfold loadGcpSecretsEngine
  split
  · exact ⟨[], _, Emits.logFatal _, by simp⟩
  · next content _ =>
    obtain ⟨es, o, h, hes⟩ := performSubstitutions_lookups env content
      ("secrets-engines/" ++ secretsEngine.Name)
    obtain ⟨es2, o2, h2⟩ := Emits.bind_any (f := afterGcpSubstitutions env secretsEngine) h
      (fun a _ => ⟨[], afterGcpSubstitutions_emits env secretsEngine a⟩)
    cases o with
    | fatal msg => exact ⟨es, _, Emits.bind_fatal h, hes⟩
    | ok r =>
      obtain ⟨o3, h3⟩ := afterGcpSubstitutions_emits env secretsEngine r
      exact ⟨es, o3, by simpa using Emits.bind h h3, hes⟩

/-! ## Lemmas on the tasks of a record -/


theorem sentTasks_append (a b : List Event) : sentTasks (a ++ b) = sentTasks a ++ sentTasks b := by
  induction a with
  | nil => rfl
  | cons e t ih => cases e <;> simp [sentTasks, ih]

theorem promptedTasks_append (a b : List Event) :
    promptedTasks (a ++ b) = promptedTasks a ++ promptedTasks b := by
  induction a with
  | nil => rfl
  | cons e t ih => cases e <;> simp [promptedTasks, ih]

theorem sentTasks_noSend (es : List Event) (h : ∀ e ∈ es, e.isSend = false) :
    sentTasks es = [] := by
  induction es with
  | nil => rfl
  | cons e t ih =>
    have he := h e (by simp)
    have ht := ih (fun x hx => h x (List.mem_cons_of_mem _ hx))
    cases e <;> simp_all [sentTasks, Event.isSend]

theorem promptedTasks_noPrompt (es : List Event) (h : ∀ e ∈ es, e.isPrompt = false) :
    promptedTasks es = [] := by
  induction es with
  | nil => rfl
  | cons e t ih =>
    have he := h e (by simp)
    have ht := ih (fun x hx => h x (List.mem_cons_of_mem _ hx))
    cases e <;> simp_all [promptedTasks, Event.isPrompt]

theorem sentTasks_writes {α : Type} (f : α → taskWrite) (l : List α) :
    sentTasks (l.flatMap (fun a => [Event.wgAdd, Event.taskChanSend (f a)])) = l.map f := by
  induction l with
  | nil => rfl
  | cons a t ih =>
    rw [List.flatMap_cons, sentTasks_append, ih]
    rfl

theorem promptedTasks_writes {α : Type} (f : α → taskWrite) (l : List α) :
    promptedTasks (l.flatMap (fun a => [Event.wgAdd, Event.taskChanSend (f a)])) = [] := by
  apply promptedTasks_noPrompt
  intro e he
  obtain ⟨a, _, ha⟩ := List.mem_flatMap.mp he
  simp at ha
  rcases ha with rfl | rfl <;> rfl

theorem sentTasks_prompts (l : List taskDelete) :
    sentTasks (l.map Event.taskPromptChanSend) = [] := by
  apply sentTasks_noSend
  intro e he
  obtain ⟨a, _, rfl⟩ := List.mem_map.mp he
  rfl

theorem promptedTasks_prompts (l : List taskDelete) :
    promptedTasks (l.map Event.taskPromptChanSend) = l := by
  induction l with
  | nil => rfl
  | cons a t ih => simp [promptedTasks, ih]

theorem lookups_noSend (es : List Event) (h : ∀ e ∈ es, e.isLookup = true) :
    ∀ e ∈ es, e.isSend = false ∧ e.isPrompt = false := by
  intro e he
  have := h e he
  cases e <;> simp_all [Event.isLookup, Event.isSend, Event.isPrompt]

theorem sentTasks_gcpRootConfigEvents (se : SecretsEngine) (g : SecretsEngineGCP) :
    sentTasks (gcpRootConfigEvents se g) =
      if se.JustEnabled = true ∨ g.OverwriteRootCredentials = true then [gcpRootConfigTask se g]
      else [] := by
  unfold gcpRootConfigEvents
  split <;> rfl

theorem sentTasks_gcpWriteEvents (env : Env) (se : SecretsEngine) (g : SecretsEngineGCP) :
    sentTasks (gcpWriteEvents env se g) =
      (if se.JustEnabled = true ∨ g.OverwriteRootCredentials = true then [gcpRootConfigTask se g]
        else []) ++ (gcpConfigLeaseTask se g :: (env.range g.RoleSets).map (gcpRoleSetTask se)) := by
  unfold gcpWriteEvents
  rw [sentTasks_append, sentTasks_append, sentTasks_gcpRootConfigEvents, sentTasks_writes]
  rfl

theorem promptedTasks_gcpWriteEvents (env : Env) (se : SecretsEngine) (g : SecretsEngineGCP) :
    promptedTasks (gcpWriteEvents env se g) = [] := by
  unfold gcpWriteEvents gcpRootConfigEvents
  rw [promptedTasks_append, promptedTasks_append, promptedTasks_writes]
  split <;> rfl

/-- After a load that gave a descriptor, `ConfigureGcpSecretsEngine` adds to the
record the lookups of the load, the write events, the listing of the live role
sets and the delete tasks. -/
theorem ConfigureGcpSecretsEngine_loaded (env : Env) (se : SecretsEngine) (w w1 : World)
    (g : SecretsEngineGCP)
    (hload : loadGcpSecretsEngine env se w = (Outcome.ok (some g), w1)) :
    ∃ lookups tail o,
      (∀ e ∈ lookups, e.isLookup = true) ∧
      ConfigureGcpSecretsEngine env se w = (o, { w with trace := w.trace ++
        (lookups ++ (gcpWriteEvents env se g ++ Event.list (se.Path ++ "roleset") :: tail)) }) ∧
      (∀ existing,
        (getSecretList env (se.Path ++ "roleset") (World.initial [])).1 = Outcome.ok existing →
        tail = (gcpDeleteTasks se g existing).map Event.taskPromptChanSend ∧ o = Outcome.ok ()) ∧
      (∀ msg,
        (getSecretList env (se.Path ++ "roleset") (World.initial [])).1 = Outcome.fatal msg →
        tail = [] ∧ o = Outcome.fatal msg) := by
  obtain ⟨lookups, ol, hl, hlook⟩ := loadGcpSecretsEngine_emits env se
  obtain ⟨tail, o, ha, h1, h2⟩ := applyGcpSecretsEngine_emits env se g
  have hw := hl w
  rw [hload] at hw
  simp only [Prod.mk.injEq] at hw
  refine ⟨lookups, tail, o, hlook, ?_, h1, h2⟩
  unfold ConfigureGcpSecretsEngine
  rw [run_bind_ok hload]
  simp only
  rw [ha w1, hw.2]
  simp

/-! ## C4 and C9 -/


theorem filter_isGcpRootConfig_roleSets (se : SecretsEngine)
    (l : List (String × gcpRoleSetEntry)) :
    (l.map (gcpRoleSetTask se)).filter taskWrite.isGcpRootConfig = [] := by
  induction l with
  | nil => rfl
  | cons a t ih => simpa [List.filter_cons, gcpRoleSetTask, taskWrite.isGcpRootConfig] using ih

theorem filter_isGcpRoleSet_roleSets (se : SecretsEngine)
    (l : List (String × gcpRoleSetEntry)) :
    (l.map (gcpRoleSetTask se)).filter taskWrite.isGcpRoleSet = l.map (gcpRoleSetTask se) := by
  induction l with
  | nil => rfl
  | cons a t ih => simpa [List.filter_cons, gcpRoleSetTask, taskWrite.isGcpRoleSet] using ih

theorem sentTasks_tail (env : Env) (se : SecretsEngine) (g : SecretsEngineGCP)
    (tail : List Event) (o : Outcome Unit)
    (h1 : ∀ existing,
      (getSecretList env (se.Path ++ "roleset") (World.initial [])).1 = Outcome.ok existing →
      tail = (gcpDeleteTasks se g existing).map Event.taskPromptChanSend ∧ o = Outcome.ok ())
    (h2 : ∀ msg,
      (getSecretList env (se.Path ++ "roleset") (World.initial [])).1 = Outcome.fatal msg →
      tail = [] ∧ o = Outcome.fatal msg) : sentTasks tail = [] := by
  cases hout : (getSecretList env (se.Path ++ "roleset") (World.initial [])).1 with
  | ok existing => rw [(h1 existing hout).1, sentTasks_prompts]
  | fatal msg => rw [(h2 msg hout).1]; rfl

/-- C4: after a load that gave a descriptor, `ConfigureGcpSecretsEngine` sends
one root-config write task when the engine was just enabled or the flag
`overwrite_root_config` is true, and no root-config write task otherwise,
whatever the declared root credentials are. -/
theorem ConfigureGcpSecretsEngine_root_config (env : Env) (se : SecretsEngine) (w w1 : World)
    (g : SecretsEngineGCP)
    (hload : loadGcpSecretsEngine env se w = (Outcome.ok (some g), w1)) :
    ∃ es, (ConfigureGcpSecretsEngine env se w).2.trace = w.trace ++ es ∧
      (sentTasks es).filter taskWrite.isGcpRootConfig =
        (if se.JustEnabled = true ∨ g.OverwriteRootCredentials = true then
          [gcpRootConfigTask se g] else []) ∧
      (gcpRootConfigTask se g).Data = TaskData.gcpRootConfig g.RootConfig := by
  obtain ⟨lookups, tail, o, hlook, heq, h1, h2⟩ :=
    ConfigureGcpSecretsEngine_loaded env se w w1 g hload
  refine ⟨_, by rw [heq], ?_, rfl⟩
  have hl : sentTasks lookups = [] :=
    sentTasks_noSend lookups (fun e he => (lookups_noSend lookups hlook e he).1)
  have ht : sentTasks (Event.list (se.Path ++ "roleset") :: tail) = [] := by
    show sentTasks tail = []
    exact sentTasks_tail env se g tail o h1 h2
  rw [sentTasks_append, sentTasks_append, hl, ht, sentTasks_gcpWriteEvents]
  simp only [List.nil_append, List.append_nil, List.filter_append, List.filter_cons]
  rw [filter_isGcpRootConfig_roleSets]
  by_cases hc : se.JustEnabled = true ∨ g.OverwriteRootCredentials = true
  · simp [hc, gcpRootConfigTask, gcpConfigLeaseTask, taskWrite.isGcpRootConfig]
  · simp [hc, gcpConfigLeaseTask, taskWrite.isGcpRootConfig]

/-- A witness of `ConfigureGcpSecretsEngine_root_config`: for the engine `gcp/`
enabled before the run, no root-config task is sent without the flag and one
is sent with it. -/
theorem ConfigureGcpSecretsEngine_root_config_witness :
    (sentTasks (ConfigureGcpSecretsEngine (gcpEnv false) gcpEngine
        (World.initial [])).2.trace).filter taskWrite.isGcpRootConfig = [] ∧
    ((sentTasks (ConfigureGcpSecretsEngine (gcpEnv true) gcpEngine
        (World.initial [])).2.trace).filter taskWrite.isGcpRootConfig).map taskWrite.Path =
      ["gcp/config"] := by
  obtain ⟨es, h1, h2, _⟩ := ConfigureGcpSecretsEngine_root_config (gcpEnv false) gcpEngine
    (World.initial []) gcpLoadedWorld (exampleGcp false [("viewer", exampleRoleSet)]) rfl
  obtain ⟨es2, h3, h4, _⟩ := ConfigureGcpSecretsEngine_root_config (gcpEnv true) gcpEngine
    (World.initial []) gcpLoadedWorld (exampleGcp true [("viewer", exampleRoleSet)]) rfl
  rw [h1, h3]
  simp only [World.initial, List.nil_append]
  rw [h2, h4]
  exact ⟨rfl, by decide⟩

/-- C9: after a load that gave a descriptor with the declared role sets `D`, and
a listing of the live role sets that returns `L`, `ConfigureGcpSecretsEngine`
sends one role-set write task for every entry of `D` and no other role-set write
task, and sends to the confirmation-gated queue the delete tasks of exactly the
names of `L` that are no key of `D`.  The delete task of a name has the path
`<mount path>roleset/<name>`; so has the write task, for a mount path `name/` and
a role-set name that `path.Join` keeps as they are. -/
theorem ConfigureGcpSecretsEngine_role_sets (env : Env) (se : SecretsEngine) (w w1 : World)
    (g : SecretsEngineGCP) (existing : List String)
    (hload : loadGcpSecretsEngine env se w = (Outcome.ok (some g), w1))
    (hlist : (getSecretList env (se.Path ++ "roleset") (World.initial [])).1 =
      Outcome.ok existing) :
    ∃ es, ConfigureGcpSecretsEngine env se w =
        (Outcome.ok (), { w with trace := w.trace ++ es }) ∧
      (sentTasks es).filter taskWrite.isGcpRoleSet = (env.range g.RoleSets).map (gcpRoleSetTask se) ∧
      ((env.range g.RoleSets).map (gcpRoleSetTask se)).Perm (g.RoleSets.map (gcpRoleSetTask se)) ∧
      promptedTasks es =
        (existing.filter (fun roleset => decide (roleset ∉ g.RoleSets.map Prod.fst))).map
          (gcpRoleSetDeleteTask se) ∧
      (∀ roleset, (gcpRoleSetDeleteTask se roleset).Path = se.Path ++ "roleset/" ++ roleset) ∧
      (∀ (seg : String) (segs : List String), (∀ s ∈ seg :: segs, normalSegment s) →
        se.Path = stringsJoin (seg :: segs) ++ "/" →
        ∀ entry : String × gcpRoleSetEntry, normalSegment entry.1 →
          (gcpRoleSetTask se entry).Path = se.Path ++ "roleset/" ++ entry.1) := by
  obtain ⟨lookups, tail, o, hlook, heq, h1, h2⟩ :=
    ConfigureGcpSecretsEngine_loaded env se w w1 g hload
  obtain ⟨htail, ho⟩ := h1 existing hlist
  subst ho
  refine ⟨_, heq, ?_, (env.range_perm g.RoleSets).map _, ?_, fun _ => rfl, ?_⟩
  · have hl : sentTasks lookups = [] :=
      sentTasks_noSend lookups (fun e he => (lookups_noSend lookups hlook e he).1)
    have ht : sentTasks (Event.list (se.Path ++ "roleset") :: tail) = [] := by
      show sentTasks tail = []
      rw [htail, sentTasks_prompts]
    rw [sentTasks_append, sentTasks_append, hl, ht, sentTasks_gcpWriteEvents]
    simp only [List.nil_append, List.append_nil, List.filter_append, List.filter_cons]
    rw [filter_isGcpRoleSet_roleSets]
    by_cases hc : se.JustEnabled = true ∨ g.OverwriteRootCredentials = true
    · simp [hc, gcpRootConfigTask, gcpConfigLeaseTask, taskWrite.isGcpRoleSet]
    · simp [hc, gcpConfigLeaseTask, taskWrite.isGcpRoleSet]
  · have hl : promptedTasks lookups = [] :=
      promptedTasks_noPrompt lookups (fun e he => (lookups_noSend lookups hlook e he).2)
    have ht : promptedTasks (Event.list (se.Path ++ "roleset") :: tail) =
        gcpDeleteTasks se g existing := by
      show promptedTasks tail = _
      rw [htail, promptedTasks_prompts]
    rw [promptedTasks_append, promptedTasks_append, hl, ht, promptedTasks_gcpWriteEvents]
    rfl
  · intro seg segs hs hp entry hname
    show pathJoin [se.Path, "roleset", entry.1] = _
    rw [hp, pathJoin_roleset seg segs entry.1 hs hname]

/-- A witness of `ConfigureGcpSecretsEngine_role_sets`: for the engine `gcp/` with
the declared role set `viewer` and the live role sets `viewer` and `old`, the
one role-set write goes to `gcp/roleset/viewer` and the one delete task
proposes `gcp/roleset/old`. -/
theorem ConfigureGcpSecretsEngine_role_sets_witness :
    ((sentTasks (ConfigureGcpSecretsEngine (gcpEnv false) gcpEngine
        (World.initial [])).2.trace).filter taskWrite.isGcpRoleSet).map taskWrite.Path =
      ["gcp/roleset/viewer"] ∧
    (promptedTasks (ConfigureGcpSecretsEngine (gcpEnv false) gcpEngine
        (World.initial [])).2.trace).map taskDelete.Path = ["gcp/roleset/old"] := by
  obtain ⟨es, h1, h2, _, h4, _⟩ := ConfigureGcpSecretsEngine_role_sets (gcpEnv false) gcpEngine
    (World.initial []) gcpLoadedWorld (exampleGcp false [("viewer", exampleRoleSet)])
    ["viewer", "old"] rfl rfl
  rw [h1]
  simp only [World.initial, List.nil_append]
  rw [h2, h4]
  exact ⟨by decide, by decide⟩

/-! ## C10 -/


theorem writeStructToVault_emits (env : Env) (path : String) (data : TaskData) :
    Emits (writeStructToVault env path data) [Event.write path data]
      (Outcome.ok (env.vaultWriteErr path)) :=
  Emits.bind (f := fun _ => (pure (env.vaultWriteErr path) : Run (Option String)))
    (Emits.emit (Event.write path data)) (Emits.pure _)

theorem adds_any_of_emits {α : Type} {x : Run α} {es : List Event} {o : Outcome α}
    (h : Emits x es o) : Adds anyEvents x :=
  Adds.of_emits h trivial

theorem writeAwsRole_adds (env : Env) (se : SecretsEngine) (entry : String × AwsRole) :
    Adds anyEvents (writeAwsRole env se entry) := by
  unfold writeAwsRole
  refine Adds.bind_adds (fun _ _ _ _ => trivial) (adds_any_of_emits (writeStructToVault_emits env _ _)) ?_
  intro err
  cases err with
  | none => exact adds_any_of_emits (Emits.pure ())
  | some e => exact adds_any_of_emits (Emits.logFatal _)

theorem cleanupAwsRole_adds (env : Env) (se : SecretsEngine) (g : SecretsEngineAWS)
    (role : String) : Adds anyEvents (cleanupAwsRole env se g role) := by
  unfold cleanupAwsRole
  simp only
  split
  · exact adds_any_of_emits (Emits.pure ())
  · refine Adds.bind_adds (fun _ _ _ _ => trivial) (adds_any_of_emits (Emits.emit _)) ?_
    intro _
    split
    · refine Adds.bind_adds (fun _ _ _ _ => trivial) (adds_any_of_emits (Emits.emit _)) ?_
      intro _
      split
      · exact adds_any_of_emits (Emits.logFatal _)
      · exact adds_any_of_emits (Emits.pure ())
    · exact adds_any_of_emits (Emits.pure ())

theorem cleanupAwsRoles_adds (env : Env) (se : SecretsEngine) (g : SecretsEngineAWS) :
    Adds anyEvents (cleanupAwsRoles env se g) := by
  unfold cleanupAwsRoles
  obtain ⟨o, ho⟩ := getSecretList_emits env (se.Path ++ "roles")
  refine Adds.bind_adds (fun _ _ _ _ => trivial) (adds_any_of_emits ho) ?_
  intro existing
  exact Adds.forRange_adds trivial (fun _ _ _ _ => trivial) (cleanupAwsRole_adds env se g) existing

/-- After a load that gave a descriptor, `ConfigureAwsSecretsEngine`
always writes the root config block to `<Path>/config/root`, whether or not the
engine existed before the run (the descriptor has no overwrite flag); when that
write succeeds it then writes the lease config to `<Path>/config/lease`, and
when it fails the run ends there. -/
theorem ConfigureAwsSecretsEngine_writes_root (env : Env) (se : SecretsEngine) (w w1 : World)
    (g : SecretsEngineAWS)
    (hload : loadAwsSecretsEngine env se w = (Outcome.ok (some g), w1)) :
    ∃ rest, (ConfigureAwsSecretsEngine env se w).2.trace = w1.trace ++
        Event.write (se.Path ++ "/config/root") (TaskData.awsRootConfig g.RootConfig) :: rest ∧
      (env.vaultWriteErr (se.Path ++ "/config/root") = none →
        ∃ rest2, rest = Event.write (se.Path ++ "/config/lease")
          (TaskData.awsConfigLease g.ConfigLease) :: rest2) ∧
      (env.vaultWriteErr (se.Path ++ "/config/root") ≠ none →
        rest = [] ∧ (ConfigureAwsSecretsEngine env se w).1.isFatal = true) := by
  have hc : ConfigureAwsSecretsEngine env se w = applyAwsSecretsEngine env se g w1 := by
    unfold ConfigureAwsSecretsEngine
    rw [run_bind_ok hload]
  rw [hc]
  unfold applyAwsSecretsEngine
  rw [run_bind_ok (writeStructToVault_emits env _ _ w1)]
  cases hr : env.vaultWriteErr (se.Path ++ "/config/root") with
  | some err =>
    refine ⟨[], ?_, by simp, ?_⟩
    · simp [logFatal]
    · intro _; simp [logFatal, Outcome.isFatal]
  | none =>
    simp only
    rw [run_bind_ok (writeStructToVault_emits env _ _ _)]
    cases hl : env.vaultWriteErr (se.Path ++ "/config/lease") with
    | some err =>
      refine ⟨[Event.write (se.Path ++ "/config/lease")
        (TaskData.awsConfigLease g.ConfigLease)], ?_, fun _ => ⟨[], rfl⟩, by simp⟩
      simp [logFatal]
    | none =>
      simp only
      have hrest : Adds anyEvents (forRange (writeAwsRole env se) (env.range g.Roles) >>=
          fun _ => cleanupAwsRoles env se g) :=
        Adds.bind_adds (fun _ _ _ _ => trivial)
          (Adds.forRange_adds trivial (fun _ _ _ _ => trivial) (writeAwsRole_adds env se) _)
          (fun _ => cleanupAwsRoles_adds env se g)
      obtain ⟨es, hes, _⟩ := hrest { w1 with trace := w1.trace ++
        [Event.write (se.Path ++ "/config/root") (TaskData.awsRootConfig g.RootConfig)] ++
        [Event.write (se.Path ++ "/config/lease") (TaskData.awsConfigLease g.ConfigLease)] }
      refine ⟨Event.write (se.Path ++ "/config/lease")
        (TaskData.awsConfigLease g.ConfigLease) :: es, ?_, fun _ => ⟨es, rfl⟩, by simp⟩
      rw [hes]
      simp

/-- A witness of `ConfigureAwsSecretsEngine_writes_root`: the engine `aws/`,
enabled before the run. -/
theorem ConfigureAwsSecretsEngine_writes_root_witness :
    ∃ rest, (ConfigureAwsSecretsEngine awsEnv awsEngine (World.initial [])).2.trace =
        awsLoadedWorld.trace ++
          Event.write (awsEngine.Path ++ "/config/root")
            (TaskData.awsRootConfig exampleAws.RootConfig) :: rest ∧
      (awsEnv.vaultWriteErr (awsEngine.Path ++ "/config/root") = none →
        ∃ rest2, rest = Event.write (awsEngine.Path ++ "/config/lease")
          (TaskData.awsConfigLease exampleAws.ConfigLease) :: rest2) ∧
      (awsEnv.vaultWriteErr (awsEngine.Path ++ "/config/root") ≠ none →
        rest = [] ∧ (ConfigureAwsSecretsEngine awsEnv awsEngine (World.initial [])).1.isFatal =
          true) :=
  ConfigureAwsSecretsEngine_writes_root awsEnv awsEngine (World.initial []) awsLoadedWorld
    exampleAws rfl

/-- C10, the code at the failing input: for the engine `aws/`, which existed before the run
(`JustEnabled` is false) and whose descriptor has no overwrite flag, the run
writes the root config block to the backend, before the lease config. -/
theorem ConfigureAwsSecretsEngine_overwrites_root :
    awsEngine.JustEnabled = false ∧
    (ConfigureAwsSecretsEngine awsEnv awsEngine (World.initial [])).2.trace =
      [Event.listMounts, Event.read "secret/secrets-engines/aws",
        Event.write "aws//config/root" (TaskData.awsRootConfig exampleAws.RootConfig),
        Event.write "aws//config/lease" (TaskData.awsConfigLease exampleAws.ConfigLease),
        Event.list "aws/roles"] :=
  ⟨rfl, rfl⟩

/-! ## C6 -/


theorem countedFrom_append (b : Bool) (a c : List Event) (ha : countedFrom b a = true)
    (hc : countedFrom false c = true) : countedFrom b (a ++ c) = true := by
  induction a generalizing b with
  | nil =>
    cases b with
    | true => simp [countedFrom] at ha
    | false => simpa using hc
  | cons e t ih =>
    cases b with
    | true =>
      simp only [countedFrom, Bool.and_eq_true] at ha
      simp only [List.cons_append, countedFrom, Bool.and_eq_true]
      exact ⟨ha.1, ih false ha.2⟩
    | false =>
      simp only [countedFrom] at ha
      simp only [List.cons_append, countedFrom]
      by_cases hadd : e.isAdd = true
      · rw [if_pos hadd] at ha ⊢
        exact ih true ha
      · rw [if_neg hadd] at ha ⊢
        simp only [Bool.and_eq_true] at ha ⊢
        exact ⟨ha.1, ih false ha.2⟩

theorem countedWrites_append (a c : List Event) (ha : countedWrites a) (hc : countedWrites c) :
    countedWrites (a ++ c) :=
  countedFrom_append false a c ha hc

theorem countedWrites_nil : countedWrites [] := rfl

theorem countedFrom_noWait (b : Bool) (es : List Event) (h : countedFrom b es = true) :
    ∀ e ∈ es, e.isWait = false := by
  induction es generalizing b with
  | nil => simp
  | cons e t ih =>
    intro x hx
    cases b with
    | true =>
      simp only [countedFrom, Bool.and_eq_true] at h
      rcases List.mem_cons.mp hx with rfl | hx
      · cases x <;> simp_all [Event.isSend, Event.isWait]
      · exact ih false h.2 x hx
    | false =>
      simp only [countedFrom] at h
      by_cases hadd : e.isAdd = true
      · rw [if_pos hadd] at h
        rcases List.mem_cons.mp hx with rfl | hx
        · cases x <;> simp_all [Event.isAdd, Event.isWait]
        · exact ih true h x hx
      · rw [if_neg hadd] at h
        simp only [Bool.and_eq_true, Bool.not_eq_true'] at h
        rcases List.mem_cons.mp hx with rfl | hx
        · exact h.1.2
        · exact ih false h.2 x hx

theorem countedFrom_adds (b : Bool) (es : List Event) (h : countedFrom b es = true) :
    es.countP Event.isAdd + b.toNat = (sentTasks es).length := by
  induction es generalizing b with
  | nil => cases b <;> simp_all [countedFrom, sentTasks]
  | cons e t ih =>
    cases b with
    | true =>
      simp only [countedFrom, Bool.and_eq_true] at h
      have := ih false h.2
      cases e <;> simp_all [Event.isSend, Event.isAdd, sentTasks, List.countP_cons]
    | false =>
      simp only [countedFrom] at h
      by_cases hadd : e.isAdd = true
      · rw [if_pos hadd] at h
        have := ih true h
        cases e <;> simp_all [Event.isAdd, sentTasks, List.countP_cons]
      · rw [if_neg hadd] at h
        simp only [Bool.and_eq_true, Bool.not_eq_true'] at h
        have := ih false h.2
        cases e <;> simp_all [Event.isAdd, Event.isSend, sentTasks, List.countP_cons]

theorem runStep_coordinator (state next : Nat × Nat) (e : Event)
    (h : runStep state (Step.coordinator e) = some next) :
    next.1 = state.1 + (if e.isAdd = true then 1 else 0) := by
  cases e with
  | wgAdd => simp only [runStep, Option.some.injEq] at h; subst h; simp [Event.isAdd]
  | taskChanSend t => simp only [runStep, Option.some.injEq] at h; subst h; simp [Event.isAdd]
  | wgWait =>
    simp only [runStep] at h
    split at h
    · simp only [Option.some.injEq] at h; subst h; simp [Event.isAdd]
    · simp at h
  | listMounts => simp only [runStep, Option.some.injEq] at h; subst h; simp [Event.isAdd]
  | listAuth => simp only [runStep, Option.some.injEq] at h; subst h; simp [Event.isAdd]
  | enableAuth p o => simp only [runStep, Option.some.injEq] at h; subst h; simp [Event.isAdd]
  | read p => simp only [runStep, Option.some.injEq] at h; subst h; simp [Event.isAdd]
  | list p => simp only [runStep, Option.some.injEq] at h; subst h; simp [Event.isAdd]
  | write p d => simp only [runStep, Option.some.injEq] at h; subst h; simp [Event.isAdd]
  | delete p => simp only [runStep, Option.some.injEq] at h; subst h; simp [Event.isAdd]
  | taskPromptChanSend t =>
    simp only [runStep, Option.some.injEq] at h; subst h; simp [Event.isAdd]
  | additionalConfig t p =>
    simp only [runStep, Option.some.injEq] at h; subst h; simp [Event.isAdd]
  | askForConfirmation m =>
    simp only [runStep, Option.some.injEq] at h; subst h; simp [Event.isAdd]

/-- Along any execution that can happen, the counter is the number of
increments of the coordinator minus the number of completed tasks. -/
theorem runSteps_counter (steps : List Step) (state final : Nat × Nat)
    (h : runSteps steps state = some final) :
    final.1 + completions steps = state.1 + (coordinatorEvents steps).countP Event.isAdd := by
  induction steps generalizing state with
  | nil =>
    simp only [runSteps, Option.some.injEq] at h
    subst h
    simp [completions, coordinatorEvents]
  | cons step rest ih =>
    simp only [runSteps] at h
    cases hs : runStep state step with
    | none => rw [hs] at h; simp at h
    | some next =>
      rw [hs] at h
      have hrec := ih next h
      cases step with
      | workerDone =>
        simp only [runStep] at hs
        split at hs
        · simp at hs
        · next hz =>
          simp only [Option.some.injEq] at hs
          subst hs
          simp only [completions, coordinatorEvents] at hrec ⊢
          simp only [not_or] at hz
          omega
      | coordinator e =>
        have hn := runStep_coordinator state next e hs
        simp only [completions, coordinatorEvents, List.countP_cons] at hrec ⊢
        omega

theorem countedWrites_others (es : List Event)
    (h : ∀ e ∈ es, e.isAdd = false ∧ e.isSend = false ∧ e.isWait = false) : countedWrites es := by
  induction es with
  | nil => rfl
  | cons e t ih =>
    obtain ⟨h1, h2, h3⟩ := h e (by simp)
    have ht := ih (fun x hx => h x (List.mem_cons_of_mem _ hx))
    unfold countedWrites at ht ⊢
    simp [countedFrom, h1, h2, h3, ht]

theorem countedWrites_lookups (es : List Event) (h : ∀ e ∈ es, e.isLookup = true) :
    countedWrites es := by
  apply countedWrites_others
  intro e he
  have := h e he
  cases e <;> simp_all [Event.isLookup, Event.isAdd, Event.isSend, Event.isWait]

theorem countedWrites_hooks (es : List Event) (h : ∀ e ∈ es, e.isAdditionalConfig = true) :
    countedWrites es := by
  apply countedWrites_others
  intro e he
  have := h e he
  cases e <;> simp_all [Event.isAdditionalConfig, Event.isAdd, Event.isSend, Event.isWait]

theorem countedWrites_write (task : taskWrite) :
    countedWrites [Event.wgAdd, Event.taskChanSend task] := rfl

theorem countedWrites_flatMap {α : Type} (f : α → taskWrite) (l : List α) :
    countedWrites (l.flatMap (fun a => [Event.wgAdd, Event.taskChanSend (f a)])) := by
  induction l with
  | nil => rfl
  | cons a t ih =>
    rw [List.flatMap_cons]
    exact countedWrites_append _ _ (countedWrites_write _) ih

theorem countedWrites_authConfigEvents (mount : authMethod) :
    countedWrites (authConfigEvents mount) := by
  unfold authConfigEvents
  cases mount.Config <;> rfl

theorem countedWrites_gcpWriteEvents (env : Env) (se : SecretsEngine) (g : SecretsEngineGCP) :
    countedWrites (gcpWriteEvents env se g) := by
  unfold gcpWriteEvents
  apply countedWrites_append
  · unfold gcpRootConfigEvents
    split <;> rfl
  · exact countedWrites_append _ _ (countedWrites_write _) (countedWrites_flatMap _ _)

theorem parseAuthMethod_emits (env : Env) (filename : String) (m : authMethod)
    (r : String × Option GoError) : ∃ o, Emits (parseAuthMethod env filename m r) [] o := by
  unfold parseAuthMethod
  split
  · exact ⟨_, Emits.logFatal _⟩
  · split
    · exact ⟨_, Emits.logFatal _⟩
    · split
      · exact ⟨_, Emits.logFatal _⟩
      · exact ⟨_, Emits.pure _⟩

theorem loadAuthMethod_emits (env : Env) (filename : String) (m : authMethod) :
    ∃ es o, Emits (loadAuthMethod env filename m) es o ∧ ∀ e ∈ es, e.isLookup = true := by
  unfold loadAuthMethod
  split
  · exact ⟨[], _, Emits.logFatal _, by simp⟩
  · next content _ =>
    split
    · exact ⟨[], _, Emits.logFatal _, by simp⟩
    · obtain ⟨es, o, h, hes⟩ := performSubstitutions_lookups env content
        ("auth_methods/" ++ m.Path)
      cases o with
      | fatal msg => exact ⟨es, _, Emits.bind_fatal h, hes⟩
      | ok r =>
        obtain ⟨o3, h3⟩ := parseAuthMethod_emits env filename m r
        exact ⟨es, o3, by simpa using Emits.bind h h3, hes⟩

theorem getAuthMethodsFiles_adds (env : Env) (files : List String) (declared : authMethodList) :
    Adds countedWrites (getAuthMethodsFiles env files declared) := by
  induction files generalizing declared with
  | nil =>
    have h : Emits (getAuthMethodsFiles env [] declared) [] (Outcome.ok declared) := by
      simpa [getAuthMethodsFiles] using Emits.pure declared
    exact Adds.of_emits h countedWrites_nil
  | cons filename rest ih =>
    unfold getAuthMethodsFiles
    split
    · obtain ⟨es, o, h, hes⟩ := loadAuthMethod_emits env filename (newAuthMethod filename)
      exact Adds.bind_adds countedWrites_append (Adds.of_emits h (countedWrites_lookups es hes))
        (fun m => ih _)
    · exact ih _

theorem getAuthMethods_adds (env : Env) (declared : authMethodList) :
    Adds countedWrites (getAuthMethods env declared) :=
  getAuthMethodsFiles_adds env _ declared

theorem enableOrTuneAuthMethod_adds (env : Env) (mount : authMethod) :
    Adds countedWrites (enableOrTuneAuthMethod env mount) := by
  intro w
  cases hget : mapGet w.auth mount.Path with
  | none =>
    cases herr : env.enableAuthErr mount.Path with
    | none =>
      rw [enableOrTune_absent_ok env mount w hget herr]
      exact ⟨_, rfl, rfl⟩
    | some err =>
      obtain ⟨msg, h⟩ := enableOrTune_absent_err env mount w hget err herr
      rw [h]
      exact ⟨_, rfl, rfl⟩
  | some existing =>
    by_cases htype : existing.type = mount.AuthOptions.type
    · rw [enableOrTune_match env mount w existing hget htype]
      exact ⟨_, rfl, rfl⟩
    · obtain ⟨msg, h⟩ := enableOrTune_mismatch env mount w existing hget htype
      rw [h]
      exact ⟨_, rfl, rfl⟩

theorem configureAuthMethod_adds (env : Env) (mount : authMethod) :
    Adds countedWrites (configureAuthMethod env mount) := by
  unfold configureAuthMethod
  refine Adds.bind_adds countedWrites_append (enableOrTuneAuthMethod_adds env mount) (fun _ => ?_)
  refine Adds.bind_adds countedWrites_append
    (Adds.of_emits (writeAuthConfig_emits mount) (countedWrites_authConfigEvents mount))
    (fun _ => ?_)
  obtain ⟨es, o, h, hes⟩ := additionalAuthConfig_emits env mount
  exact Adds.of_emits h (countedWrites_hooks es hes)

theorem configureAuthMethods_adds (env : Env) (declared : authMethodList) :
    Adds countedWrites (configureAuthMethods env declared) := by
  unfold configureAuthMethods
  exact Adds.forRange_adds countedWrites_nil countedWrites_append
    (fun (entry : String × authMethod) => configureAuthMethod_adds env entry.2) _

/-- The counter observed along an execution that ends right before a listing:
the number of enqueued writes minus the number of completed ones. -/
theorem pending_before_listing (pre : List Event) (hpre : countedWrites pre) :
    (∀ e ∈ pre, e.isWait = false) ∧
    ∀ steps final, coordinatorEvents steps = pre → runSteps steps (0, 0) = some final →
      final.1 + completions steps = (sentTasks pre).length := by
  refine ⟨countedFrom_noWait false pre hpre, ?_⟩
  intro steps final hsteps hrun
  have h1 := runSteps_counter steps (0, 0) final hrun
  have h2 := countedFrom_adds false pre hpre
  rw [hsteps] at h1
  simp at h1 h2
  omega

/-- C6 (as amended): neither `SyncAuthMethods` nor `ConfigureGcpSecretsEngine`
waits on the completion counter.  Up to the cleanup listing (`ListAuth`, or the
list of `<Path>roleset`) the coordinator increments the counter once right
before each send on the write queue and never waits; so in every execution the
counter at the cleanup listing is the number of writes enqueued so far minus
the number the workers have completed, and the GCP engine has enqueued at
least its config lease by then. -/
theorem no_barrier_before_cleanup (env : Env) (w : World) :
    (∀ w1, SyncAuthMethods env w = (Outcome.ok (), w1) →
      ∃ pre tasks, w1.trace = w.trace ++ (pre ++ Event.listAuth ::
          List.map Event.taskPromptChanSend tasks) ∧
        countedWrites pre ∧ (∀ e ∈ pre, e.isWait = false) ∧
        ∀ steps final, coordinatorEvents steps = pre → runSteps steps (0, 0) = some final →
          final.1 + completions steps = (sentTasks pre).length) ∧
    (∀ se g w1, loadGcpSecretsEngine env se w = (Outcome.ok (some g), w1) →
      ∃ pre tail, (ConfigureGcpSecretsEngine env se w).2.trace =
          w.trace ++ (pre ++ Event.list (se.Path ++ "roleset") :: tail) ∧
        countedWrites pre ∧ (∀ e ∈ pre, e.isWait = false) ∧
        1 ≤ (sentTasks pre).length ∧
        ∀ steps final, coordinatorEvents steps = pre → runSteps steps (0, 0) = some final →
          final.1 + completions steps = (sentTasks pre).length) := by
  constructor
  · intro w1 hsync
    obtain ⟨es1, h1, q1⟩ := getAuthMethods_adds env [] w
    rcases hg : getAuthMethods env [] w with ⟨o1, wa⟩
    rw [hg] at h1
    simp only [SyncAuthMethods, run_bind, hg] at hsync
    cases o1 with
    | fatal msg => simp at hsync
    | ok declared =>
      simp only at hsync
      obtain ⟨es2, h2, q2⟩ := configureAuthMethods_adds env declared wa
      rcases hc : configureAuthMethods env declared wa with ⟨o2, wb⟩
      rw [hc] at h2 hsync
      cases o2 with
      | fatal msg => simp at hsync
      | ok u =>
        simp only at hsync h1 h2
        rw [cleanupAuthMethods_eq] at hsync
        simp only [Prod.mk.injEq, true_and] at hsync
        have hpre := countedWrites_append es1 es2 q1 q2
        obtain ⟨hw, hp⟩ := pending_before_listing (es1 ++ es2) hpre
        refine ⟨es1 ++ es2, ((env.range wb.auth).filter (isOrphan declared)).map
          (fun e => authDeleteTask e.1), ?_, hpre, hw, hp⟩
        rw [← hsync]
        simp only [h2, h1, List.append_assoc, List.map_map, Function.comp_def]
  · intro se g w1 hload
    obtain ⟨lookups, tail, o, hlook, heq, _, _⟩ :=
      ConfigureGcpSecretsEngine_loaded env se w w1 g hload
    have hpre := countedWrites_append lookups (gcpWriteEvents env se g)
      (countedWrites_lookups lookups hlook) (countedWrites_gcpWriteEvents env se g)
    obtain ⟨hw, hp⟩ := pending_before_listing _ hpre
    refine ⟨lookups ++ gcpWriteEvents env se g, tail, ?_, hpre, hw, ?_, hp⟩
    · rw [heq]; simp
    · rw [sentTasks_append, sentTasks_gcpWriteEvents]
      simp
      omega

/-- A witness of `no_barrier_before_cleanup`: the auth method `ldap`, live with
the declared type. -/
theorem no_barrier_before_cleanup_witness :
    ∃ pre tasks,
      [Event.listMounts, Event.read "secret/auth_methods/ldap/", Event.listAuth, Event.wgAdd,
          Event.taskChanSend (tuneTask { newAuthMethod "ldap.json" with
            AuthOptions := { zeroEnableAuthOptions with type := "ldap" } }),
          Event.additionalConfig "ldap" "ldap/", Event.listAuth] =
        (World.initial [("ldap/", { type := "ldap" })]).trace ++ (pre ++ Event.listAuth ::
          List.map Event.taskPromptChanSend tasks) ∧
      countedWrites pre ∧ (∀ e ∈ pre, e.isWait = false) ∧
      ∀ steps final, coordinatorEvents steps = pre → runSteps steps (0, 0) = some final →
        final.1 + completions steps = (sentTasks pre).length :=
  (no_barrier_before_cleanup authEnv (World.initial [("ldap/", { type := "ldap" })])).1
    { auth := [("ldap/", { type := "ldap" })],
      trace := [Event.listMounts, Event.read "secret/auth_methods/ldap/", Event.listAuth,
        Event.wgAdd,
        Event.taskChanSend (tuneTask { newAuthMethod "ldap.json" with
          AuthOptions := { zeroEnableAuthOptions with type := "ldap" } }),
        Event.additionalConfig "ldap" "ldap/", Event.listAuth] } rfl

/-- C6 (as stated) fails: for the declared auth method `ldap`, live with the
declared type, `SyncAuthMethods` performs no wait on the counter: the cleanup
listing (the last event) comes after the send of the tune task with only the
kind-specific configuration in between, and in the execution where the worker
has not yet completed that task the counter is 1 at the cleanup listing.
Likewise `ConfigureGcpSecretsEngine` lists the live role sets right after its
last send, and the counter is 1 there when the worker has completed the config
lease alone. -/
theorem cleanup_lists_with_pending_write :
    ((SyncAuthMethods authEnv (World.initial [("ldap/", { type := "ldap" })])).2.trace =
        [Event.listMounts, Event.read "secret/auth_methods/ldap/", Event.listAuth, Event.wgAdd,
          Event.taskChanSend (tuneTask { newAuthMethod "ldap.json" with
            AuthOptions := { zeroEnableAuthOptions with type := "ldap" } }),
          Event.additionalConfig "ldap" "ldap/", Event.listAuth] ∧
      runSteps [Step.coordinator Event.listMounts,
          Step.coordinator (Event.read "secret/auth_methods/ldap/"),
          Step.coordinator Event.listAuth, Step.coordinator Event.wgAdd,
          Step.coordinator (Event.taskChanSend (tuneTask { newAuthMethod "ldap.json" with
            AuthOptions := { zeroEnableAuthOptions with type := "ldap" } })),
          Step.coordinator (Event.additionalConfig "ldap" "ldap/")] (0, 0) = some (1, 1)) ∧
    ((ConfigureGcpSecretsEngine (gcpEnv false) gcpEngine (World.initial [])).2.trace =
        [Event.listMounts, Event.read "secret/secrets-engines/gcp", Event.wgAdd,
          Event.taskChanSend (gcpConfigLeaseTask gcpEngine
            (exampleGcp false [("viewer", exampleRoleSet)])),
          Event.wgAdd,
          Event.taskChanSend (gcpRoleSetTask gcpEngine ("viewer", exampleRoleSet)),
          Event.list "gcp/roleset",
          Event.taskPromptChanSend (gcpRoleSetDeleteTask gcpEngine "old")] ∧
      runSteps [Step.coordinator Event.listMounts,
          Step.coordinator (Event.read "secret/secrets-engines/gcp"),
          Step.coordinator Event.wgAdd,
          Step.coordinator (Event.taskChanSend (gcpConfigLeaseTask gcpEngine
            (exampleGcp false [("viewer", exampleRoleSet)]))),
          Step.workerDone,
          Step.coordinator Event.wgAdd,
          Step.coordinator (Event.taskChanSend
            (gcpRoleSetTask gcpEngine ("viewer", exampleRoleSet)))] (0, 0) = some (1, 1)) :=
  ⟨⟨rfl, rfl⟩, ⟨rfl, rfl⟩⟩

/-! ## C12 -/

/-- The recursion of the source: with a positive budget, a failed read and an
invalid response recurse with `max - 1`. -/
theorem askForConfirmation_step (responses : List (Option String)) (msg : String) (max : Int)
    (h : 0 < max) :
    askForConfirmation responses msg max =
      match responses with
      | [] => askForConfirmation [] msg (max - 1)
      | none :: rest =>
        ((askForConfirmation rest msg (max - 1)).1, (askForConfirmation rest msg (max - 1)).2 + 1)
      | some response :: rest =>
        match response.data with
        | [] => (none, 1)
        | c :: _ =>
          if lowerIsY c then (some true, 1)
          else if lowerIsN c then (some false, 1)
          else ((askForConfirmation rest msg (max - 1)).1,
            (askForConfirmation rest msg (max - 1)).2 + 1) := by
  obtain ⟨n, hn⟩ : ∃ n : Nat, max = (n : Int) + 1 := ⟨(max - 1).toNat, by omega⟩
  subst hn
  have h1 : ((n : Int) + 1).toNat = n + 1 := by omega
  have h2 : ((n : Int) + 1 - 1).toNat = n := by omega
  unfold askForConfirmation
  rw [h1, h2]
  cases responses with
  | nil => rfl
  | cons r rest =>
    cases r with
    | none => rfl
    | some response =>
      simp only [askForConfirmationLoop]

theorem askForConfirmationLoop_answer (n : Nat) (responses : List (Option String))
    (hne : ∀ r ∈ responses, r ≠ some "") :
    ∃ answer consumed, askForConfirmationLoop n responses = (some answer, consumed) ∧
      consumed ≤ n ∧ consumed ≤ responses.length ∧
      (answer = true ↔ ∃ r, (responses.take n).find? isDecisive = some r ∧ saysYes r = true) := by
  induction n generalizing responses with
  | zero => exact ⟨false, 0, rfl, le_refl _, Nat.zero_le _, by simp⟩
  | succ n ih =>
    cases responses with
    | nil =>
      obtain ⟨a, c, h1, h2, h3, h4⟩ := ih [] (by simp)
      have hc : c = 0 := by simpa using h3
      subst hc
      refine ⟨a, 0, ?_, Nat.zero_le _, Nat.zero_le _, ?_⟩
      · simpa [askForConfirmationLoop] using h1
      · simpa using h4
    | cons r rest =>
      have hrest : ∀ x ∈ rest, x ≠ some "" := fun x hx => hne x (List.mem_cons_of_mem _ hx)
      obtain ⟨a, c, h1, h2, h3, h4⟩ := ih rest hrest
      cases r with
      | none =>
        refine ⟨a, c + 1, ?_, by omega, by simp; omega, ?_⟩
        · simp [askForConfirmationLoop, h1]
        · rw [h4]
          simp [List.take_succ_cons, List.find?_cons, isDecisive]
      | some response =>
        cases hd : response.data with
        | nil =>
          exfalso
          exact hne (some response) (by simp) (by
            congr 1
            exact String.ext (by simpa using hd))
        | cons ch t =>
          by_cases hy : lowerIsY ch = true
          · refine ⟨true, 1, ?_, by omega, by simp, ?_⟩
            · simp [askForConfirmationLoop, hd, hy]
            · simp [List.take_succ_cons, List.find?_cons, isDecisive, saysYes, hd, hy]
          · by_cases hn : lowerIsN ch = true
            · refine ⟨false, 1, ?_, by omega, by simp, ?_⟩
              · simp [askForConfirmationLoop, hd, hy, hn]
              · simp [List.take_succ_cons, List.find?_cons, isDecisive, saysYes, hd, hy, hn]
            · refine ⟨a, c + 1, ?_, by omega, by simp; omega, ?_⟩
              · simp [askForConfirmationLoop, hd, hy, hn, h1]
              · rw [h4]
                simp [List.take_succ_cons, List.find?_cons, isDecisive, hd, hy, hn]

theorem askForConfirmationLoop_firstCharacter (n : Nat) (responses other : List (Option String))
    (hne : ∀ r ∈ responses, r ≠ some "") (hno : ∀ r ∈ other, r ≠ some "")
    (h : other.map firstCharacter = responses.map firstCharacter) :
    askForConfirmationLoop n other = askForConfirmationLoop n responses := by
  induction n generalizing responses other with
  | zero => rfl
  | succ n ih =>
    cases responses with
    | nil =>
      have : other = [] := by simpa using h
      rw [this]
    | cons r rest =>
      cases other with
      | nil => simp at h
      | cons r2 rest2 =>
        simp only [List.map_cons, List.cons.injEq] at h
        have hrest := ih rest rest2 (fun x hx => hne x (List.mem_cons_of_mem _ hx))
          (fun x hx => hno x (List.mem_cons_of_mem _ hx)) h.2
        have hd2 : ∀ s : String, s.data = [] → s = "" := fun s hs => String.ext (by simpa using hs)
        cases r with
        | none =>
          cases r2 with
          | none => simp [askForConfirmationLoop, hrest]
          | some s2 =>
            cases hd : s2.data with
            | nil => exact absurd (congrArg some (hd2 s2 hd)) (hno (some s2) (by simp))
            | cons c t => simp [firstCharacter, hd] at h
        | some s =>
          cases hs : s.data with
          | nil => exact absurd (congrArg some (hd2 s hs)) (hne (some s) (by simp))
          | cons c t =>
            cases r2 with
            | none => simp [firstCharacter, hs] at h
            | some s2 =>
              cases hd : s2.data with
              | nil => exact absurd (congrArg some (hd2 s2 hd)) (hno (some s2) (by simp))
              | cons c2 t2 =>
                have hc : c2 = c := by simpa [firstCharacter, hs, hd] using h.1
                subst hc
                simp [askForConfirmationLoop, hs, hd, hrest]

/-- C12: on every sequence of read results in which a read that succeeds gives a
token that is not empty (as `fmt.Scanln` does), `askForConfirmation(msg, max)`
returns an answer after consuming at most `max` results.  The answer is `true`
exactly when, among the first `max` results, the first token that starts with
`y`, `Y`, `n` or `N` starts with `y` or `Y`; so it is `false` when there is no
such token, and `false` with nothing consumed when `max ≤ 0`.  The answer
depends on the first characters of the tokens alone. -/
theorem askForConfirmation_answer (responses : List (Option String)) (msg : String) (max : Int)
    (hne : ∀ r ∈ responses, r ≠ some "") :
    ∃ answer consumed, askForConfirmation responses msg max = (some answer, consumed) ∧
      (consumed : Int) ≤ Max.max max 0 ∧ consumed ≤ responses.length ∧
      (answer = true ↔
        ∃ r, (responses.take max.toNat).find? isDecisive = some r ∧ saysYes r = true) ∧
      ((responses.take max.toNat).find? isDecisive = none → answer = false) ∧
      (max ≤ 0 → answer = false ∧ consumed = 0) ∧
      (∀ other : List (Option String), (∀ r ∈ other, r ≠ some "") →
        other.map firstCharacter = responses.map firstCharacter →
        askForConfirmation other msg max = askForConfirmation responses msg max) := by
  obtain ⟨answer, consumed, h1, h2, h3, h4⟩ :=
    askForConfirmationLoop_answer max.toNat responses hne
  refine ⟨answer, consumed, h1, by omega, h3, h4, ?_, ?_, ?_⟩
  · intro hnone
    cases answer with
    | false => rfl
    | true =>
      obtain ⟨r, hr, _⟩ := h4.mp rfl
      rw [hnone] at hr
      cases hr
  · intro hmax
    have hz : max.toNat = 0 := by omega
    rw [hz] at h1
    simp only [askForConfirmationLoop, Prod.mk.injEq, Option.some.injEq] at h1
    exact ⟨h1.1.symm, h1.2.symm⟩
  · intro other hno hsame
    exact askForConfirmationLoop_firstCharacter max.toNat responses other hne hno hsame

/-- A witness of `askForConfirmation_answer`: after a failed read and the
invalid response `maybe`, the response `Yes` is within a budget of 3. -/
theorem askForConfirmation_answer_witness :
    (∀ r ∈ [none, some "maybe", some "Yes", some "no"], r ≠ some "") ∧
    askForConfirmation [none, some "maybe", some "Yes", some "no"] "Delete? " 3 = (some true, 3) ∧
    askForConfirmation [none, some "maybe", some "Yes", some "no"] "Delete? " 2 = (some false, 2) ∧
    ∃ answer consumed,
      askForConfirmation [none, some "maybe", some "Yes", some "no"] "Delete? " 3 =
        (some answer, consumed) ∧ (consumed : Int) ≤ Max.max 3 0 :=
  ⟨by decide, by decide, by decide,
    (askForConfirmation_answer [none, some "maybe", some "Yes", some "no"] "Delete? " 3
      (by decide)).imp (fun _ h => h.imp (fun _ h2 => ⟨h2.1, h2.2.1⟩))⟩

/-! ## C11 -/

theorem rotateRoot_emits (env : Env) (path key : String) :
    ∃ o, Emits (rotateRoot env path key)
        [Event.write (path ++ "config/rotate-root") TaskData.nil] o ∧
      ((env.vaultWriteErr (path ++ "config/rotate-root") = none →
        secretString (env.vaultWriteSecret (path ++ "config/rotate-root")) key ≠ none) →
        o = Outcome.ok ()) := by
  unfold rotateRoot
  cases he : env.vaultWriteErr (path ++ "config/rotate-root") with
  | some err =>
    refine ⟨Outcome.ok (), ?_, fun _ => rfl⟩
    have := Emits.bind (f := fun _ => (pure () : Run Unit))
      (Emits.emit (Event.write (path ++ "config/rotate-root") TaskData.nil)) (Emits.pure ())
    simpa using this
  | none =>
    cases hs : secretString (env.vaultWriteSecret (path ++ "config/rotate-root")) key with
    | some v =>
      refine ⟨Outcome.ok (), ?_, fun _ => rfl⟩
      have := Emits.bind (f := fun _ => (pure () : Run Unit))
        (Emits.emit (Event.write (path ++ "config/rotate-root") TaskData.nil)) (Emits.pure ())
      simpa using this
    | none =>
      refine ⟨Outcome.fatal "panic: interface conversion or nil pointer dereference", ?_,
        fun h => absurd rfl (h rfl)⟩
      have := Emits.bind
        (f := fun _ => (logFatal "panic: interface conversion or nil pointer dereference" :
          Run Unit)) (Emits.emit (Event.write (path ++ "config/rotate-root") TaskData.nil))
        (Emits.logFatal _)
      simpa using this

theorem Emits.forRange_mem {α : Type} {f : α → Run Unit} {g : α → List Event} (l : List α)
    (h : ∀ a ∈ l, Emits (f a) (g a) (Outcome.ok ())) :
    Emits (VaultAdmin.forRange f l) (l.flatMap g) (Outcome.ok ()) := by
  induction l with
  | nil => simpa [VaultAdmin.forRange] using Emits.pure ()
  | cons a as ih =>
    have := Emits.bind (f := fun _ => VaultAdmin.forRange f as) (h a (by simp))
      (ih (fun x hx => h x (List.mem_cons_of_mem _ hx)))
    simpa [VaultAdmin.forRange, List.flatMap_cons] using this

theorem rotationEvents_flatMap (mounts : List (String × MountOutput)) :
    mounts.flatMap (fun entry => rotationEvents [entry]) = rotationEvents mounts := by
  induction mounts with
  | nil => rfl
  | cons a t ih =>
    rw [List.flatMap_cons, ih]
    unfold rotationEvents
    by_cases h : a.2.type = "aws" ∨ a.2.type = "gcp" <;> simp [List.filter_cons, h]

theorem rotateMount_emits (env : Env) (entry : String × MountOutput)
    (h : rotationReadable env entry) :
    Emits (rotateMount env entry) (rotationEvents [entry]) (Outcome.ok ()) := by
  unfold rotateMount rotationEvents
  by_cases ha : entry.2.type = "aws"
  · have hg : ¬ entry.2.type = "gcp" := by rw [ha]; decide
    obtain ⟨o, he, ho⟩ := rotateRoot_emits env entry.1 "access_key"
    have hok := ho (h "access_key" (by simp [rotatedKey, ha]))
    subst hok
    have := Emits.bind (f := fun _ => (pure () : Run Unit)) he (Emits.pure ())
    simpa [ha, hg, List.filter_cons] using this
  · by_cases hg : entry.2.type = "gcp"
    · obtain ⟨o, he, ho⟩ := rotateRoot_emits env entry.1 "private_key_id"
      have hok := ho (h "private_key_id" (by simp [rotatedKey, ha, hg]))
      subst hok
      have := Emits.bind (f := fun _ => rotateRoot env entry.1 "private_key_id")
        (Emits.pure ()) he
      simpa [ha, hg, List.filter_cons] using this
    · have := Emits.bind (f := fun _ => (pure () : Run Unit)) (Emits.pure ()) (Emits.pure ())
      simpa [ha, hg, List.filter_cons] using this

/-- When every rotation returns an error or a secret with the reported key,
`RotateCreds` lists the mounts and then writes once to
`<mount path>config/rotate-root` for each mount of type `aws` or `gcp`, in
visiting order, and for no other mount, whichever rotations return an error. -/
theorem RotateCreds_rotates (env : Env)
    (h : ∀ entry ∈ env.mounts.getD [], rotationReadable env entry) :
    Emits (RotateCreds env)
      (Event.listMounts :: rotationEvents (env.range (env.mounts.getD []))) (Outcome.ok ()) := by
  have hloop := Emits.forRange_mem (f := rotateMount env)
    (g := fun entry => rotationEvents [entry]) (env.range (env.mounts.getD []))
    (fun entry he => rotateMount_emits env entry
      (h entry ((env.range_perm _).mem_iff.mp he)))
  rw [rotationEvents_flatMap] at hloop
  have := Emits.bind (f := fun _ => forRange (rotateMount env) (env.range (env.mounts.getD [])))
    (Emits.emit Event.listMounts) hloop
  simpa [RotateCreds] using this

/-- C11: for the live mounts `aws1/` and `aws2/`, both of type `aws` and visited in
this order, when the rotation of `aws1/` returns no error and a secret without
the string `access_key`, `RotateCreds` ends at the type assertion after the
write to `aws1/config/rotate-root` and never writes to
`aws2/config/rotate-root`.  When the rotation of `aws1/` returns an error
instead, both writes are made and the run returns. -/
theorem RotateCreds_stops_at_unreadable_response :
    (RotateCreds rotateEnv (World.initial [])).1.isFatal = true ∧
    (RotateCreds rotateEnv (World.initial [])).2.trace =
      [Event.listMounts, Event.write "aws1/config/rotate-root" TaskData.nil] ∧
    rotateEnv.vaultWriteErr "aws1/config/rotate-root" = none ∧
    (RotateCreds rotateErrEnv (World.initial [])).1.isFatal = false ∧
    (RotateCreds rotateErrEnv (World.initial [])).2.trace =
      [Event.listMounts, Event.write "aws1/config/rotate-root" TaskData.nil,
        Event.write "aws2/config/rotate-root" TaskData.nil] :=
  ⟨rfl, rfl, rfl, rfl, rfl⟩

/-! ## C14 -/

/-- The path `path.Join("name/", "config")` is `name/config`. -/
theorem pathJoin_gcpConfig (seg : String) (segs : List String)
    (h : ∀ s ∈ seg :: segs, normalSegment s) :
    pathJoin [stringsJoin (seg :: segs) ++ "/", "config"] =
      stringsJoin (seg :: segs) ++ "/" ++ "config" := by
  have hc := normalChars_segs h
  have hseg : normalChars seg.data := hc _ (by simp)
  have hsegs : ∀ c ∈ segs.map String.data, normalChars c :=
    fun c hc2 => hc c (by simp at hc2 ⊢; exact Or.inr hc2)
  rw [pathJoin_components [stringsJoin (seg :: segs) ++ "/", "config"]
    [(seg :: segs).map String.data ++ [[]], [['c', 'o', 'n', 'f', 'i', 'g']]]
    seg.data ([] ++ (segs.map String.data ++ [[], ['c', 'o', 'n', 'f', 'i', 'g']]))]
  · apply String.ext
    rw [String.data_append, String.data_append, stringsJoin_data,
      filter_kept _ _ _ hsegs]
    have e2 : ([[], ['c', 'o', 'n', 'f', 'i', 'g']] :
        List (List Char)).filter (fun c => c ≠ []) = [['c', 'o', 'n', 'f', 'i', 'g']] := by
      decide
    rw [e2]
    show joinSlash (seg.data :: segs.map String.data ++ [['c', 'o', 'n', 'f', 'i', 'g']]) = _
    have e3 : seg.data :: segs.map String.data = (seg :: segs).map String.data := rfl
    rw [e3, joinSlash_append _ _ (by simp) (by simp)]
    simp [joinSlash]
  · intro e he
    simp at he
    rcases he with rfl | rfl
    · exact mountPath_ne_empty _
    · decide
  · simp
  · simp only [List.map_cons, List.map_nil, mountPath_data (seg :: segs) (by simp)]
    rfl
  · intro l hl
    simp at hl
    rcases hl with rfl | rfl <;> simp
  · simp
  · exact hseg
  · refine rest_kept _ _ _ ?_ hsegs ?_
    · intro c hc2; simp at hc2
    · intro c hc2; simp at hc2; rcases hc2 with rfl | rfl
      · left; rfl
      · right; decide

theorem string_append_cancel_left (a b c : String) (h : a ++ b = a ++ c) : b = c := by
  apply String.ext
  have := congrArg String.data h
  simpa [String.data_append] using this

/-- For a mount path `name/` and declared role sets with distinct names that
`path.Join` keeps as they are, the paths of the config-lease task and of the
role-set tasks are pairwise distinct. -/
theorem gcp_lease_roleset_paths_nodup (se : SecretsEngine) (g : SecretsEngineGCP)
    (entries : List (String × gcpRoleSetEntry)) (seg : String) (segs : List String)
    (hs : ∀ s ∈ seg :: segs, normalSegment s) (hp : se.Path = stringsJoin (seg :: segs) ++ "/")
    (hkeys : (entries.map Prod.fst).Nodup) (hnames : ∀ entry ∈ entries, normalSegment entry.1) :
    ((gcpConfigLeaseTask se g :: entries.map (gcpRoleSetTask se)).map taskWrite.Path).Nodup := by
  have hlease : (gcpConfigLeaseTask se g).Path = se.Path ++ "config" := by
    show pathJoin [se.Path, "config"] = _
    rw [hp, pathJoin_gcpConfig seg segs hs]
  have hrole : ∀ entry ∈ entries,
      (gcpRoleSetTask se entry).Path = se.Path ++ ("roleset/" ++ entry.1) := by
    intro entry he
    show pathJoin [se.Path, "roleset", entry.1] = _
    rw [hp, pathJoin_roleset seg segs entry.1 hs (hnames entry he), String.append_assoc]
  have hmap : (entries.map (gcpRoleSetTask se)).map taskWrite.Path =
      (entries.map Prod.fst).map (fun name => se.Path ++ ("roleset/" ++ name)) := by
    rw [List.map_map, List.map_map]
    exact List.map_congr_left (fun entry he => hrole entry he)
  rw [List.map_cons, hmap, List.nodup_cons]
  constructor
  · intro hmem
    obtain ⟨name, _, hname⟩ := List.mem_map.mp hmem
    rw [hlease] at hname
    have h2 := congrArg String.data (string_append_cancel_left _ _ _ hname)
    simp [String.data_append] at h2
  · refine List.Nodup.map ?_ hkeys
    intro a b hab
    exact string_append_cancel_left _ _ _ (string_append_cancel_left _ _ _ hab)

/-- C14: after a load that gave a descriptor, for a mount path `name/` and
declared role sets with distinct names, all kept by `path.Join` as they are,
the write tasks that `ConfigureGcpSecretsEngine` sends are the root-config task
(when the engine was just enabled or the flag is set), the config-lease task
and one task for each role set.  The paths of the config-lease task and of the
role-set tasks are pairwise distinct; the root-config task has the path of the
config-lease task, `<mount path>config`.  So the paths of all the tasks sent
are pairwise distinct exactly when no root-config task is sent. -/
theorem ConfigureGcpSecretsEngine_write_paths (env : Env) (se : SecretsEngine) (w w1 : World)
    (g : SecretsEngineGCP) (seg : String) (segs : List String)
    (hload : loadGcpSecretsEngine env se w = (Outcome.ok (some g), w1))
    (hs : ∀ s ∈ seg :: segs, normalSegment s) (hp : se.Path = stringsJoin (seg :: segs) ++ "/")
    (hkeys : (g.RoleSets.map Prod.fst).Nodup)
    (hnames : ∀ entry ∈ g.RoleSets, normalSegment entry.1) :
    ∃ es, (ConfigureGcpSecretsEngine env se w).2.trace = w.trace ++ es ∧
      sentTasks es =
        (if se.JustEnabled = true ∨ g.OverwriteRootCredentials = true then
          [gcpRootConfigTask se g] else []) ++
        (gcpConfigLeaseTask se g :: (env.range g.RoleSets).map (gcpRoleSetTask se)) ∧
      (((sentTasks es).filter taskWrite.isNotGcpRootConfig).map taskWrite.Path).Nodup ∧
      (gcpRootConfigTask se g).Path = se.Path ++ "config" ∧
      (gcpConfigLeaseTask se g).Path = se.Path ++ "config" ∧
      (((sentTasks es).map taskWrite.Path).Nodup ↔
        ¬ (se.JustEnabled = true ∨ g.OverwriteRootCredentials = true)) := by
  obtain ⟨lookups, tail, o, hlook, heq, h1, h2⟩ :=
    ConfigureGcpSecretsEngine_loaded env se w w1 g hload
  have hl : sentTasks lookups = [] :=
    sentTasks_noSend lookups (fun e he => (lookups_noSend lookups hlook e he).1)
  have ht : sentTasks (Event.list (se.Path ++ "roleset") :: tail) = [] := by
    show sentTasks tail = []
    exact sentTasks_tail env se g tail o h1 h2
  have hrange : ((env.range g.RoleSets).map Prod.fst).Nodup :=
    ((env.range_perm g.RoleSets).map Prod.fst).nodup_iff.mpr hkeys
  have hrnames : ∀ entry ∈ env.range g.RoleSets, normalSegment entry.1 :=
    fun entry he => hnames entry ((env.range_perm g.RoleSets).mem_iff.mp he)
  have hnodup := gcp_lease_roleset_paths_nodup se g (env.range g.RoleSets) seg segs hs hp
    hrange hrnames
  have hconfig : pathJoin [se.Path, "config"] = se.Path ++ "config" := by
    rw [hp, pathJoin_gcpConfig seg segs hs]
  have hsent : sentTasks (lookups ++ (gcpWriteEvents env se g ++
      Event.list (se.Path ++ "roleset") :: tail)) =
      (if se.JustEnabled = true ∨ g.OverwriteRootCredentials = true then
        [gcpRootConfigTask se g] else []) ++
      (gcpConfigLeaseTask se g :: (env.range g.RoleSets).map (gcpRoleSetTask se)) := by
    rw [sentTasks_append, sentTasks_append, hl, ht, sentTasks_gcpWriteEvents]
    simp
  have hfilter : ((gcpConfigLeaseTask se g :: (env.range g.RoleSets).map (gcpRoleSetTask se)).filter
      taskWrite.isNotGcpRootConfig) =
      gcpConfigLeaseTask se g :: (env.range g.RoleSets).map (gcpRoleSetTask se) := by
    apply List.filter_eq_self.mpr
    intro t ht2
    rcases List.mem_cons.mp ht2 with rfl | hm
    · rfl
    · obtain ⟨entry, _, rfl⟩ := List.mem_map.mp hm
      rfl
  refine ⟨_, by rw [heq], hsent, ?_, hconfig, hconfig, ?_⟩
  · rw [hsent, List.filter_append, hfilter]
    by_cases hc : se.JustEnabled = true ∨ g.OverwriteRootCredentials = true
    · rw [if_pos hc]
      have : [gcpRootConfigTask se g].filter taskWrite.isNotGcpRootConfig = [] := rfl
      rw [this]
      exact hnodup
    · rw [if_neg hc]
      exact hnodup
  · rw [hsent]
    by_cases hc : se.JustEnabled = true ∨ g.OverwriteRootCredentials = true
    · rw [if_pos hc]
      constructor
      · intro hnd
        exfalso
        have hx : ((gcpRootConfigTask se g).Path ::
            (gcpConfigLeaseTask se g).Path ::
              ((env.range g.RoleSets).map (gcpRoleSetTask se)).map taskWrite.Path).Nodup := by
          simpa using hnd
        exact (List.nodup_cons.mp hx).1 (List.mem_cons_self _ _)
      · intro hn
        exact absurd hc hn
    · rw [if_neg hc]
      exact ⟨fun _ => hc, fun _ => hnodup⟩

/-- A witness of `ConfigureGcpSecretsEngine_write_paths`: for the engine `gcp/`
with the flag set and the role set `viewer`, the root-config task and the
config-lease task both have the path `gcp/config`. -/
theorem ConfigureGcpSecretsEngine_write_paths_witness :
    (sentTasks (ConfigureGcpSecretsEngine (gcpEnv true) gcpEngine
        (World.initial [])).2.trace).map taskWrite.Path =
      ["gcp/config", "gcp/config", "gcp/roleset/viewer"] ∧
    (((sentTasks (ConfigureGcpSecretsEngine (gcpEnv true) gcpEngine
        (World.initial [])).2.trace).filter taskWrite.isNotGcpRootConfig).map
          taskWrite.Path).Nodup := by
  obtain ⟨es, h1, h2, h3, _⟩ := ConfigureGcpSecretsEngine_write_paths (gcpEnv true) gcpEngine
    (World.initial []) gcpLoadedWorld (exampleGcp true [("viewer", exampleRoleSet)]) "gcp" []
    rfl (by decide) (by decide) (by decide) (by decide)
  rw [h1]
  simp only [World.initial, List.nil_append]
  refine ⟨?_, h3⟩
  rw [h2]
  decide

/-- The claim C14 fails for the engine `gcp/` with the flag `overwrite_root_config`
set: the first two write tasks that `ConfigureGcpSecretsEngine` sends, the root
config and the config lease, have the same path `gcp/config`. -/
theorem ConfigureGcpSecretsEngine_shares_config_path :
    (sentTasks (ConfigureGcpSecretsEngine (gcpEnv true) gcpEngine
        (World.initial [])).2.trace).map taskWrite.Path =
      ["gcp/config", "gcp/config", "gcp/roleset/viewer"] ∧
    ¬ ((sentTasks (ConfigureGcpSecretsEngine (gcpEnv true) gcpEngine
        (World.initial [])).2.trace).map taskWrite.Path).Nodup := by
  have h : (sentTasks (ConfigureGcpSecretsEngine (gcpEnv true) gcpEngine
        (World.initial [])).2.trace).map taskWrite.Path =
      ["gcp/config", "gcp/config", "gcp/roleset/viewer"] := by decide
  refine ⟨h, ?_⟩
  rw [h]
  decide

/-! ## C13 -/

theorem parseAuthMethod_value (env : Env) (filename : String) (m loaded : authMethod)
    (r : String × Option GoError) (w w1 : World)
    (h : parseAuthMethod env filename m r w = (Outcome.ok loaded, w1)) :
    ∃ text, env.unmarshalAuthMethod text m = some loaded := by
  unfold parseAuthMethod at h
  cases hr : r.2 with
  | some e =>
    simp only [hr, logFatal, Prod.mk.injEq] at h
    exact absurd h.1 (by simp)
  | none =>
    simp only [hr] at h
    by_cases hj : env.isJSON r.1 = false
    · rw [if_pos hj] at h
      simp only [logFatal, Prod.mk.injEq] at h
      exact absurd h.1 (by simp)
    · rw [if_neg hj] at h
      cases hd : env.unmarshalAuthMethod r.1 m with
      | none =>
        simp only [hd, logFatal, Prod.mk.injEq] at h
        exact absurd h.1 (by simp)
      | some decoded =>
        simp only [hd, run_pure, Prod.mk.injEq, Outcome.ok.injEq] at h
        exact ⟨r.1, by rw [hd, h.1]⟩

theorem loadAuthMethod_value (env : Env) (filename : String) (m loaded : authMethod)
    (w w1 : World) (h : loadAuthMethod env filename m w = (Outcome.ok loaded, w1)) :
    ∃ text, env.unmarshalAuthMethod text m = some loaded := by
  unfold loadAuthMethod at h
  cases hf : env.readFile (env.ConfigurationPath ++ "/auth_methods/" ++ filename) with
  | none =>
    simp only [hf, logFatal, Prod.mk.injEq] at h
    exact absurd h.1 (by simp)
  | some content =>
    simp only [hf] at h
    by_cases hj : env.isJSON content = false
    · rw [if_pos hj] at h
      simp only [logFatal, Prod.mk.injEq] at h
      exact absurd h.1 (by simp)
    · rw [if_neg hj, run_bind] at h
      cases hp : performSubstitutions env content ("auth_methods/" ++ m.Path) w with
      | mk o w2 =>
        cases o with
        | ok r =>
          simp only [hp] at h
          exact parseAuthMethod_value env filename m loaded r w2 w1 h
        | fatal msg =>
          simp only [hp, Prod.mk.injEq] at h
          exact absurd h.1 (by simp)

/-- The value of the loop of `getAuthMethods`: one descriptor for each file with
the extension `.json`, decoded from the descriptor of the file name, each stored
in turn under its path after decoding. -/
theorem getAuthMethodsFiles_value (env : Env) (files : List String)
    (acc declared : authMethodList) (w w1 : World)
    (h : getAuthMethodsFiles env files acc w = (Outcome.ok declared, w1)) :
    ∃ ms : List authMethod,
      List.Forall₂ (fun filename m =>
          ∃ text, env.unmarshalAuthMethod text (newAuthMethod filename) = some m)
        (files.filter (fun filename => checkExt filename ".json")) ms ∧
      declared = ms.foldl (fun d m => mapSet d m.Path m) acc := by
  induction files generalizing acc w with
  | nil =>
    simp only [getAuthMethodsFiles, run_pure, Prod.mk.injEq, Outcome.ok.injEq] at h
    exact ⟨[], by simp, h.1.symm⟩
  | cons filename rest ih =>
    unfold getAuthMethodsFiles at h
    by_cases hext : checkExt filename ".json" = true
    · rw [if_pos hext, run_bind] at h
      split at h
      · next m w2 hm =>
        obtain ⟨ms, hms, hd⟩ := ih _ _ h
        obtain ⟨text, htext⟩ := loadAuthMethod_value env filename _ m w w2 hm
        refine ⟨m :: ms, ?_, by simpa using hd⟩
        rw [List.filter_cons, if_pos (by simpa using hext)]
        exact List.Forall₂.cons ⟨text, htext⟩ hms
      · simp at h
    · rw [if_neg hext] at h
      obtain ⟨ms, hms, hd⟩ := ih _ _ h
      refine ⟨ms, ?_, hd⟩
      rw [List.filter_cons, if_neg (by simpa using hext)]
      exact hms
theorem mapSet_mem {V : Type} (d : List (String × V)) (k : String) (v : V) (e : String × V)
    (h : e ∈ mapSet d k v) : e ∈ d ∨ e = (k, v) := by
  unfold mapSet at h
  split at h
  · obtain ⟨x, hx, rfl⟩ := List.mem_map.mp h
    by_cases hk : x.1 = k
    · right; simp [hk]
    · left; simpa [hk] using hx
  · rcases List.mem_append.mp h with h1 | h1
    · exact Or.inl h1
    · right; simpa using h1

theorem mapSet_keys {V : Type} (d : List (String × V)) (k : String) (v : V)
    (h : (d.map Prod.fst).Nodup) : ((mapSet d k v).map Prod.fst).Nodup := by
  unfold mapSet
  split
  · have : (d.map (fun e => if e.1 = k then (k, v) else e)).map Prod.fst = d.map Prod.fst := by
      rw [List.map_map]
      apply List.map_congr_left
      intro e _
      by_cases hk : e.1 = k <;> simp [hk]
    rw [this]
    exact h
  · next hany =>
    rw [List.map_append, List.nodup_append]
    refine ⟨h, by simp, ?_⟩
    intro a ha hb
    simp at hb
    subst hb
    obtain ⟨e, he, hk⟩ := List.mem_map.mp ha
    exact hany (List.any_eq_true.mpr ⟨e, he, by simpa using hk⟩)

theorem mapSet_fresh {V : Type} (d : List (String × V)) (k : String) (v : V)
    (h : k ∉ d.map Prod.fst) : mapSet d k v = d ++ [(k, v)] := by
  unfold mapSet
  rw [if_neg]
  intro hany
  obtain ⟨e, he, hk⟩ := List.any_eq_true.mp hany
  exact h (List.mem_map.mpr ⟨e, he, by simpa using hk⟩)

theorem foldl_mapSet_mem (ms : List authMethod) (acc : authMethodList) (e : String × authMethod)
    (h : e ∈ ms.foldl (fun d m => mapSet d m.Path m) acc) :
    e ∈ acc ∨ ∃ m ∈ ms, e = (m.Path, m) := by
  induction ms generalizing acc with
  | nil => exact Or.inl h
  | cons m t ih =>
    rcases ih _ h with h1 | ⟨x, hx, rfl⟩
    · rcases mapSet_mem _ _ _ _ h1 with h2 | h2
      · exact Or.inl h2
      · exact Or.inr ⟨m, by simp, h2⟩
    · exact Or.inr ⟨x, List.mem_cons_of_mem _ hx, rfl⟩

theorem foldl_mapSet_keys (ms : List authMethod) (acc : authMethodList)
    (h : (acc.map Prod.fst).Nodup) :
    ((ms.foldl (fun d m => mapSet d m.Path m) acc).map Prod.fst).Nodup := by
  induction ms generalizing acc with
  | nil => exact h
  | cons m t ih => exact ih _ (mapSet_keys _ _ _ h)

theorem foldl_mapSet_fresh (ms : List authMethod) (acc : authMethodList)
    (h : (acc.map Prod.fst ++ ms.map authMethod.Path).Nodup) :
    ms.foldl (fun d m => mapSet d m.Path m) acc = acc ++ ms.map (fun m => (m.Path, m)) := by
  induction ms generalizing acc with
  | nil => simp
  | cons m t ih =>
    have hm : m.Path ∉ acc.map Prod.fst := by
      intro hmem
      have := (List.nodup_append.mp h).2.2 hmem
      exact this (by simp)
    rw [List.foldl_cons, mapSet_fresh _ _ _ hm, ih]
    · simp
    · simpa [List.map_append, List.append_assoc] using h

theorem extChars_suffix (s : List Char) :
    s = s.take (s.length - (extChars s).length) ++ extChars s := by
  unfold extChars
  simp only
  split
  · next rest hdrop =>
    have hs : s.reverse = s.reverse.takeWhile (fun c => decide (c ≠ '.' ∧ c ≠ '/')) ++ '.' :: rest := by
      rw [← hdrop, List.takeWhile_append_dropWhile]
    have hs2 : s = rest.reverse ++
        '.' :: (s.reverse.takeWhile (fun c => decide (c ≠ '.' ∧ c ≠ '/'))).reverse := by
      have := congrArg List.reverse hs
      simpa using this
    have hlen : s.length - ('.' :: (s.reverse.takeWhile
        (fun c => decide (c ≠ '.' ∧ c ≠ '/'))).reverse).length = rest.reverse.length := by
      have := congrArg List.length hs2
      simp at this ⊢
      omega
    rw [hlen]
    conv_lhs => rw [hs2]
    congr 1
    conv_rhs => rw [hs2]
    simp
  · simp

/-- A file name is the name of its descriptor followed by its extension. -/
theorem newAuthMethod_name (filename : String) :
    filename = (newAuthMethod filename).Name ++ filepathExt filename := by
  apply String.ext
  rw [String.data_append]
  exact extChars_suffix filename.data

theorem newAuthMethod_path (filename : String) :
    (newAuthMethod filename).Path = (newAuthMethod filename).Name ++ "/" := rfl

theorem string_append_cancel_right (a b c : String) (h : a ++ c = b ++ c) : a = b := by
  apply String.ext
  have := congrArg String.data h
  simpa [String.data_append] using this

/-- Two files with the extension `.json` whose descriptors start with the same
path are the same file. -/
theorem newAuthMethod_path_injective (f1 f2 : String) (h1 : checkExt f1 ".json" = true)
    (h2 : checkExt f2 ".json" = true)
    (h : (newAuthMethod f1).Path = (newAuthMethod f2).Path) : f1 = f2 := by
  have hn : (newAuthMethod f1).Name = (newAuthMethod f2).Name :=
    string_append_cancel_right _ _ "/" h
  have e1 : filepathExt f1 = ".json" := by simpa [checkExt] using h1
  have e2 : filepathExt f2 = ".json" := by simpa [checkExt] using h2
  rw [newAuthMethod_name f1, newAuthMethod_name f2, hn, e1, e2]

theorem loaded_keeps (env : Env) (hkeep : keepsNameAndPath env) (files : List String)
    (ms : List authMethod)
    (h : List.Forall₂ (fun filename m =>
      ∃ text, env.unmarshalAuthMethod text (newAuthMethod filename) = some m) files ms) :
    ms.map authMethod.Path = files.map (fun filename => (newAuthMethod filename).Path) ∧
    ms.map authMethod.Name = files.map (fun filename => (newAuthMethod filename).Name) := by
  induction h with
  | nil => exact ⟨rfl, rfl⟩
  | cons hhead _ ih =>
    obtain ⟨text, htext⟩ := hhead
    obtain ⟨hn, hp⟩ := hkeep text _ _ htext
    simp [hn, hp, ih.1, ih.2]

theorem loaded_mem (env : Env) (files : List String) (ms : List authMethod)
    (h : List.Forall₂ (fun filename m =>
      ∃ text, env.unmarshalAuthMethod text (newAuthMethod filename) = some m) files ms)
    (m : authMethod) (hm : m ∈ ms) :
    ∃ filename ∈ files, ∃ text, env.unmarshalAuthMethod text (newAuthMethod filename) = some m := by
  induction h with
  | nil => simp at hm
  | cons hhead _ ih =>
    rcases List.mem_cons.mp hm with rfl | hm2
    · exact ⟨_, by simp, hhead⟩
    · obtain ⟨f, hf, ht⟩ := ih hm2
      exact ⟨f, List.mem_cons_of_mem _ hf, ht⟩

/-- When `getAuthMethods` returns, the declared list is made of one
descriptor for each file with the extension `.json`, decoded from the
descriptor that starts with the file's name minus its extension as `Name` and
`Name` followed by `/` as `Path`, and each stored in turn under its `Path` after
decoding, a later one replacing an earlier one with the same `Path`.  So every
entry is stored under its own `Path` and the keys are distinct.  When no file
content sets `Name` or `Path`, every entry has `Path` equal to its `Name`
followed by `/`, the `Name` is that of a file of the directory, and distinct
files give distinct entries: the keys are the paths of the files, one each. -/
theorem getAuthMethods_paths (env : Env) (w w1 : World) (declared : authMethodList)
    (hrun : getAuthMethods env [] w = (Outcome.ok declared, w1)) :
    ∃ ms : List authMethod,
      List.Forall₂ (fun filename m =>
          ∃ text, env.unmarshalAuthMethod text (newAuthMethod filename) = some m)
        (authMethodFiles env) ms ∧
      declared = ms.foldl (fun d m => mapSet d m.Path m) [] ∧
      (∀ filename, (newAuthMethod filename).Path = (newAuthMethod filename).Name ++ "/" ∧
        filename = (newAuthMethod filename).Name ++ filepathExt filename) ∧
      (∀ entry ∈ declared, entry.1 = entry.2.Path ∧ entry.2 ∈ ms) ∧
      (declared.map Prod.fst).Nodup ∧
      (keepsNameAndPath env →
        (∀ entry ∈ declared, entry.2.Path = entry.2.Name ++ "/" ∧
          entry.2.Name ++ ".json" ∈ authMethodFiles env) ∧
        ((authMethodFiles env).Nodup →
          declared.map Prod.fst =
            (authMethodFiles env).map (fun filename => (newAuthMethod filename).Path))) := by
  obtain ⟨ms, hms, hd⟩ := getAuthMethodsFiles_value env _ [] declared w w1 hrun
  have hmem : ∀ entry ∈ declared, entry.1 = entry.2.Path ∧ entry.2 ∈ ms := by
    intro entry he
    rw [hd] at he
    rcases foldl_mapSet_mem ms [] entry he with h1 | ⟨m, hm, rfl⟩
    · simp at h1
    · exact ⟨rfl, hm⟩
  refine ⟨ms, hms, hd, fun filename => ⟨rfl, newAuthMethod_name filename⟩, hmem, ?_, ?_⟩
  · rw [hd]
    exact foldl_mapSet_keys ms [] (by simp)
  · intro hkeep
    constructor
    · intro entry he
      obtain ⟨_, hm⟩ := hmem entry he
      obtain ⟨filename, hf, text, htext⟩ := loaded_mem env _ ms hms entry.2 hm
      obtain ⟨hn, hp⟩ := hkeep text _ _ htext
      have hext : filepathExt filename = ".json" := by
        have := (List.mem_filter.mp hf).2
        simpa [checkExt] using this
      refine ⟨by rw [hp, hn]; rfl, ?_⟩
      rw [hn, ← hext, ← newAuthMethod_name filename]
      exact hf
    · intro hnodup
      obtain ⟨hpaths, _⟩ := loaded_keeps env hkeep _ ms hms
      have hinj : ((authMethodFiles env).map
          (fun filename => (newAuthMethod filename).Path)).Nodup := by
        refine List.Nodup.map_on ?_ hnodup
        intro f1 h1 f2 h2 h
        exact newAuthMethod_path_injective f1 f2 (by simpa using (List.mem_filter.mp h1).2)
          (by simpa using (List.mem_filter.mp h2).2) h
      rw [hd, foldl_mapSet_fresh ms [] (by simpa [hpaths] using hinj)]
      simp only [List.nil_append, List.map_map]
      exact hpaths

/-- A witness of `getAuthMethods_paths`: the directory with the one file
`ldap.json`, whose content sets neither name nor path, gives the one entry
`ldap/`. -/
theorem getAuthMethods_paths_witness :
    getAuthMethods authEnv [] (World.initial []) =
      (Outcome.ok [("ldap/", exampleMethod "ldap" "ldap" none)],
        { auth := [], trace := [Event.listMounts, Event.read "secret/auth_methods/ldap/"] }) ∧
    ([("ldap/", exampleMethod "ldap" "ldap" none)].map Prod.fst).Nodup :=
  ⟨rfl, (getAuthMethods_paths authEnv (World.initial [])
    { auth := [], trace := [Event.listMounts, Event.read "secret/auth_methods/ldap/"] }
    [("ldap/", exampleMethod "ldap" "ldap" none)] rfl).choose_spec.2.2.2.2.1⟩

/-- C13, the code at the failing input: for the directory with the files `a.json` and `b.json`
whose contents both set the path `shared/`: `getAuthMethods` returns without an
error, with the one entry `shared/`, of the name `b` and the path `shared/`;
the descriptor of `a.json` is replaced. -/
theorem getAuthMethods_shares_path :
    authMethodFiles sharedPathEnv = ["a.json", "b.json"] ∧
    ((getAuthMethods sharedPathEnv [] (World.initial [])).1.value?).map declaredPaths =
      some [("shared/", "b", "shared/")] :=
  ⟨by decide, by decide⟩

/-! ## C5: the loop of `configureAuthMethods` -/

theorem forRange_split {α : Type} (f : α → Run Unit) (before after : List α) (a : α)
    (w w1 : World) (h : forRange f before w = (Outcome.ok (), w1)) :
    forRange f (before ++ a :: after) w = (f a >>= fun _ => forRange f after) w1 := by
  induction before generalizing w with
  | nil =>
    simp only [forRange, run_pure, Prod.mk.injEq] at h
    rw [← h.2]
    rfl
  | cons b t ih =>
    simp only [forRange, List.cons_append] at h ⊢
    rw [run_bind] at h ⊢
    cases hb : f b w with
    | mk o w2 =>
      cases o with
      | ok u =>
        simp only [hb] at h ⊢
        exact ih w2 h
      | fatal msg =>
        simp only [hb, Prod.mk.injEq] at h
        exact absurd h.1 (by simp)

theorem forRange_fatal {α : Type} (f : α → Run Unit) (before rest : List α) (w w2 : World)
    (msg : String) (h : forRange f before w = (Outcome.fatal msg, w2)) :
    forRange f (before ++ rest) w = (Outcome.fatal msg, w2) := by
  induction before generalizing w with
  | nil =>
    simp only [forRange, run_pure, Prod.mk.injEq] at h
    exact absurd h.1 (by simp)
  | cons b t ih =>
    simp only [forRange, List.cons_append] at h ⊢
    rw [run_bind] at h ⊢
    cases hb : f b w with
    | mk o w3 =>
      cases o with
      | ok u =>
        simp only [hb] at h ⊢
        exact ih w3 h
      | fatal msg2 =>
        simp only [hb] at h ⊢
        exact h

theorem forRange_outcome {α : Type} (f : α → Run Unit) (l : List α) (w : World) :
    (∃ w1, forRange f l w = (Outcome.ok (), w1)) ∨
      ∃ msg w2, forRange f l w = (Outcome.fatal msg, w2) := by
  cases h : forRange f l w with
  | mk o w1 =>
    cases o with
    | ok u => exact Or.inl ⟨w1, rfl⟩
    | fatal msg => exact Or.inr ⟨msg, w1, rfl⟩

/-- After the loop body of an entry, the rest of the loop only adds events. -/
theorem configureAuthMethods_rest_extends (env : Env) (mount : authMethod)
    (after : List (String × authMethod)) (w1 : World) :
    ∃ post, ((configureAuthMethod env mount >>= fun _ =>
        forRange (fun e => configureAuthMethod env e.2) after) w1).2.trace =
      (configureAuthMethod env mount w1).2.trace ++ post := by
  rw [run_bind]
  cases hb : configureAuthMethod env mount w1 with
  | mk o w2 =>
    cases o with
    | ok u =>
      obtain ⟨post, hpost, _⟩ := Adds.forRange_adds countedWrites_nil countedWrites_append
        (fun (e : String × authMethod) => configureAuthMethod_adds env e.2) after w2
      exact ⟨post, hpost⟩
    | fatal msg => exact ⟨[], by simp⟩

/-- C5: `configureAuthMethods` runs the loop body for the declared auth methods
in visiting order, in which every declared method has its place.  Every
declared method is either reached, in the world `w1` that the methods before it
left, or a method before it ended the run.  For a
method that is reached: when its path is absent from the live listing of `w1`
the run calls Enable once and sends no tune task, and a failed Enable ends the
whole run there; when its path is present with the declared type the run
calls no Enable and sends one tune task; when its path is present with another
type the whole run ends after the listing, with no Enable and no task.  In
both cases that go on the config task follows when the configuration is set,
then only the kind-specific configuration is called, and after that come the
events of the methods that follow.  For a mount `name/` the tune task has the
path `sys/auth/name/tune` and the config task the path `auth/name/config`. -/
theorem configureAuthMethods_state_machine (env : Env) (declared : authMethodList) (w : World)
    (before after : List (String × authMethod)) (entry : String × authMethod)
    (hsplit : env.range declared = before ++ entry :: after) :
    (∀ e ∈ declared, ∃ b a, env.range declared = b ++ e :: a) ∧
    ((∃ w1, forRange (fun e => configureAuthMethod env e.2) before w = (Outcome.ok (), w1)) ∨
      ∃ msg w2, forRange (fun e => configureAuthMethod env e.2) before w =
          (Outcome.fatal msg, w2) ∧
        configureAuthMethods env declared w = (Outcome.fatal msg, w2)) ∧
    ∀ w1, forRange (fun e => configureAuthMethod env e.2) before w = (Outcome.ok (), w1) →
      (∃ pre, w1.trace = w.trace ++ pre) ∧
      configureAuthMethods env declared w =
        (configureAuthMethod env entry.2 >>= fun _ =>
          forRange (fun e => configureAuthMethod env e.2) after) w1 ∧
      (mapGet w1.auth entry.2.Path = none →
        (∀ err, env.enableAuthErr entry.2.Path = some err →
          ∃ msg, configureAuthMethods env declared w = (Outcome.fatal msg, { w1 with trace :=
            w1.trace ++ [Event.listAuth, Event.enableAuth entry.2.Path entry.2.AuthOptions] })) ∧
        (env.enableAuthErr entry.2.Path = none →
          ∃ hook post, (configureAuthMethods env declared w).2.trace = w1.trace ++
              ([Event.listAuth, Event.enableAuth entry.2.Path entry.2.AuthOptions] ++
                authConfigEvents entry.2 ++ hook) ++ post ∧
            ∀ e ∈ hook, e.isAdditionalConfig = true)) ∧
      (∀ existing, mapGet w1.auth entry.2.Path = some existing →
        existing.type = entry.2.AuthOptions.type →
        ∃ hook post, (configureAuthMethods env declared w).2.trace = w1.trace ++
            ([Event.listAuth, Event.wgAdd, Event.taskChanSend (tuneTask entry.2)] ++
              authConfigEvents entry.2 ++ hook) ++ post ∧
          ∀ e ∈ hook, e.isAdditionalConfig = true) ∧
      (∀ existing, mapGet w1.auth entry.2.Path = some existing →
        existing.type ≠ entry.2.AuthOptions.type →
        ∃ msg, configureAuthMethods env declared w =
          (Outcome.fatal msg, { w1 with trace := w1.trace ++ [Event.listAuth] })) ∧
      (∀ config, entry.2.Config = some config →
        authConfigEvents entry.2 =
          [Event.wgAdd, Event.taskChanSend (authConfigTask entry.2 config)]) ∧
      (entry.2.Config = none → authConfigEvents entry.2 = []) ∧
      (∀ segs : List String, segs ≠ [] → (∀ s ∈ segs, normalSegment s) →
        entry.2.Path = stringsJoin segs ++ "/" →
        (tuneTask entry.2).Path = "sys/auth/" ++ stringsJoin segs ++ "/tune" ∧
        ∀ config, (authConfigTask entry.2 config).Path =
          "auth/" ++ stringsJoin segs ++ "/config") := by
  refine ⟨fun e he => List.append_of_mem ((env.range_perm declared).mem_iff.mpr he), ?_, ?_⟩
  · rcases forRange_outcome (fun e => configureAuthMethod env e.2) before w with h | ⟨msg, w2, h⟩
    · exact Or.inl h
    · refine Or.inr ⟨msg, w2, h, ?_⟩
      unfold configureAuthMethods
      rw [hsplit]
      exact forRange_fatal _ before (entry :: after) w w2 msg h
  · intro w1 hbefore
    have hlink : configureAuthMethods env declared w =
        (configureAuthMethod env entry.2 >>= fun _ =>
          forRange (fun e => configureAuthMethod env e.2) after) w1 := by
      unfold configureAuthMethods
      rw [hsplit]
      exact forRange_split (fun e => configureAuthMethod env e.2) before after entry w w1 hbefore
    obtain ⟨post, hpost⟩ := configureAuthMethods_rest_extends env entry.2 after w1
    obtain ⟨h1, h2, h3, h4, h5, h6⟩ := configureAuthMethod_state_machine env entry.2 w1
    have hpre : ∃ pre, w1.trace = w.trace ++ pre := by
      obtain ⟨pre, hp, _⟩ := Adds.forRange_adds countedWrites_nil countedWrites_append
        (fun (e : String × authMethod) => configureAuthMethod_adds env e.2) before w
      rw [hbefore] at hp
      exact ⟨pre, hp⟩
    refine ⟨hpre, hlink, ?_, ?_, ?_, h4, h5, h6⟩
    · intro hget
      constructor
      · intro err herr
        obtain ⟨msg, hm⟩ := (h1 hget).1 err herr
        exact ⟨msg, by rw [hlink, run_bind_fatal hm]⟩
      · intro herr
        obtain ⟨hook, hh, hhook⟩ := (h1 hget).2 herr
        exact ⟨hook, post, by rw [hlink, hpost, hh], hhook⟩
    · intro existing hget htype
      obtain ⟨hook, hh, hhook⟩ := h2 existing hget htype
      exact ⟨hook, post, by rw [hlink, hpost, hh], hhook⟩
    · intro existing hget htype
      obtain ⟨msg, hm⟩ := h3 existing hget htype
      exact ⟨msg, by rw [hlink, run_bind_fatal hm]⟩

/-- A witness of `configureAuthMethods_state_machine`: of the declared methods
`a` and `ldap`, with `ldap/` live with the declared type, the method `ldap` is
reached after `a/` was enabled and gets its tune task and its config task;
with `ldap/` live with another type the run ends after the second listing. -/
theorem configureAuthMethods_state_machine_witness :
    (envWith none (fun _ => Except.ok none)).range
        [("a/", exampleMethod "a" "approle" none),
          ("ldap/", exampleMethod "ldap" "approle" (some []))] =
      [("a/", exampleMethod "a" "approle" none)] ++
        ("ldap/", exampleMethod "ldap" "approle" (some [])) :: [] ∧
    (∃ hook post, (configureAuthMethods (envWith none (fun _ => Except.ok none))
        [("a/", exampleMethod "a" "approle" none),
          ("ldap/", exampleMethod "ldap" "approle" (some []))]
        (World.initial [("ldap/", { type := "approle" })])).2.trace =
      [Event.listAuth, Event.enableAuth "a/" (exampleMethod "a" "approle" none).AuthOptions] ++
        ([Event.listAuth, Event.wgAdd,
            Event.taskChanSend (tuneTask (exampleMethod "ldap" "approle" (some [])))] ++
          authConfigEvents (exampleMethod "ldap" "approle" (some [])) ++ hook) ++ post ∧
      ∀ e ∈ hook, e.isAdditionalConfig = true) ∧
    (configureAuthMethods (envWith none (fun _ => Except.ok none))
        [("a/", exampleMethod "a" "approle" none),
          ("ldap/", exampleMethod "ldap" "approle" (some []))]
        (World.initial [("ldap/", { type := "jwt" })])).1.isFatal = true :=
  ⟨rfl,
    ((configureAuthMethods_state_machine (envWith none (fun _ => Except.ok none))
      [("a/", exampleMethod "a" "approle" none),
        ("ldap/", exampleMethod "ldap" "approle" (some []))]
      (World.initial [("ldap/", { type := "approle" })])
      [("a/", exampleMethod "a" "approle" none)] []
      ("ldap/", exampleMethod "ldap" "approle" (some [])) rfl).2.2
      { auth := [("ldap/", { type := "approle" }), ("a/", { type := "approle" })],
        trace := [Event.listAuth,
          Event.enableAuth "a/" (exampleMethod "a" "approle" none).AuthOptions] }
      rfl).2.2.2.1 { type := "approle" } rfl rfl,
    rfl⟩

end VaultAdmin
